import Mathlib

/-! Kernel monitor (`kern/monitor.c`): hex literal parser, mapping range dumper, stack
unwinder and command interpreter.

A shallow embedding of `read_hex`, `show_mappings`, `mon_backtrace`, `mon_help`,
`mon_kerninfo`, `runcmd` and `monitor`.

* C strings are lists of characters; the string ends at the first NUL character or at
  the end of the list, whichever comes first.
* `uint32_t` values are natural numbers, reduced modulo `2^32` wherever the C arithmetic
  can overflow; memory is a function from addresses to words.
* Calls of collaborators (`cprintf`, `pgdir_walk`, `debuginfo_eip`, `readline`), of
  `read_hex` and of the commands, and reads of memory words, are recorded, in program
  order, in an event log.
* A loop that may not end takes a fuel: the result is `none` (or marked as interrupted)
  when the fuel runs out.
-/

namespace Monitor

/-! ## Machine words -/

/-- Number of values of a `uint32_t`. -/
def WORD : Nat := 4294967296

/-- Modelled from the spec: the constant `PGSIZE` of `inc/mmu.h`, the page size, whose
exponent is 12 (`>> 12` turns an address into a page number). -/
def PGSIZE : Nat := 4096

/-- The C expression `~0xFFF` converted to `uint32_t`. -/
def PGMASK : Nat := 0xFFFFF000

/-- The C expression `~0` converted to `uint32_t`: the value `read_hex` returns on failure. -/
def ALLONES : Nat := 0xFFFFFFFF

/-- The difference `a - b` of two `uint32_t` values. -/
def sub32 (a b : Nat) : Nat := (a + WORD - b % WORD) % WORD

/-! ## `read_hex` -/

/-- The loop `while(c!='\0'){...}` of `read_hex`: `cs` are the characters from `pc` on,
`ret` the accumulator. -/
def read_hex_loop : List Char → Nat → Nat
  | [], ret => ret
  | c :: cs, ret =>
    if c.toNat = 0 then ret
    else
      let ret := (ret <<< 4) % WORD
      if 48 ≤ c.toNat ∧ c.toNat ≤ 57 then
        read_hex_loop cs ((ret + (c.toNat - 48)) % WORD)
      else if 97 ≤ c.toNat ∧ c.toNat ≤ 102 then
        read_hex_loop cs ((ret + (c.toNat - 97 + 10)) % WORD)
      else ALLONES

/-- The function `read_hex`: `input` holds the characters of the string. Reading at the
end of the list yields the terminating NUL. -/
def read_hex (input : List Char) : Nat :=
  match input with
  | [] => ALLONES
  | c :: rest =>
    if c ≠ '0' then ALLONES
    else
      match rest with
      | [] => ALLONES
      | c :: rest =>
        if c ≠ 'x' then ALLONES
        else read_hex_loop rest 0

/-- A character of `[0-9a-f]`. -/
def isHexDigit (c : Char) : Prop :=
  (48 ≤ c.toNat ∧ c.toNat ≤ 57) ∨ (97 ≤ c.toNat ∧ c.toNat ≤ 102)

instance (c : Char) : Decidable (isHexDigit c) := by
  unfold isHexDigit; infer_instance

/-- The value of a hex digit: `c - '0'` for `0-9`, `c - 'a' + 10` for `a-f`. -/
def digitValue (c : Char) : Nat :=
  if c.toNat ≤ 57 then c.toNat - 48 else c.toNat - 97 + 10

/-- The number denoted by the digit sequence `d1..dn`: the sum of
`value(dk) * 16^(n-k)`. -/
def hexSum : List Char → Nat
  | [] => 0
  | d :: ds => digitValue d * 16 ^ ds.length + hexSum ds

/-! ## `show_mappings` -/

/-- What the monitor does that can be observed from outside, in program order: the lines
it prints and the collaborators it calls. -/
inductive Event where
  /-- A call `read_hex(token)`. -/
  | call_read_hex (token : List Char)
  /-- A call `pgdir_walk(pgdir, va, create)`. -/
  | call_pgdir_walk (pgdir va create : Nat)
  /-- The line `too many args!`. -/
  | print_too_many_args
  /-- The line `begin=%x, end=%x`. -/
  | print_begin_end (b e : Nat)
  /-- The line `pgdir=%x`. -/
  | print_pgdir (pgdir : Nat)
  /-- The line `va[%05x-%05x]->pa[%05x-%05x]`, a run record, with its four page numbers. -/
  | print_run (vfirst vlast pfirst plast : Nat)
  /-- The line `Stack backtrace:`. -/
  | print_backtrace_header
  /-- A call `debuginfo_eip(addr, &info)`. -/
  | call_debuginfo_eip (addr : Nat)
  /-- A read of the memory word at `addr`. -/
  | read_word (addr : Nat)
  /-- The output `  ebp %08x  eip %08x`. -/
  | print_frame (ebp eip : Nat)
  /-- The output `  %.*s(` of a function name with its length. -/
  | print_fn_open (namelen : Int) (name : List Char)
  /-- The output `%x, ` of one argument word. -/
  | print_arg (word : Nat)
  /-- The output `)` that ends the call line, then `%s:%d:` of a file name and a line. -/
  | print_file_line (file : List Char) (line : Int)
  /-- The output `  %.*s+%x` of a function name with its length and an offset. -/
  | print_fn_offset (namelen : Int) (name : List Char) (offset : Nat)
  /-- The line `%s - %s` of `mon_help`: a command's name and description. -/
  | print_help_line (name desc : List Char)
  /-- The line `Special kernel symbols:`. -/
  | print_kerninfo_header
  /-- The line `  _start                  %08x (phys)`. -/
  | print_kerninfo_start (addr : Nat)
  /-- A line `  <symbol>  %08x (virt)  %08x (phys)`. -/
  | print_kerninfo_symbol (symbol : List Char) (virt phys : Nat)
  /-- The line `Kernel executable memory footprint: %dKB`. -/
  | print_kerninfo_footprint (kb : Int)
  /-- The line `Too many arguments (max %d)`. -/
  | print_too_many_arguments (max : Int)
  /-- The line `Unknown command '%s'`. -/
  | print_unknown_command (name : List Char)
  /-- A call `commands[i].func(argc, argv, tf)` of the command named `name`. -/
  | call_command (name : List Char) (argc : Int) (argv : List (List Char))
  /-- The line `Welcome to the JOS kernel monitor!`. -/
  | print_welcome
  /-- The line `Type 'help' for a list of commands.`. -/
  | print_help_hint
  /-- The call `print_trapframe(tf)`. -/
  | call_print_trapframe
  /-- A call `readline("hq@jos> ")`. -/
  | call_readline
  deriving DecidableEq, Repr

/-- The collaborator `pgdir_walk(pgdir, va, create)`: `none` is the null pointer,
`some v` a pointer to a page-table entry whose value is `v`. -/
abbrev Walker := Nat → Nat → Nat → Option Nat

/-- The machine `show_mappings` runs on: the register `cr3`, the constant `KERNBASE` of
`inc/memlayout.h` and the page-table walker. -/
structure Machine where
  cr3 : Nat
  KERNBASE : Nat
  pgdir_walk : Walker

/-- The local variables `left`, `right`, `ibegin`, `iend` of `show_mappings` (the run
being accumulated) and the events so far. -/
structure Scan where
  left : Nat
  right : Nat
  ibegin : Nat
  iend : Nat
  log : List Event
  deriving DecidableEq, Repr

/-- The record `va[ibegin>>12 - iend>>12]->pa[left>>12 - right>>12]` of the current run. -/
def Scan.record (s : Scan) : Event :=
  Event.print_run (s.ibegin >>> 12) (s.iend >>> 12) (s.left >>> 12) (s.right >>> 12)

/-- The body of the `for` loop of `show_mappings` at address `i`, up to the test
`if(i==end) break`. -/
def scanBody (walk : Walker) (pgdir : Nat) (s : Scan) (i : Nat) : Scan :=
  let tmp := walk pgdir i 0
  let s := { s with log := s.log ++ [Event.call_pgdir_walk pgdir i 0] }
  match tmp with
  | none => s
  | some v =>
    if v ≠ 0 then
      if (s.right + PGSIZE) % WORD = v &&& PGMASK then
        { s with right := (s.right + PGSIZE) % WORD, iend := i }
      else
        { left := v &&& PGMASK, right := v &&& PGMASK, ibegin := i, iend := i,
          log := s.log ++ [s.record] }
    else s

/-- The loop `for (i = begin; i <= end; i += PGSIZE) { ...; if(i==end) break; }` run for
at most `fuel` trips, from the address `i` and the state `s`. The result is the state
reached and whether the loop has been left (`true`) or was interrupted (`false`). -/
def scanLoop (walk : Walker) (pgdir end_ : Nat) : Nat → Nat → Scan → Scan × Bool
  | 0, _, s => (s, false)
  | fuel + 1, i, s =>
    if i ≤ end_ then
      let s := scanBody walk pgdir s i
      if i = end_ then (s, true)
      else scanLoop walk pgdir end_ fuel ((i + PGSIZE) % WORD) s
    else (s, true)

/-- What a command returns: its `int` result and the events it produced. -/
structure Result where
  ret : Int
  log : List Event
  deriving DecidableEq, Repr

/-- The value `(pde_t *)(rcr3()+KERNBASE)`. -/
def Machine.pgdir (m : Machine) : Nat := (m.cr3 + m.KERNBASE) % WORD

/-- The state of `show_mappings` on entering the loop: `left = right = begin`,
`ibegin = iend = 0`. -/
def scanInit (begin_ : Nat) (log : List Event) : Scan :=
  { left := begin_, right := begin_, ibegin := 0, iend := 0, log := log }

/-- The function `show_mappings(argc, argv, tf)`. The result is `none` when the loop
does not finish within `fuel` trips, and when `argv[1]` or `argv[2]` is read but
not there (undefined in C). -/
def show_mappings (m : Machine) (fuel : Nat) (argc : Int) (argv : List (List Char)) :
    Option Result :=
  if argc > 3 then
    some { ret := 0, log := [Event.print_too_many_args] }
  else
    match argv with
    | _ :: a1 :: a2 :: _ =>
      let begin_ := read_hex a1 &&& PGMASK
      let end_ := read_hex a2 &&& PGMASK
      let log := [Event.call_read_hex a1, Event.call_read_hex a2,
        Event.print_begin_end begin_ end_]
      let pgdir := m.pgdir
      let log := log ++ [Event.print_pgdir pgdir]
      match scanLoop m.pgdir_walk pgdir end_ fuel begin_ (scanInit begin_ log) with
      | (s, true) => some { ret := 0, log := s.log ++ [s.record] }
      | (_, false) => none
    | _ => none

/-- The run records of a log, in order: `(vfirst, vlast, pfirst, plast)`. -/
def runRecords : List Event → List (Nat × Nat × Nat × Nat)
  | [] => []
  | Event.print_run a b c d :: l => (a, b, c, d) :: runRecords l
  | _ :: l => runRecords l

/-- The walker calls of a log, in order: `(va, create)`. -/
def walkCalls : List Event → List (Nat × Nat)
  | [] => []
  | Event.call_pgdir_walk _ va create :: l => (va, create) :: walkCalls l
  | _ :: l => walkCalls l

/-- The `read_hex` calls of a log, in order. -/
def hexCalls : List Event → List (List Char)
  | [] => []
  | Event.call_read_hex t :: l => t :: hexCalls l
  | _ :: l => hexCalls l

/-- The page addresses `a, a + PGSIZE, ...`, `n` of them. -/
def pageList : Nat → Nat → List Nat
  | _, 0 => []
  | a, n + 1 => a :: pageList (a + PGSIZE) n

/-- The entry the walker yields at `va` is mapped: the pointer is not null and the
entry is not zero (the test `tmp && *tmp`). -/
def mappedAt (walk : Walker) (pgdir va : Nat) : Prop :=
  ∃ v, walk pgdir va 0 = some v ∧ v ≠ 0

instance (walk : Walker) (pgdir va : Nat) : Decidable (mappedAt walk pgdir va) :=
  match h : walk pgdir va 0 with
  | none => isFalse (fun ⟨_, hw, _⟩ => Option.noConfusion (h.symm.trans hw))
  | some v =>
    if hv : v ≠ 0 then isTrue ⟨v, h, hv⟩
    else isFalse (fun ⟨_, hw, hne⟩ => hv (Option.some.inj (h.symm.trans hw) ▸ hne))

/-- The run invariant `(right - left) == (iend - ibegin)` in 32-bit arithmetic. -/
def Scan.affine (s : Scan) : Prop :=
  sub32 s.right s.left = sub32 s.iend s.ibegin

instance (s : Scan) : Decidable s.affine := by
  unfold Scan.affine; infer_instance

/-- A walker for examples: `tbl` lists the addresses that have an entry, with the
entry's value; every other address yields the null pointer. -/
def tableWalk (tbl : List (Nat × Nat)) : Walker :=
  fun _ va _ => (tbl.find? (fun p => p.1 == va)).map (fun p => p.2)

/-- A machine for examples, with `KERNBASE = 0xF0000000` and `cr3 = 0x110000`. -/
def tableMachine (tbl : List (Nat × Nat)) : Machine :=
  { cr3 := 0x110000, KERNBASE := 0xF0000000, pgdir_walk := tableWalk tbl }

/-- The value `read_hex(tok) & ~0xFFF` that `show_mappings` takes as `begin` and `end`. -/
def pageArg (tok : List Char) : Nat := read_hex tok &&& PGMASK

/-- The events of `show_mappings` before its loop, for the tokens `a1`, `a2`. -/
def entryLog (m : Machine) (a1 a2 : List Char) : List Event :=
  [Event.call_read_hex a1, Event.call_read_hex a2,
    Event.print_begin_end (pageArg a1) (pageArg a2), Event.print_pgdir m.pgdir]

/-- The state of the scan of `show_mappings m _ _ [_, a1, a2]` after the first `k` pages
from `begin`. -/
def scanAfter (m : Machine) (a1 a2 : List Char) (k : Nat) : Scan :=
  (pageList (pageArg a1) k).foldl (scanBody m.pgdir_walk m.pgdir)
    (scanInit (pageArg a1) (entryLog m a1 a2))

/-- A well-formed hexadecimal token: `0x` followed by characters of `[0-9a-f]` only. -/
def isHexToken (tok : List Char) : Prop :=
  match tok with
  | c1 :: c2 :: ds => c1 = '0' ∧ c2 = 'x' ∧ ∀ c ∈ ds, isHexDigit c
  | _ => False

instance (tok : List Char) : Decidable (isHexToken tok) := by
  unfold isHexToken; split <;> infer_instance

/-- A malformed token: a C string (no NUL character inside) that is not a well-formed
hexadecimal token. -/
def isMalformed (tok : List Char) : Prop :=
  (∀ c ∈ tok, c.toNat ≠ 0) ∧ ¬ isHexToken tok

instance (tok : List Char) : Decidable (isMalformed tok) := by
  unfold isMalformed; infer_instance

/-- The page addresses the loop of `show_mappings` visits for `begin = b`, `end = e`. -/
def visited (b e : Nat) : List Nat :=
  if b ≤ e then pageList b ((e - b) / 4096 + 1) else []

/-- The number of addresses of `pages`, scanned in this order from the state `s`, at
which the entry is not null and not zero and its physical base differs from
`right + 4096` (32-bit) at that moment. -/
def countOpens (walk : Walker) (pgdir : Nat) : Scan → List Nat → Nat
  | _, [] => 0
  | s, i :: l =>
    (match walk pgdir i 0 with
      | some v => if v ≠ 0 ∧ v &&& PGMASK ≠ (s.right + 4096) % 4294967296 then 1 else 0
      | none => 0) + countOpens walk pgdir (scanBody walk pgdir s i) l

/-! ## `mon_backtrace` -/

/-- Modelled from the spec: the record `struct Eipdebuginfo` of `kern/kdebug.h` that
`debuginfo_eip` fills: source file name, source line, function name with its explicit
length, function entry address, number of arguments. -/
structure Eipdebuginfo where
  eip_file : List Char
  eip_line : Int
  eip_fn_name : List Char
  eip_fn_namelen : Int
  eip_fn_addr : Nat
  eip_fn_narg : Int
  deriving DecidableEq, Repr

/-- The execution context of `mon_backtrace`: the value `read_ebp()`, the memory (the
word stored at each address), the address of `mon_backtrace` itself and the resolver
`debuginfo_eip` (the record it leaves in `info` for an address). -/
structure Stack where
  ebp : Nat
  mem : Nat → Nat
  mon_backtrace_addr : Nat
  debuginfo_eip : Nat → Eipdebuginfo

/-- The address of `p + k` for an `int *p`. -/
def wordAddr (p k : Nat) : Nat := (p + 4 * k) % WORD

/-- The word `*(p + k)` for an `int *p`: the memory word at byte offset `4 * k` from `p`. -/
def deref (mem : Nat → Nat) (p k : Nat) : Nat := mem (wordAddr p k) % WORD

/-- The loop `for (int i = 0; i < lastinfo.eip_fn_narg; ++i) cprintf("%x, ", *(ebp + 2 + i))`. -/
def argEvents (mem : Nat → Nat) (ebp : Nat) (narg : Int) : List Event :=
  (List.range narg.toNat).flatMap
    (fun i => [Event.read_word (wordAddr ebp (2 + i)), Event.print_arg (deref mem ebp (2 + i))])

/-- The events of one trip through the `while (ebp)` loop of `mon_backtrace`, from the
call of `debuginfo_eip` to the read of the saved frame pointer `*ebp`. -/
def frameBody (st : Stack) (lastinfo : Eipdebuginfo) (ebp : Nat) : List Event :=
  let info := st.debuginfo_eip (deref st.mem ebp 1)
  [Event.read_word (wordAddr ebp 1), Event.call_debuginfo_eip (deref st.mem ebp 1),
    Event.read_word (wordAddr ebp 1), Event.print_frame ebp (deref st.mem ebp 1),
    Event.print_fn_open lastinfo.eip_fn_namelen lastinfo.eip_fn_name] ++
  argEvents st.mem ebp lastinfo.eip_fn_narg ++
  [Event.print_file_line info.eip_file info.eip_line,
    Event.read_word (wordAddr ebp 1),
    Event.print_fn_offset info.eip_fn_namelen info.eip_fn_name
      (sub32 (deref st.mem ebp 1) info.eip_fn_addr),
    Event.read_word (wordAddr ebp 0)]

/-- The loop `while (ebp) { ... lastinfo = info; ebp = (int *)(*ebp); }` run for at most
`fuel` trips; `none` when the frame pointer is still not zero after `fuel` trips. -/
def backtraceLoop (st : Stack) : Nat → Nat → Eipdebuginfo → List Event → Option (List Event)
  | 0, ebp, _, log => if ebp ≠ 0 then none else some log
  | fuel + 1, ebp, lastinfo, log =>
    if ebp ≠ 0 then
      backtraceLoop st fuel (deref st.mem ebp 0) (st.debuginfo_eip (deref st.mem ebp 1))
        (log ++ frameBody st lastinfo ebp)
    else some log

/-- The function `mon_backtrace(argc, argv, tf)`; `none` when the walk does not end
within `fuel` frames. -/
def mon_backtrace (st : Stack) (fuel : Nat) (_argc : Int) (_argv : List (List Char)) :
    Option Result :=
  let log := [Event.print_backtrace_header, Event.call_debuginfo_eip st.mon_backtrace_addr]
  match backtraceLoop st fuel st.ebp (st.debuginfo_eip st.mon_backtrace_addr) log with
  | some log => some { ret := 0, log := log }
  | none => none

/-- The frame lines of a log, in order: `(ebp, eip)` of each `ebp %08x  eip %08x`. -/
def frameLines : List Event → List (Nat × Nat)
  | [] => []
  | Event.print_frame ebp eip :: l => (ebp, eip) :: frameLines l
  | _ :: l => frameLines l

/-- The resolver calls of a log, in order: the address each `debuginfo_eip` is given. -/
def resolverCalls : List Event → List Nat
  | [] => []
  | Event.call_debuginfo_eip a :: l => a :: resolverCalls l
  | _ :: l => resolverCalls l

/-- The addresses of the memory words a log reads, in order. -/
def memReads : List Event → List Nat
  | [] => []
  | Event.read_word a :: l => a :: memReads l
  | _ :: l => memReads l

/-- The event is a piece of output of `mon_backtrace`. -/
def isBacktraceOutput : Event → Bool
  | Event.print_backtrace_header => true
  | Event.print_frame _ _ => true
  | Event.print_fn_open _ _ => true
  | Event.print_arg _ => true
  | Event.print_file_line _ _ => true
  | Event.print_fn_offset _ _ _ => true
  | _ => false

/-- What a log prints of a backtrace, in order. -/
def backtraceOutput (log : List Event) : List Event := log.filter isBacktraceOutput

/-- The list `fps` is the chain of frames from `start`: `start` is its first element,
every element is not zero, the saved frame pointer `*fp` of each is the next one and
that of the last is zero (`start` itself is zero when the chain is empty). -/
def isChain (mem : Nat → Nat) : Nat → List Nat → Prop
  | start, [] => start = 0
  | start, fp :: rest => start = fp ∧ fp ≠ 0 ∧ isChain mem (deref mem fp 0) rest

/-- The `k`-th frame pointer of the walk from `ebp`: `ebp`, `*ebp`, `**ebp`, ... -/
def chainAt (mem : Nat → Nat) (ebp : Nat) : Nat → Nat
  | 0 => ebp
  | k + 1 => chainAt mem (deref mem ebp 0) k

/-- The output expected for the frames `fps`, `prev` being the resolution before the
first of them: for each frame the call line (frame pointer, return address, name of the
previous resolution, that many argument words from `fp + 8` on) and the continuation
line (file, line and name of the frame's own resolution, offset of the return address
from that function's entry). -/
def expectedLines (st : Stack) : Eipdebuginfo → List Nat → List Event
  | _, [] => []
  | prev, fp :: rest =>
    [Event.print_frame fp (deref st.mem fp 1),
      Event.print_fn_open prev.eip_fn_namelen prev.eip_fn_name] ++
    (List.range prev.eip_fn_narg.toNat).map (fun i => Event.print_arg (deref st.mem fp (2 + i))) ++
    [Event.print_file_line (st.debuginfo_eip (deref st.mem fp 1)).eip_file
        (st.debuginfo_eip (deref st.mem fp 1)).eip_line,
      Event.print_fn_offset (st.debuginfo_eip (deref st.mem fp 1)).eip_fn_namelen
        (st.debuginfo_eip (deref st.mem fp 1)).eip_fn_name
        (sub32 (deref st.mem fp 1) (st.debuginfo_eip (deref st.mem fp 1)).eip_fn_addr)] ++
    expectedLines st (st.debuginfo_eip (deref st.mem fp 1)) rest

/-- A memory for examples: the words listed in `tbl` (address, value), zero elsewhere. -/
def tableMem (tbl : List (Nat × Nat)) : Nat → Nat :=
  fun a => ((tbl.find? (fun p => p.1 == a)).map (fun p => p.2)).getD 0

/-- A resolver for examples: the function starts at the address rounded down to a
multiple of 256, has `(addr / 256) % 4` arguments and is named `f`. -/
def demoResolver (addr : Nat) : Eipdebuginfo :=
  { eip_file := ['k', '.', 'c'], eip_line := Int.ofNat (addr % 256),
    eip_fn_name := ['f'], eip_fn_namelen := 1,
    eip_fn_addr := addr / 256 * 256, eip_fn_narg := Int.ofNat ((addr / 256) % 4) }

instance decIsChain (mem : Nat → Nat) :
    (start : Nat) → (fps : List Nat) → Decidable (isChain mem start fps)
  | start, [] => (inferInstance : Decidable (start = 0))
  | start, fp :: rest =>
    have := decIsChain mem (deref mem fp 0) rest
    (inferInstance : Decidable (start = fp ∧ fp ≠ 0 ∧ isChain mem (deref mem fp 0) rest))

/-- The events of the walk along the frames `fps`, `prev` being the resolution before
the first of them. -/
def chainEvents (st : Stack) : Eipdebuginfo → List Nat → List Event
  | _, [] => []
  | prev, fp :: rest =>
    frameBody st prev fp ++ chainEvents st (st.debuginfo_eip (deref st.mem fp 1)) rest

/-- The continuation lines of a log, in order: `(file, line)` of each `%s:%d:`. -/
def continuationLines : List Event → List (List Char × Int)
  | [] => []
  | Event.print_file_line f n :: l => (f, n) :: continuationLines l
  | _ :: l => continuationLines l

/-- A stack for examples: two frames, at `0x1000` (return address `0x123`, saved frame
pointer `0x2000`) and at `0x2000` (return address `0x245`, saved frame pointer 0). -/
def demoStack : Stack :=
  { ebp := 0x1000,
    mem := tableMem [(0x1000, 0x2000), (0x1004, 0x123), (0x1008, 7), (0x100c, 8),
      (0x2000, 0), (0x2004, 0x245), (0x2008, 9)],
    mon_backtrace_addr := 0x300,
    debuginfo_eip := demoResolver }

/-- A stack for examples whose only frame, at `0x1000`, has itself as saved frame
pointer. -/
def cyclicStack : Stack :=
  { ebp := 0x1000,
    mem := tableMem [(0x1000, 0x1000), (0x1004, 0x123)],
    mon_backtrace_addr := 0x300,
    debuginfo_eip := demoResolver }

/-- A stack for examples whose first frame, at `0xF010FF00`, has the saved frame pointer
`0x1000`, an address far from it; the frame at `0x1000` ends the chain. -/
def wildStack : Stack :=
  { ebp := 0xF010FF00,
    mem := tableMem [(0xF010FF00, 0x1000), (0xF010FF04, 0xF0100123), (0x1000, 0),
      (0x1004, 0x45)],
    mon_backtrace_addr := 0xF0100000,
    debuginfo_eip := demoResolver }

/-! ## The commands and `runcmd` -/

/-- The functions the table `commands` points to. -/
inductive CommandFn where
  | mon_help
  | mon_kerninfo
  | mon_backtrace
  | show_mappings
  deriving DecidableEq, Repr

/-- The record `struct Command`: name, description, function. -/
structure Command where
  name : List Char
  desc : List Char
  func : CommandFn
  deriving DecidableEq, Repr

/-- The table `commands`. -/
def commands : List Command :=
  [ { name := "help".toList, desc := "Display this list of commands".toList,
      func := CommandFn.mon_help },
    { name := "kerninfo".toList, desc := "Display information about the kernel".toList,
      func := CommandFn.mon_kerninfo },
    { name := "backtrace".toList,
      desc := "Show back trace infomation on stack(kern only)".toList,
      func := CommandFn.mon_backtrace },
    { name := "showmap".toList,
      desc := "Show mappings of virtural memory to physical memory".toList,
      func := CommandFn.show_mappings } ]

/-- The kernel the monitor runs in: the machine of `show_mappings`, the stack of
`mon_backtrace`, the link-time symbols `_start`, `entry`, `etext`, `edata`, `end` that
`mon_kerninfo` prints, and the macro `ROUNDUP` of `inc/types.h`, on 32-bit values. -/
structure Kernel where
  machine : Machine
  stack : Stack
  start_ : Nat
  entry : Nat
  etext : Nat
  edata : Nat
  end_ : Nat
  ROUNDUP : Nat → Nat → Nat

/-- The value of a 32-bit word read as an `int`. -/
def toInt32 (n : Nat) : Int :=
  if n % WORD < 2147483648 then Int.ofNat (n % WORD) else Int.ofNat (n % WORD) - Int.ofNat WORD

/-- The function `mon_help(argc, argv, tf)`: one line per entry of `commands`. -/
def mon_help (_argc : Int) (_argv : List (List Char)) : Result :=
  { ret := 0, log := commands.map (fun c => Event.print_help_line c.name c.desc) }

/-- The function `mon_kerninfo(argc, argv, tf)`. -/
def mon_kerninfo (k : Kernel) (_argc : Int) (_argv : List (List Char)) : Result :=
  { ret := 0,
    log := [Event.print_kerninfo_header,
      Event.print_kerninfo_start k.start_,
      Event.print_kerninfo_symbol "entry".toList k.entry (sub32 k.entry k.machine.KERNBASE),
      Event.print_kerninfo_symbol "etext".toList k.etext (sub32 k.etext k.machine.KERNBASE),
      Event.print_kerninfo_symbol "edata".toList k.edata (sub32 k.edata k.machine.KERNBASE),
      Event.print_kerninfo_symbol "end".toList k.end_ (sub32 k.end_ k.machine.KERNBASE),
      Event.print_kerninfo_footprint
        (Int.tdiv (toInt32 (k.ROUNDUP (sub32 k.end_ k.entry) 1024)) 1024)] }

/-- The call `commands[i].func(argc, argv, tf)`. -/
def callCommand (k : Kernel) (fuel : Nat) (f : CommandFn) (argc : Int)
    (argv : List (List Char)) : Option Result :=
  match f with
  | CommandFn.mon_help => some (mon_help argc argv)
  | CommandFn.mon_kerninfo => some (mon_kerninfo k argc argv)
  | CommandFn.mon_backtrace => mon_backtrace k.stack fuel argc argv
  | CommandFn.show_mappings => show_mappings k.machine fuel argc argv

/-- The constant `MAXARGS`. -/
def MAXARGS : Nat := 16

/-- The test `strchr(WHITESPACE, c)` for a character `c` that is not NUL, with
`WHITESPACE` the string of tab, CR, LF and space. -/
def isWhitespace (c : Char) : Bool :=
  c.toNat == 9 || c.toNat == 13 || c.toNat == 10 || c.toNat == 32

/-- The loop `while (*buf && strchr(WHITESPACE, *buf)) *buf++ = 0;`: what is left of the
buffer. -/
def gobble : List Char → List Char
  | [] => []
  | c :: cs => if c.toNat ≠ 0 ∧ isWhitespace c = true then gobble cs else c :: cs

/-- The loop `while (*buf && !strchr(WHITESPACE, *buf)) buf++;`: the characters passed
(the argument) and what is left of the buffer. -/
def scanArg : List Char → List Char × List Char
  | [] => ([], [])
  | c :: cs =>
    if c.toNat ≠ 0 ∧ isWhitespace c = false then ((c :: (scanArg cs).1), (scanArg cs).2)
    else ([], c :: cs)

/-- The character `*buf`; the end of the list is the terminating NUL. -/
def curChar (buf : List Char) : Nat :=
  match buf with
  | [] => 0
  | c :: _ => c.toNat

/-- How the parsing loop of `runcmd` ended. -/
inductive ParseStatus where
  /-- The end of the buffer was reached. -/
  | done
  /-- The loop returned at the test `argc == MAXARGS - 1`. -/
  | tooMany
  /-- The fuel ran out. -/
  | timeout
  deriving DecidableEq, Repr

/-- The variables `argc` and `argv` of `runcmd` (the arguments `argv[0..argc-1]`), with
the indices of `argv` written so far, in order. -/
structure Parse where
  status : ParseStatus
  argc : Nat
  argv : List (List Char)
  writes : List Nat
  deriving DecidableEq, Repr

/-- The loop `while (1) { ... }` of `runcmd` that splits the buffer, run for at most
`fuel` trips. -/
def parseLoop : Nat → List Char → Nat → List (List Char) → List Nat → Parse
  | 0, _, argc, argv, writes =>
    { status := ParseStatus.timeout, argc := argc, argv := argv, writes := writes }
  | fuel + 1, buf, argc, argv, writes =>
    let buf := gobble buf
    if curChar buf = 0 then
      { status := ParseStatus.done, argc := argc, argv := argv, writes := writes }
    else if argc = MAXARGS - 1 then
      { status := ParseStatus.tooMany, argc := argc, argv := argv, writes := writes }
    else
      parseLoop fuel (scanArg buf).2 (argc + 1) (argv ++ [(scanArg buf).1]) (writes ++ [argc])

/-- The parsing part of `runcmd`: `argc = 0; argv[argc] = 0;`, the loop, and after a
loop that ended at the end of the buffer, `argv[argc] = 0;`. -/
def parseArgs (fuel : Nat) (buf : List Char) : Parse :=
  let p := parseLoop fuel buf 0 [] [0]
  match p.status with
  | ParseStatus.done => { p with writes := p.writes ++ [p.argc] }
  | _ => p

/-- The function `runcmd(buf, tf)`; `none` when the fuel runs out or the command called
does not return. -/
def runcmd (k : Kernel) (fuel : Nat) (buf : List Char) : Option Result :=
  let p := parseArgs fuel buf
  match p.status with
  | ParseStatus.timeout => none
  | ParseStatus.tooMany =>
    some { ret := 0, log := [Event.print_too_many_arguments (Int.ofNat MAXARGS)] }
  | ParseStatus.done =>
    match p.argv with
    | [] => some { ret := 0, log := [] }
    | argv0 :: rest =>
      match commands.find? (fun c => decide (argv0 = c.name)) with
      | some c =>
        match callCommand k fuel c.func (Int.ofNat p.argc) (argv0 :: rest) with
        | some r =>
          some { ret := r.ret,
                 log := Event.call_command c.name (Int.ofNat p.argc) (argv0 :: rest) :: r.log }
        | none => none
      | none => some { ret := 0, log := [Event.print_unknown_command argv0] }

/-- The function `monitor(tf)` on the lines `readline` returns one after the other
(`none` for a null pointer); `tf` tells whether the trap frame is not null. The result
is whether the loop was left by its `break`, with the events; it is `none` when a
command does not return. When the lines are used up the loop is waiting in `readline`. -/
def monitorLoop (k : Kernel) (fuel : Nat) :
    List (Option (List Char)) → List Event → Option (Bool × List Event)
  | [], log => some (false, log)
  | none :: rest, log => monitorLoop k fuel rest (log ++ [Event.call_readline])
  | some buf :: rest, log =>
    match runcmd k fuel buf with
    | none => none
    | some r =>
      if r.ret < 0 then some (true, log ++ [Event.call_readline] ++ r.log)
      else monitorLoop k fuel rest (log ++ [Event.call_readline] ++ r.log)

/-- The function `monitor(tf)`, see `monitorLoop`. -/
def monitor (k : Kernel) (fuel : Nat) (tf : Bool) (lines : List (Option (List Char))) :
    Option (Bool × List Event) :=
  monitorLoop k fuel lines
    ([Event.print_welcome, Event.print_help_hint] ++
      (if tf then [Event.call_print_trapframe] else []))

/-- The tokens of a command line: the maximal runs of characters other than tab, CR, LF
and space. -/
def tokensOf (buf : List Char) : List (List Char) :=
  (buf.splitOnP isWhitespace).filter (fun t => decide (t ≠ []))

/-- A kernel for examples. -/
def demoKernel : Kernel :=
  { machine := tableMachine [(0x1000, 0x5003), (0x2000, 0x6003)],
    stack := demoStack,
    start_ := 0x10000c, entry := 0xF010000c, etext := 0xF0101a75, edata := 0xF0112300,
    end_ := 0xF0112960,
    ROUNDUP := fun a n => (a + n - 1) / n * n }

/-- The event is a call of a command through the table `commands`. -/
def isCommandCall : Event → Bool
  | Event.call_command _ _ _ => true
  | _ => false

/-- The calls of commands of a log, in order. -/
def commandCalls (log : List Event) : List Event := log.filter isCommandCall

/-- The chain of frames `fp_1 .. fp_n` from `start`, on the memory itself: `start` is
`fp_1`, every `fp_k` is not zero, `mem[fp_k] = fp_(k+1)` and `mem[fp_n] = 0` (`start`
itself is zero when the chain is empty). -/
def isFrameChain (mem : Nat → Nat) : Nat → List Nat → Prop
  | start, [] => start = 0
  | start, fp :: rest => start = fp ∧ fp ≠ 0 ∧ isFrameChain mem (mem fp) rest

instance decIsFrameChain (mem : Nat → Nat) :
    (start : Nat) → (fps : List Nat) → Decidable (isFrameChain mem start fps)
  | start, [] => (inferInstance : Decidable (start = 0))
  | start, fp :: rest =>
    have := decIsFrameChain mem (mem fp) rest
    (inferInstance : Decidable (start = fp ∧ fp ≠ 0 ∧ isFrameChain mem (mem fp) rest))

/-- A kernel for examples whose stack is `cyclicStack`. -/
def cyclicKernel : Kernel := { demoKernel with stack := cyclicStack }

/-! ## Facts about `read_hex` -/

theorem digitValue_le (c : Char) (h : isHexDigit c) : digitValue c ≤ 15 := by
  unfold isHexDigit at h
  unfold digitValue
  split <;> omega

theorem hexSum_lt (ds : List Char) (h : ∀ c ∈ ds, isHexDigit c) :
    hexSum ds < 16 ^ ds.length := by
  induction ds with
  | nil => simp [hexSum]
  | cons d ds ih =>
    have hd := digitValue_le d (h d (List.mem_cons_self _ _))
    have hr := ih (fun c hc => h c (List.mem_cons_of_mem _ hc))
    have hmul : digitValue d * 16 ^ ds.length ≤ 15 * 16 ^ ds.length :=
      Nat.mul_le_mul_right _ hd
    simp only [hexSum, List.length_cons, pow_succ]
    omega

theorem hexSum_append (pre suf : List Char) :
    hexSum (pre ++ suf) = hexSum pre * 16 ^ suf.length + hexSum suf := by
  induction pre with
  | nil => simp [hexSum]
  | cons d ds ih =>
    rw [List.cons_append, hexSum, hexSum, ih, List.length_append, pow_add]
    ring

theorem read_hex_loop_digits (ds : List Char) (h : ∀ c ∈ ds, isHexDigit c) (ret : Nat)
    (hret : ret < WORD) :
    read_hex_loop ds ret = (ret * 16 ^ ds.length + hexSum ds) % WORD := by
  induction ds generalizing ret with
  | nil => simp [read_hex_loop, hexSum, Nat.mod_eq_of_lt hret]
  | cons d ds ih =>
    have hW : 0 < WORD := by decide
    have hd : isHexDigit d := h d (List.mem_cons_self _ _)
    have hr : ∀ c ∈ ds, isHexDigit c := fun c hc => h c (List.mem_cons_of_mem _ hc)
    have hshift : ret <<< 4 = ret * 16 := by simp [Nat.shiftLeft_eq]
    have hnz : d.toNat ≠ 0 := by unfold isHexDigit at hd; omega
    have key : ∀ v : Nat, ((ret * 16 % WORD + v) % WORD * 16 ^ ds.length + hexSum ds) % WORD
        = (ret * (16 ^ ds.length * 16) + (v * 16 ^ ds.length + hexSum ds)) % WORD := by
      intro v
      have h1 : (ret * 16 % WORD + v) % WORD ≡ ret * 16 + v [MOD WORD] :=
        (Nat.mod_modEq _ _).trans ((Nat.mod_modEq _ _).add_right _)
      have h2 := (h1.mul_right (16 ^ ds.length)).add_right (hexSum ds)
      have h3 : (ret * 16 + v) * 16 ^ ds.length + hexSum ds
          = ret * (16 ^ ds.length * 16) + (v * 16 ^ ds.length + hexSum ds) := by ring
      rw [h3] at h2
      exact h2
    rw [read_hex_loop, if_neg hnz]
    simp only [hshift, hexSum, List.length_cons, pow_succ]
    by_cases h09 : 48 ≤ d.toNat ∧ d.toNat ≤ 57
    · rw [if_pos h09, ih hr _ (Nat.mod_lt _ hW), key]
      have : digitValue d = d.toNat - 48 := by unfold digitValue; rw [if_pos h09.2]
      rw [this]
    · have haf : 97 ≤ d.toNat ∧ d.toNat ≤ 102 := by
        unfold isHexDigit at hd; tauto
      rw [if_neg h09, if_pos haf, ih hr _ (Nat.mod_lt _ hW), key]
      have : digitValue d = d.toNat - 97 + 10 := by
        unfold digitValue; rw [if_neg (by omega)]
      rw [this]

theorem read_hex_loop_bad (ds : List Char) (hnul : ∀ c ∈ ds, c.toNat ≠ 0)
    (hbad : ∃ c ∈ ds, ¬ isHexDigit c) (ret : Nat) :
    read_hex_loop ds ret = ALLONES := by
  induction ds generalizing ret with
  | nil => simp at hbad
  | cons d ds ih =>
    have hnz : d.toNat ≠ 0 := hnul d (List.mem_cons_self _ _)
    have hn : ∀ c ∈ ds, c.toNat ≠ 0 := fun c hc => hnul c (List.mem_cons_of_mem _ hc)
    rw [read_hex_loop, if_neg hnz]
    by_cases hd : isHexDigit d
    · have hb : ∃ c ∈ ds, ¬ isHexDigit c := by
        obtain ⟨c, hc, hcb⟩ := hbad
        rcases List.mem_cons.mp hc with rfl | hc
        · exact absurd hd hcb
        · exact ⟨c, hc, hcb⟩
      simp only []
      split
      · exact ih hn hb _
      · split
        · exact ih hn hb _
        · rfl
    · unfold isHexDigit at hd
      simp only []
      rw [if_neg (fun h => hd (Or.inl h)), if_neg (fun h => hd (Or.inr h))]

/-- C1: on a token `0x d1..dn` whose digits are all in `[0-9a-f]`, `read_hex` returns the
number the digits denote, modulo `2^32`; for more than 8 digits the result is the number
denoted by the last 8 digits alone; `read_hex("0x") = 0` and `read_hex("0x1000") = 0x1000`. -/
theorem read_hex_wellformed (ds : List Char) (h : ∀ c ∈ ds, isHexDigit c) :
    read_hex ('0' :: 'x' :: ds) = hexSum ds % 2 ^ 32 ∧
    (8 < ds.length →
      read_hex ('0' :: 'x' :: ds) = hexSum (ds.drop (ds.length - 8))) ∧
    read_hex ['0', 'x'] = 0 ∧
    read_hex ['0', 'x', '1', '0', '0', '0'] = 0x1000 := by
  have hmain : read_hex ('0' :: 'x' :: ds) = hexSum ds % 2 ^ 32 := by
    simp only [read_hex, ne_eq, not_true_eq_false, if_false]
    rw [read_hex_loop_digits ds h 0 (by decide)]
    simp [WORD]
  refine ⟨hmain, ?_, by decide, by decide⟩
  intro hlen
  rw [hmain]
  have hsplit : ds = ds.take (ds.length - 8) ++ ds.drop (ds.length - 8) :=
    (List.take_append_drop _ _).symm
  have hdl : (ds.drop (ds.length - 8)).length = 8 := by
    rw [List.length_drop]; omega
  have hlt := hexSum_lt (ds.drop (ds.length - 8))
    (fun c hc => h c (List.mem_of_mem_drop hc))
  rw [hdl] at hlt
  conv_lhs => rw [hsplit, hexSum_append, hdl]
  have h16 : (16 : Nat) ^ 8 = 2 ^ 32 := by norm_num
  rw [h16] at hlt ⊢
  rw [Nat.mul_add_mod_of_lt hlt]

theorem read_hex_wellformed_witness :
    (∀ c ∈ ['1', '2', '3', '4', '5', '6', '7', '8', '9'], isHexDigit c) ∧
    (read_hex ('0' :: 'x' :: ['1', '2', '3', '4', '5', '6', '7', '8', '9'])
        = hexSum ['1', '2', '3', '4', '5', '6', '7', '8', '9'] % 2 ^ 32 ∧
      (8 < ['1', '2', '3', '4', '5', '6', '7', '8', '9'].length →
        read_hex ('0' :: 'x' :: ['1', '2', '3', '4', '5', '6', '7', '8', '9'])
          = hexSum (['1', '2', '3', '4', '5', '6', '7', '8', '9'].drop
              (['1', '2', '3', '4', '5', '6', '7', '8', '9'].length - 8))) ∧
      read_hex ['0', 'x'] = 0 ∧
      read_hex ['0', 'x', '1', '0', '0', '0'] = 0x1000) :=
  ⟨by decide, read_hex_wellformed _ (by decide)⟩

/-- C2: on a token (a C string, so without a NUL character) that does not begin with
`0x`, or that has after that prefix a character outside `[0-9a-f]`, `read_hex` returns
`0xFFFFFFFF`; so it does on `1000`, `0xgg`, the empty token, an upper-case prefix,
upper-case digits and trailing or leading blanks. -/
theorem read_hex_malformed (tok : List Char) (hnul : ∀ c ∈ tok, c.toNat ≠ 0)
    (hbad : (∀ ds, tok ≠ '0' :: 'x' :: ds) ∨
      ∃ ds, tok = '0' :: 'x' :: ds ∧ ∃ c ∈ ds, ¬ isHexDigit c) :
    read_hex tok = 0xFFFFFFFF ∧
    read_hex ['1', '0', '0', '0'] = 0xFFFFFFFF ∧
    read_hex ['0', 'x', 'g', 'g'] = 0xFFFFFFFF ∧
    read_hex [] = 0xFFFFFFFF ∧
    read_hex ['0', 'X', '1', '0'] = 0xFFFFFFFF ∧
    read_hex ['0', 'x', 'A', 'F'] = 0xFFFFFFFF ∧
    read_hex ['0', 'x', '1', ' '] = 0xFFFFFFFF ∧
    read_hex [' ', '0', 'x', '1'] = 0xFFFFFFFF := by
  refine ⟨?_, by decide, by decide, by decide, by decide, by decide, by decide, by decide⟩
  rcases hbad with hpre | ⟨ds, rfl, hc⟩
  · match tok, hpre with
    | [], _ => rfl
    | c :: [], _ =>
      simp only [read_hex]
      split <;> rfl
    | c :: c2 :: rest, hpre =>
      simp only [read_hex]
      by_cases h0 : c = '0'
      · by_cases hx : c2 = 'x'
        · subst h0; subst hx
          exact absurd rfl (hpre rest)
        · rw [if_neg (by simpa using h0), if_pos hx]; rfl
      · rw [if_pos h0]; rfl
  · simp only [read_hex, ne_eq, not_true_eq_false, if_false]
    exact read_hex_loop_bad ds
      (fun c hc => hnul c (List.mem_cons_of_mem _ (List.mem_cons_of_mem _ hc))) hc 0

theorem read_hex_malformed_witness :
    (∀ c ∈ ['0', 'x', '1', 'G'], c.toNat ≠ 0) ∧
    ((∀ ds, ['0', 'x', '1', 'G'] ≠ '0' :: 'x' :: ds) ∨
      ∃ ds, ['0', 'x', '1', 'G'] = '0' :: 'x' :: ds ∧ ∃ c ∈ ds, ¬ isHexDigit c) ∧
    read_hex ['0', 'x', '1', 'G'] = 0xFFFFFFFF :=
  ⟨by decide, Or.inr ⟨['1', 'G'], rfl, 'G', by decide, by decide⟩,
    (read_hex_malformed ['0', 'x', '1', 'G'] (by decide)
      (Or.inr ⟨['1', 'G'], rfl, 'G', by decide, by decide⟩)).1⟩


/-! ## Facts about the scan of `show_mappings` -/

theorem mask_le (x : Nat) : x &&& PGMASK ≤ PGMASK := Nat.and_le_right

theorem mask_lt (x : Nat) : x &&& PGMASK < WORD :=
  Nat.lt_of_le_of_lt (mask_le x) (by decide)

theorem mask_aligned (x : Nat) : (x &&& PGMASK) % PGSIZE = 0 := by
  have h : (x &&& PGMASK) &&& (2 ^ 12 - 1) = (x &&& PGMASK) % 2 ^ 12 :=
    Nat.and_pow_two_sub_one_eq_mod _ 12
  have h0 : PGMASK &&& (2 ^ 12 - 1) = 0 := by decide
  rw [Nat.and_assoc, h0, Nat.and_zero] at h
  exact h.symm

theorem runRecords_append (l1 l2 : List Event) :
    runRecords (l1 ++ l2) = runRecords l1 ++ runRecords l2 := by
  induction l1 with
  | nil => rfl
  | cons ev l ih => cases ev <;> simp [runRecords, ih]

theorem walkCalls_append (l1 l2 : List Event) :
    walkCalls (l1 ++ l2) = walkCalls l1 ++ walkCalls l2 := by
  induction l1 with
  | nil => rfl
  | cons ev l ih => cases ev <;> simp [walkCalls, ih]

theorem scanBody_unmapped (walk : Walker) (pgdir : Nat) (s : Scan) (i : Nat)
    (h : ¬ mappedAt walk pgdir i) :
    scanBody walk pgdir s i =
      { s with log := s.log ++ [Event.call_pgdir_walk pgdir i 0] } := by
  unfold mappedAt at h
  unfold scanBody
  cases hw : walk pgdir i 0 with
  | none => rfl
  | some v =>
    have hv : v = 0 := by
      by_contra hne
      exact h ⟨v, hw, hne⟩
    simp [hv]

theorem scanBody_extend (walk : Walker) (pgdir : Nat) (s : Scan) (i v : Nat)
    (hw : walk pgdir i 0 = some v) (hv : v ≠ 0)
    (hc : (s.right + PGSIZE) % WORD = v &&& PGMASK) :
    scanBody walk pgdir s i =
      { s with right := (s.right + PGSIZE) % WORD, iend := i,
               log := s.log ++ [Event.call_pgdir_walk pgdir i 0] } := by
  unfold scanBody
  simp [hw, hv, hc]

theorem scanBody_open (walk : Walker) (pgdir : Nat) (s : Scan) (i v : Nat)
    (hw : walk pgdir i 0 = some v) (hv : v ≠ 0)
    (hc : (s.right + PGSIZE) % WORD ≠ v &&& PGMASK) :
    scanBody walk pgdir s i =
      { left := v &&& PGMASK, right := v &&& PGMASK, ibegin := i, iend := i,
        log := s.log ++ [Event.call_pgdir_walk pgdir i 0, s.record] } := by
  unfold scanBody
  simp [hw, hv, hc, Scan.record]

/-- The scan of the `n + 1` pages from `i` to `i + PGSIZE * n` leaves the loop, having run
the body on each page in turn. -/
theorem scanLoop_pages (walk : Walker) (pgdir : Nat) (n : Nat) :
    ∀ (fuel i : Nat) (s : Scan), n < fuel → i + PGSIZE * n < WORD →
      scanLoop walk pgdir (i + PGSIZE * n) fuel i s =
        ((pageList i (n + 1)).foldl (scanBody walk pgdir) s, true) := by
  induction n with
  | zero =>
    intro fuel i s hf _
    obtain ⟨f, rfl⟩ : ∃ f, fuel = f + 1 := ⟨fuel - 1, by omega⟩
    simp [scanLoop, pageList]
  | succ n ih =>
    intro fuel i s hf hlt
    obtain ⟨f, rfl⟩ : ∃ f, fuel = f + 1 := ⟨fuel - 1, by omega⟩
    have hle : i ≤ i + PGSIZE * (n + 1) := Nat.le_add_right _ _
    have hne : i ≠ i + PGSIZE * (n + 1) := by simp only [PGSIZE]; omega
    have hnext : (i + PGSIZE) % WORD = i + PGSIZE :=
      Nat.mod_eq_of_lt (by simp only [PGSIZE, WORD] at hlt ⊢; omega)
    have hend : i + PGSIZE * (n + 1) = (i + PGSIZE) + PGSIZE * n := by ring
    rw [scanLoop, if_pos hle]
    simp only [hne, if_false]
    rw [hnext, hend, ih f (i + PGSIZE) _ (by omega) (by rw [← hend]; exact hlt)]
    rfl

/-- Interrupted after `k` trips, the scan has run the body on the first `k` pages. -/
theorem scanLoop_interrupted (walk : Walker) (pgdir : Nat) (k : Nat) :
    ∀ (n i : Nat) (s : Scan), k ≤ n → i + PGSIZE * n < WORD →
      scanLoop walk pgdir (i + PGSIZE * n) k i s =
        ((pageList i k).foldl (scanBody walk pgdir) s, false) := by
  induction k with
  | zero =>
    intro n i s _ _
    simp [scanLoop, pageList]
  | succ k ih =>
    intro n i s hk hlt
    obtain ⟨n', rfl⟩ : ∃ n', n = n' + 1 := ⟨n - 1, by omega⟩
    have hle : i ≤ i + PGSIZE * (n' + 1) := Nat.le_add_right _ _
    have hne : i ≠ i + PGSIZE * (n' + 1) := by simp only [PGSIZE]; omega
    have hnext : (i + PGSIZE) % WORD = i + PGSIZE :=
      Nat.mod_eq_of_lt (by simp only [PGSIZE, WORD] at hlt ⊢; omega)
    have hend : i + PGSIZE * (n' + 1) = (i + PGSIZE) + PGSIZE * n' := by ring
    rw [scanLoop, if_pos hle]
    simp only [hne, if_false]
    rw [hnext, hend, ih n' (i + PGSIZE) _ (by omega) (by rw [← hend]; exact hlt)]
    rfl

theorem scanLoop_past (walk : Walker) (pgdir end_ fuel i : Nat) (s : Scan)
    (h : end_ < i) : (scanLoop walk pgdir end_ fuel i s).1 = s := by
  cases fuel with
  | zero => rfl
  | succ f => rw [scanLoop, if_neg (by omega)]

theorem scanLoop_past_done (walk : Walker) (pgdir end_ fuel i : Nat) (s : Scan)
    (h : end_ < i) : scanLoop walk pgdir end_ (fuel + 1) i s = (s, true) := by
  rw [scanLoop, if_neg (by omega)]

/-- Two page-aligned addresses `b ≤ e` are a whole number of pages apart. -/
theorem aligned_span (b e : Nat) (hb : b % PGSIZE = 0) (he : e % PGSIZE = 0) (hbe : b ≤ e) :
    e = b + PGSIZE * ((e - b) / PGSIZE) := by
  simp only [PGSIZE] at *
  omega

theorem pageArg_aligned (tok : List Char) : pageArg tok % PGSIZE = 0 := mask_aligned _

theorem pageArg_lt (tok : List Char) : pageArg tok < WORD := mask_lt _

theorem pageList_eq_map (n : Nat) : ∀ a : Nat,
    pageList a n = (List.range n).map (fun k => a + 4096 * k) := by
  induction n with
  | zero => intro a; rfl
  | succ n ih =>
    intro a
    rw [pageList, ih, List.range_succ_eq_map, List.map_cons, List.map_map]
    simp only [PGSIZE, Nat.mul_zero, Nat.add_zero, List.cons.injEq, true_and]
    apply List.map_congr_left
    intro k _
    simp only [Function.comp, Nat.succ_eq_add_one]
    ring

theorem scanBody_walkCalls (walk : Walker) (pgdir : Nat) (s : Scan) (i : Nat) :
    walkCalls (scanBody walk pgdir s i).log = walkCalls s.log ++ [(i, 0)] := by
  unfold scanBody
  cases walk pgdir i 0 with
  | none => simp [walkCalls_append, walkCalls]
  | some v =>
    by_cases hv : v = 0
    · simp [hv, walkCalls_append, walkCalls]
    · by_cases hc : (s.right + PGSIZE) % WORD = v &&& PGMASK
      · simp [hv, hc, walkCalls_append, walkCalls]
      · simp [hv, hc, walkCalls_append, walkCalls, Scan.record]

theorem foldl_walkCalls (walk : Walker) (pgdir : Nat) (pages : List Nat) :
    ∀ s : Scan, walkCalls (pages.foldl (scanBody walk pgdir) s).log
      = walkCalls s.log ++ pages.map (fun a => (a, 0)) := by
  induction pages with
  | nil => intro s; simp
  | cons a l ih =>
    intro s
    rw [List.foldl_cons, ih, scanBody_walkCalls]
    simp

/-- With at most three arguments and `begin ≤ end`, `show_mappings` returns once the fuel
covers the pages of the range: the events are those of the scan of all the pages, then
the last record. -/
theorem show_mappings_scan (m : Machine) (fuel : Nat) (argc : Int)
    (a0 a1 a2 : List Char) (rest : List (List Char)) (hargc : argc ≤ 3)
    (hbe : pageArg a1 ≤ pageArg a2) (hfuel : (pageArg a2 - pageArg a1) / 4096 < fuel) :
    show_mappings m fuel argc (a0 :: a1 :: a2 :: rest) =
      some { ret := 0,
             log := (scanAfter m a1 a2 ((pageArg a2 - pageArg a1) / 4096 + 1)).log ++
                [(scanAfter m a1 a2 ((pageArg a2 - pageArg a1) / 4096 + 1)).record] } := by
  have hspan := aligned_span _ _ (pageArg_aligned a1) (pageArg_aligned a2) hbe
  have hlt : pageArg a1 + PGSIZE * ((pageArg a2 - pageArg a1) / PGSIZE) < WORD := by
    rw [← hspan]; exact pageArg_lt a2
  have hloop := scanLoop_pages m.pgdir_walk m.pgdir ((pageArg a2 - pageArg a1) / PGSIZE)
    fuel (pageArg a1) (scanInit (pageArg a1) (entryLog m a1 a2)) hfuel hlt
  rw [← hspan] at hloop
  have hnot : ¬ argc > 3 := by omega
  unfold show_mappings
  rw [if_neg hnot]
  simp only []
  have hlog : [Event.call_read_hex a1, Event.call_read_hex a2,
      Event.print_begin_end (read_hex a1 &&& PGMASK) (read_hex a2 &&& PGMASK)] ++
      [Event.print_pgdir m.pgdir] = entryLog m a1 a2 := rfl
  rw [hlog]
  change (match scanLoop m.pgdir_walk m.pgdir (pageArg a2) fuel (pageArg a1)
      (scanInit (pageArg a1) (entryLog m a1 a2)) with
    | (s, true) => some ({ ret := 0, log := s.log ++ [s.record] } : Result)
    | (_, false) => none) = _
  rw [hloop]
  rfl

/-- With at most three arguments and `begin > end`, `show_mappings` returns without a
trip through the loop. -/
theorem show_mappings_empty (m : Machine) (fuel : Nat) (argc : Int)
    (a0 a1 a2 : List Char) (rest : List (List Char)) (hargc : argc ≤ 3)
    (hbe : pageArg a2 < pageArg a1) (hfuel : 0 < fuel) :
    show_mappings m fuel argc (a0 :: a1 :: a2 :: rest) =
      some { ret := 0,
             log := entryLog m a1 a2 ++ [(scanInit (pageArg a1) (entryLog m a1 a2)).record] } := by
  obtain ⟨f, rfl⟩ : ∃ f, fuel = f + 1 := ⟨fuel - 1, by omega⟩
  have hloop := scanLoop_past_done m.pgdir_walk m.pgdir (pageArg a2) f (pageArg a1)
    (scanInit (pageArg a1) (entryLog m a1 a2)) hbe
  have hnot : ¬ argc > 3 := by omega
  unfold show_mappings
  rw [if_neg hnot]
  simp only []
  have hlog : [Event.call_read_hex a1, Event.call_read_hex a2,
      Event.print_begin_end (read_hex a1 &&& PGMASK) (read_hex a2 &&& PGMASK)] ++
      [Event.print_pgdir m.pgdir] = entryLog m a1 a2 := rfl
  rw [hlog]
  change (match scanLoop m.pgdir_walk m.pgdir (pageArg a2) (f + 1) (pageArg a1)
      (scanInit (pageArg a1) (entryLog m a1 a2)) with
    | (s, true) => some ({ ret := 0, log := s.log ++ [s.record] } : Result)
    | (_, false) => none) = _
  rw [hloop]
  rfl

theorem runRecords_run (a b c d : Nat) (l : List Event) :
    runRecords (Event.print_run a b c d :: l) = (a, b, c, d) :: runRecords l := rfl

theorem runRecords_walk (pgdir va create : Nat) (l : List Event) :
    runRecords (Event.call_pgdir_walk pgdir va create :: l) = runRecords l := rfl

theorem runRecords_nil : runRecords [] = [] := rfl

theorem runRecords_entryLog (m : Machine) (a1 a2 : List Char) :
    runRecords (entryLog m a1 a2) = [] := rfl

theorem runRecords_walks (pgdir : Nat) (pages : List Nat) :
    runRecords (pages.map (fun i => Event.call_pgdir_walk pgdir i 0)) = [] := by
  induction pages with
  | nil => rfl
  | cons a l ih => simpa [runRecords] using ih

theorem pageList_add (m : Nat) : ∀ (a n : Nat),
    pageList a (m + n) = pageList a m ++ pageList (a + PGSIZE * m) n := by
  induction m with
  | zero => intro a n; simp [pageList]
  | succ m ih =>
    intro a n
    have h1 : m + 1 + n = (m + n) + 1 := by omega
    have h2 : a + PGSIZE + PGSIZE * m = a + PGSIZE * (m + 1) := by ring
    rw [h1, pageList, pageList, ih, h2, List.cons_append]

/-- A stretch of pages none of which is mapped leaves the run as it is and prints
nothing. -/
theorem foldl_unmapped (walk : Walker) (pgdir : Nat) (pages : List Nat) :
    ∀ s : Scan, (∀ i ∈ pages, ¬ mappedAt walk pgdir i) →
      pages.foldl (scanBody walk pgdir) s =
        { s with log := s.log ++ pages.map (fun i => Event.call_pgdir_walk pgdir i 0) } := by
  induction pages with
  | nil => intro s _; simp
  | cons a l ih =>
    intro s h
    rw [List.foldl_cons, scanBody_unmapped walk pgdir s a (h a (List.mem_cons_self _ _)),
      ih _ (fun i hi => h i (List.mem_cons_of_mem _ hi))]
    simp

/-- A stretch of `n` mapped pages from `a`, each one page further in physical memory
than the one before and the first one page after `right`, extends the run by `n` pages
and prints nothing. -/
theorem foldl_extend (walk : Walker) (pgdir : Nat) (n : Nat) :
    ∀ (a : Nat) (s : Scan), s.right + PGSIZE * n < WORD →
      (∀ k, k < n → ∃ v, walk pgdir (a + PGSIZE * k) 0 = some v ∧ v ≠ 0 ∧
        v &&& PGMASK = s.right + PGSIZE * (k + 1)) →
      (pageList a n).foldl (scanBody walk pgdir) s =
        { s with right := s.right + PGSIZE * n,
                 iend := if n = 0 then s.iend else a + PGSIZE * (n - 1),
                 log := s.log ++ (pageList a n).map (fun i => Event.call_pgdir_walk pgdir i 0) } := by
  induction n with
  | zero => intro a s _ _; simp [pageList]
  | succ n ih =>
    intro a s hlt h
    obtain ⟨v, hw, hv, hbase⟩ := h 0 (by omega)
    simp only [Nat.mul_zero, Nat.add_zero, Nat.zero_add, Nat.mul_one] at hw hbase
    have hlt1 : s.right + PGSIZE < WORD := by
      simp only [PGSIZE, WORD] at hlt ⊢; omega
    have hc : (s.right + PGSIZE) % WORD = v &&& PGMASK := by
      rw [hbase, Nat.mod_eq_of_lt hlt1]
    rw [pageList, List.foldl_cons, scanBody_extend walk pgdir s a v hw hv hc,
      Nat.mod_eq_of_lt hlt1]
    obtain ⟨s1, hs1⟩ : ∃ s1 : Scan, s1 =
        { left := s.left, right := s.right + PGSIZE, ibegin := s.ibegin, iend := a,
          log := s.log ++ [Event.call_pgdir_walk pgdir a 0] } := ⟨_, rfl⟩
    rw [← hs1]
    have hr1 : s1.right = s.right + PGSIZE := by rw [hs1]
    have hi1 : s1.iend = a := by rw [hs1]
    have hl1 : s1.left = s.left := by rw [hs1]
    have hb1 : s1.ibegin = s.ibegin := by rw [hs1]
    have hg1 : s1.log = s.log ++ [Event.call_pgdir_walk pgdir a 0] := by rw [hs1]
    have hrest : ∀ k, k < n → ∃ v, walk pgdir (a + PGSIZE + PGSIZE * k) 0 = some v ∧ v ≠ 0 ∧
        v &&& PGMASK = s1.right + PGSIZE * (k + 1) := by
      intro k hk
      obtain ⟨v', hw', hv', hb'⟩ := h (k + 1) (by omega)
      have ea : a + PGSIZE + PGSIZE * k = a + PGSIZE * (k + 1) := by ring
      have eb : s.right + PGSIZE + PGSIZE * (k + 1) = s.right + PGSIZE * (k + 1 + 1) := by ring
      exact ⟨v', by rw [ea]; exact hw', hv', by rw [hr1, eb]; exact hb'⟩
    have e1 : s.right + PGSIZE + PGSIZE * n = s.right + PGSIZE * (n + 1) := by ring
    have hlt2 : s1.right + PGSIZE * n < WORD := by rw [hr1, e1]; exact hlt
    rw [ih (a + PGSIZE) s1 hlt2 hrest, hr1, hi1, hl1, hb1, hg1, e1]
    by_cases hn : n = 0
    · subst hn; simp [pageList]
    · have e2 : a + PGSIZE + PGSIZE * (n - 1) = a + PGSIZE * (n + 1 - 1) := by
        obtain ⟨n', rfl⟩ : ∃ n', n = n' + 1 := ⟨n - 1, by omega⟩
        simp only [Nat.add_sub_cancel]; ring
      simp [hn, e2, pageList]

/-- A block of `n + 1` mapped pages from `a`, contiguous in physical memory from `P` on,
met when `P` is not the page after `right`: the run so far is printed and the block
becomes the new run. -/
theorem foldl_block (walk : Walker) (pgdir : Nat) (n a P : Nat) (s : Scan)
    (hP : (s.right + PGSIZE) % WORD ≠ P)
    (h : ∀ k, k < n + 1 → ∃ v, walk pgdir (a + PGSIZE * k) 0 = some v ∧ v ≠ 0 ∧
        v &&& PGMASK = P + PGSIZE * k) :
    (pageList a (n + 1)).foldl (scanBody walk pgdir) s =
      { left := P, right := P + PGSIZE * n, ibegin := a, iend := a + PGSIZE * n,
        log := s.log ++ [Event.call_pgdir_walk pgdir a 0, s.record] ++
          (pageList (a + PGSIZE) n).map (fun i => Event.call_pgdir_walk pgdir i 0) } := by
  obtain ⟨v, hw, hv, hbase⟩ := h 0 (by omega)
  simp only [Nat.mul_zero, Nat.add_zero] at hw hbase
  obtain ⟨vl, _, _, hlast⟩ := h n (by omega)
  have hlt : P + PGSIZE * n < WORD := by rw [← hlast]; exact mask_lt vl
  rw [pageList, List.foldl_cons, scanBody_open walk pgdir s a v hw hv (by rw [hbase]; exact hP),
    hbase]
  obtain ⟨s1, hs1⟩ : ∃ s1 : Scan, s1 =
      { left := P, right := P, ibegin := a, iend := a,
        log := s.log ++ [Event.call_pgdir_walk pgdir a 0, s.record] } := ⟨_, rfl⟩
  rw [← hs1]
  have hr1 : s1.right = P := by rw [hs1]
  have hi1 : s1.iend = a := by rw [hs1]
  have hl1 : s1.left = P := by rw [hs1]
  have hb1 : s1.ibegin = a := by rw [hs1]
  have hg1 : s1.log = s.log ++ [Event.call_pgdir_walk pgdir a 0, s.record] := by rw [hs1]
  have hrest : ∀ k, k < n → ∃ v, walk pgdir (a + PGSIZE + PGSIZE * k) 0 = some v ∧ v ≠ 0 ∧
      v &&& PGMASK = s1.right + PGSIZE * (k + 1) := by
    intro k hk
    obtain ⟨v', hw', hv', hb'⟩ := h (k + 1) (by omega)
    have ea : a + PGSIZE + PGSIZE * k = a + PGSIZE * (k + 1) := by ring
    exact ⟨v', by rw [ea]; exact hw', hv', by rw [hr1]; exact hb'⟩
  have hlt2 : s1.right + PGSIZE * n < WORD := by rw [hr1]; exact hlt
  rw [foldl_extend walk pgdir n (a + PGSIZE) s1 hlt2 hrest, hr1, hi1, hl1, hb1, hg1]
  by_cases hn : n = 0
  · subst hn; simp [pageList]
  · have e2 : a + PGSIZE + PGSIZE * (n - 1) = a + PGSIZE * n := by
      obtain ⟨n', rfl⟩ : ∃ n', n = n' + 1 := ⟨n - 1, by omega⟩
      simp only [Nat.add_sub_cancel]; ring
    simp [hn, e2]

theorem mem_pageList (a n i : Nat) (h : i ∈ pageList a n) : ∃ k, k < n ∧ i = a + PGSIZE * k := by
  rw [pageList_eq_map] at h
  obtain ⟨k, hk, rfl⟩ := List.mem_map.mp h
  exact ⟨k, List.mem_range.mp hk, rfl⟩

theorem not_mappedAt_of (walk : Walker) (pgdir i : Nat)
    (h : walk pgdir i 0 = none ∨ walk pgdir i 0 = some 0) : ¬ mappedAt walk pgdir i := by
  rintro ⟨v, hw, hv⟩
  rcases h with h | h
  · rw [h] at hw; exact Option.noConfusion hw
  · rw [h] at hw; exact hv (Option.some.inj hw).symm

theorem sub32_self (a : Nat) : sub32 a a = 0 := by
  unfold sub32 WORD; omega

theorem sub32_step (r l i j : Nat) (h : sub32 r l = sub32 i j) :
    sub32 ((r + PGSIZE) % WORD) l = sub32 (i + PGSIZE) j := by
  unfold sub32 WORD PGSIZE at *; omega

theorem scanAfter_succ (m : Machine) (a1 a2 : List Char) (k : Nat) :
    scanAfter m a1 a2 (k + 1) =
      scanBody m.pgdir_walk m.pgdir (scanAfter m a1 a2 k) (pageArg a1 + PGSIZE * k) := by
  unfold scanAfter
  rw [pageList_add k, List.foldl_append]
  rfl

/-- The state of the scan after any number of trips is the state after the first `k`
pages, for some `k` not beyond the number of pages of the range. -/
theorem scanLoop_eq_scanAfter (m : Machine) (a1 a2 : List Char) (n : Nat) :
    ∃ k, (pageArg a1 ≤ pageArg a2 → k ≤ (pageArg a2 - pageArg a1) / 4096 + 1) ∧
      (pageArg a2 < pageArg a1 → k = 0) ∧
      (scanLoop m.pgdir_walk m.pgdir (pageArg a2) n (pageArg a1)
        (scanInit (pageArg a1) (entryLog m a1 a2))).1 = scanAfter m a1 a2 k := by
  by_cases hbe : pageArg a1 ≤ pageArg a2
  · have hspan := aligned_span _ _ (pageArg_aligned a1) (pageArg_aligned a2) hbe
    have hlt : pageArg a1 + PGSIZE * ((pageArg a2 - pageArg a1) / PGSIZE) < WORD := by
      rw [← hspan]; exact pageArg_lt a2
    by_cases hn : n ≤ (pageArg a2 - pageArg a1) / PGSIZE
    · refine ⟨n, fun _ => Nat.le_succ_of_le hn, fun h => absurd hbe (by omega), ?_⟩
      have h := scanLoop_interrupted m.pgdir_walk m.pgdir n _ (pageArg a1)
        (scanInit (pageArg a1) (entryLog m a1 a2)) hn hlt
      rw [← hspan] at h
      rw [h]; rfl
    · refine ⟨(pageArg a2 - pageArg a1) / 4096 + 1, fun _ => Nat.le_refl _,
        fun h => absurd hbe (by omega), ?_⟩
      have h := scanLoop_pages m.pgdir_walk m.pgdir ((pageArg a2 - pageArg a1) / PGSIZE) n
        (pageArg a1) (scanInit (pageArg a1) (entryLog m a1 a2)) (by omega) hlt
      rw [← hspan] at h
      rw [h]; rfl
  · refine ⟨0, fun h => absurd h hbe, fun _ => rfl, ?_⟩
    rw [scanLoop_past _ _ _ _ _ _ (by omega)]
    rfl

/-- After `k` trips, `k` not beyond the number of pages of the range, the loop has
scanned the first `k` pages. -/
theorem scanLoop_fst (m : Machine) (a1 a2 : List Char) (k : Nat)
    (hbe : pageArg a1 ≤ pageArg a2) (hk : k ≤ (pageArg a2 - pageArg a1) / 4096 + 1) :
    (scanLoop m.pgdir_walk m.pgdir (pageArg a2) k (pageArg a1)
      (scanInit (pageArg a1) (entryLog m a1 a2))).1 = scanAfter m a1 a2 k := by
  have hspan := aligned_span _ _ (pageArg_aligned a1) (pageArg_aligned a2) hbe
  have hlt : pageArg a1 + PGSIZE * ((pageArg a2 - pageArg a1) / PGSIZE) < WORD := by
    rw [← hspan]; exact pageArg_lt a2
  by_cases hn : k ≤ (pageArg a2 - pageArg a1) / PGSIZE
  · have h := scanLoop_interrupted m.pgdir_walk m.pgdir k _ (pageArg a1)
      (scanInit (pageArg a1) (entryLog m a1 a2)) hn hlt
    rw [← hspan] at h
    rw [h]; rfl
  · have hk' : k = (pageArg a2 - pageArg a1) / PGSIZE + 1 := by
      simp only [PGSIZE] at hn ⊢; omega
    have h := scanLoop_pages m.pgdir_walk m.pgdir ((pageArg a2 - pageArg a1) / PGSIZE) k
      (pageArg a1) (scanInit (pageArg a1) (entryLog m a1 a2)) (by omega) hlt
    rw [← hspan] at h
    rw [h, hk']; rfl

/-- The run invariant along the scan, when no mapped page that starts a block (the page
at `begin`, or a mapped page after an unmapped one) has the physical base `right + 4096`
of that moment. Together with the invariant: either no page was mapped so far, or `iend`
is the last mapped page seen. -/
theorem scanAfter_affine_blocks (m : Machine) (a1 a2 : List Char)
    (hbe : pageArg a1 ≤ pageArg a2)
    (hstart : ∀ k v, pageArg a1 + 4096 * k ≤ pageArg a2 →
      m.pgdir_walk m.pgdir (pageArg a1 + 4096 * k) 0 = some v → v ≠ 0 →
      (k = 0 ∨ ¬ mappedAt m.pgdir_walk m.pgdir (pageArg a1 + 4096 * (k - 1))) →
      v &&& PGMASK ≠ ((scanAfter m a1 a2 k).right + 4096) % 4294967296) :
    ∀ k, k ≤ (pageArg a2 - pageArg a1) / 4096 + 1 →
      (scanAfter m a1 a2 k).affine ∧
      ((∀ j, j < k → ¬ mappedAt m.pgdir_walk m.pgdir (pageArg a1 + 4096 * j)) ∨
        ∃ j, j < k ∧ mappedAt m.pgdir_walk m.pgdir (pageArg a1 + 4096 * j) ∧
          (scanAfter m a1 a2 k).iend = pageArg a1 + 4096 * j ∧
          ∀ j', j < j' → j' < k → ¬ mappedAt m.pgdir_walk m.pgdir (pageArg a1 + 4096 * j')) := by
  have hb := pageArg_aligned a1
  have hspan := aligned_span _ _ hb (pageArg_aligned a2) hbe
  simp only [PGSIZE] at hb hspan
  intro k
  induction k with
  | zero =>
    intro _
    refine ⟨?_, Or.inl (fun j hj => absurd hj (Nat.not_lt_zero j))⟩
    show sub32 (pageArg a1) (pageArg a1) = sub32 0 0
    rw [sub32_self, sub32_self]
  | succ k ih =>
    intro hk
    obtain ⟨haff, hcase⟩ := ih (by omega)
    have hstartk := hstart k
    obtain ⟨s, hs⟩ : ∃ s, s = scanAfter m a1 a2 k := ⟨_, rfl⟩
    rw [← hs] at haff hcase hstartk
    rw [scanAfter_succ, ← hs]
    have hpg : pageArg a1 + PGSIZE * k = pageArg a1 + 4096 * k := rfl
    rw [hpg]
    have hple : pageArg a1 + 4096 * k ≤ pageArg a2 := by omega
    by_cases hm : mappedAt m.pgdir_walk m.pgdir (pageArg a1 + 4096 * k)
    · obtain ⟨v, hw, hv⟩ := hm
      have hm' : mappedAt m.pgdir_walk m.pgdir (pageArg a1 + 4096 * k) := ⟨v, hw, hv⟩
      have hB : ∃ j, j < k + 1 ∧ mappedAt m.pgdir_walk m.pgdir (pageArg a1 + 4096 * j) ∧
          pageArg a1 + 4096 * k = pageArg a1 + 4096 * j ∧
          ∀ j', j < j' → j' < k + 1 → ¬ mappedAt m.pgdir_walk m.pgdir (pageArg a1 + 4096 * j') :=
        ⟨k, by omega, hm', rfl, fun j' h1 h2 => absurd h1 (by omega)⟩
      by_cases hc : (s.right + PGSIZE) % WORD = v &&& PGMASK
      · rw [scanBody_extend _ _ _ _ v hw hv hc]
        refine ⟨?_, Or.inr hB⟩
        by_cases hprev : k = 0 ∨ ¬ mappedAt m.pgdir_walk m.pgdir (pageArg a1 + 4096 * (k - 1))
        · exact absurd hc.symm (hstartk v hple hw hv hprev)
        · have hk0 : k ≠ 0 := fun h => hprev (Or.inl h)
          have hmp : mappedAt m.pgdir_walk m.pgdir (pageArg a1 + 4096 * (k - 1)) := by
            by_contra hne
            exact hprev (Or.inr hne)
          rcases hcase with hnone | ⟨j, hj, hmj, hiend, hnone⟩
          · exact absurd hmp (hnone (k - 1) (by omega))
          · have hjk : j + 1 = k := by
              by_contra hne
              exact hnone (k - 1) (by omega) (by omega) hmp
            show sub32 ((s.right + PGSIZE) % WORD) s.left = sub32 (pageArg a1 + 4096 * k) s.ibegin
            have e : pageArg a1 + 4096 * k = s.iend + PGSIZE := by
              rw [hiend, ← hjk]; simp only [PGSIZE]; ring
            rw [e]
            exact sub32_step _ _ _ _ haff
      · rw [scanBody_open _ _ _ _ v hw hv hc]
        refine ⟨?_, Or.inr hB⟩
        show sub32 (v &&& PGMASK) (v &&& PGMASK) =
          sub32 (pageArg a1 + 4096 * k) (pageArg a1 + 4096 * k)
        rw [sub32_self, sub32_self]
    · rw [scanBody_unmapped _ _ _ _ hm]
      refine ⟨haff, ?_⟩
      rcases hcase with hnone | ⟨j, hj, hmj, hiend, hnone⟩
      · refine Or.inl (fun j hj => ?_)
        by_cases hjk : j = k
        · rw [hjk]; exact hm
        · exact hnone j (by omega)
      · refine Or.inr ⟨j, by omega, hmj, hiend, fun j' h1 h2 => ?_⟩
        by_cases hjk : j' = k
        · rw [hjk]; exact hm
        · exact hnone j' h1 (by omega)

/-! ## The claims -/

/-- C3: with at most three arguments, `show_mappings` returns (whatever the range, once
the fuel exceeds the number of page steps from `begin` to `end`); when `begin ≤ end` the
walker is called exactly `(end - begin)/4096 + 1` times, on `begin, begin + 4096, ..., end`
in this order, each time with `create = 0`; when `begin > end` it is never called. -/
theorem show_mappings_walk_calls (m : Machine) (argc : Int) (a0 a1 a2 : List Char)
    (rest : List (List Char)) (hargc : argc ≤ 3) :
    ∃ r : Result,
      (∀ fuel, (pageArg a2 - pageArg a1) / 4096 < fuel →
        show_mappings m fuel argc (a0 :: a1 :: a2 :: rest) = some r) ∧
      (pageArg a1 ≤ pageArg a2 →
        walkCalls r.log = (List.range ((pageArg a2 - pageArg a1) / 4096 + 1)).map
            (fun k => (pageArg a1 + 4096 * k, 0)) ∧
        (walkCalls r.log).length = (pageArg a2 - pageArg a1) / 4096 + 1 ∧
        pageArg a1 + 4096 * ((pageArg a2 - pageArg a1) / 4096) = pageArg a2) ∧
      (pageArg a2 < pageArg a1 → walkCalls r.log = []) := by
  by_cases hbe : pageArg a1 ≤ pageArg a2
  · refine ⟨_, fun fuel hf => show_mappings_scan m fuel argc a0 a1 a2 rest hargc hbe hf,
      fun _ => ?_, fun hlt => absurd hbe (by omega)⟩
    have hcalls : walkCalls ((scanAfter m a1 a2 ((pageArg a2 - pageArg a1) / 4096 + 1)).log ++
        [(scanAfter m a1 a2 ((pageArg a2 - pageArg a1) / 4096 + 1)).record])
        = (List.range ((pageArg a2 - pageArg a1) / 4096 + 1)).map
            (fun k => (pageArg a1 + 4096 * k, 0)) := by
      rw [walkCalls_append, scanAfter, foldl_walkCalls, pageList_eq_map, List.map_map]
      simp [walkCalls, scanInit, entryLog, Scan.record, Function.comp]
    refine ⟨hcalls, ?_, (aligned_span _ _ (pageArg_aligned a1) (pageArg_aligned a2) hbe).symm⟩
    rw [hcalls]
    simp
  · have hlt : pageArg a2 < pageArg a1 := by omega
    refine ⟨_, fun fuel hf =>
        show_mappings_empty m fuel argc a0 a1 a2 rest hargc hlt (by omega),
      fun h => absurd h hbe, fun _ => ?_⟩
    simp [walkCalls_append, walkCalls, scanInit, entryLog, Scan.record]

theorem show_mappings_walk_calls_witness :
    (3 : Int) ≤ 3 ∧
    ∃ r : Result,
      (∀ fuel, (pageArg "0xffffffff".toList - pageArg "0xffffe000".toList) / 4096 < fuel →
        show_mappings (tableMachine []) fuel 3
          ("showmap".toList :: "0xffffe000".toList :: "0xffffffff".toList :: []) = some r) ∧
      (pageArg "0xffffe000".toList ≤ pageArg "0xffffffff".toList →
        walkCalls r.log =
          (List.range ((pageArg "0xffffffff".toList - pageArg "0xffffe000".toList) / 4096 + 1)).map
            (fun k => (pageArg "0xffffe000".toList + 4096 * k, 0)) ∧
        (walkCalls r.log).length =
          (pageArg "0xffffffff".toList - pageArg "0xffffe000".toList) / 4096 + 1 ∧
        pageArg "0xffffe000".toList +
            4096 * ((pageArg "0xffffffff".toList - pageArg "0xffffe000".toList) / 4096)
          = pageArg "0xffffffff".toList) ∧
      (pageArg "0xffffffff".toList < pageArg "0xffffe000".toList → walkCalls r.log = []) :=
  ⟨by decide, show_mappings_walk_calls (tableMachine []) 3 _ _ _ _ (by decide)⟩

/-- C7: with more than three arguments, `show_mappings` prints `too many args!` and nothing
else, calls neither the walker nor `read_hex`, and returns 0. -/
theorem show_mappings_too_many_args (m : Machine) (fuel : Nat) (argc : Int)
    (argv : List (List Char)) (hargc : argc > 3) :
    ∃ r : Result, show_mappings m fuel argc argv = some r ∧
      r.ret = 0 ∧ r.log = [Event.print_too_many_args] ∧
      walkCalls r.log = [] ∧ hexCalls r.log = [] := by
  refine ⟨{ ret := 0, log := [Event.print_too_many_args] }, ?_, rfl, rfl, rfl, rfl⟩
  unfold show_mappings
  rw [if_pos hargc]

theorem show_mappings_too_many_args_witness :
    (4 : Int) > 3 ∧
    ∃ r : Result,
      show_mappings (tableMachine [(0x1000, 0x5003)]) 0 4
        ["showmap".toList, "0x1000".toList, "0x2000".toList, "0x3000".toList] = some r ∧
      r.ret = 0 ∧ r.log = [Event.print_too_many_args] ∧
      walkCalls r.log = [] ∧ hexCalls r.log = [] :=
  ⟨by decide, show_mappings_too_many_args _ 0 4 _ (by decide)⟩

/-- C4 fails as stated: a range of two pages mapped to one contiguous physical block
(`0x1000, 0x2000 -> 0x5000, 0x6000`) yields two records, the first one being the
placeholder `va[0-0]->pa[begin-begin]`. -/
theorem contiguous_block_two_records :
    pageArg "0x1000".toList = 0x1000 ∧ pageArg "0x2000".toList = 0x2000 ∧
    (tableMachine [(0x1000, 0x5003), (0x2000, 0x6003)]).pgdir_walk
        (tableMachine [(0x1000, 0x5003), (0x2000, 0x6003)]).pgdir 0x1000 0 = some 0x5003 ∧
    (tableMachine [(0x1000, 0x5003), (0x2000, 0x6003)]).pgdir_walk
        (tableMachine [(0x1000, 0x5003), (0x2000, 0x6003)]).pgdir 0x2000 0 = some 0x6003 ∧
    0x5003 &&& PGMASK = 0x5000 + (0x1000 - 0x1000) ∧
    0x6003 &&& PGMASK = 0x5000 + (0x2000 - 0x1000) ∧
    ∃ r : Result,
      show_mappings (tableMachine [(0x1000, 0x5003), (0x2000, 0x6003)]) 2 3
        ["showmap".toList, "0x1000".toList, "0x2000".toList] = some r ∧
      runRecords r.log = [(0, 0, 1, 1), (1, 2, 5, 6)] ∧
      (runRecords r.log).length ≠ 1 := by
  refine ⟨by decide, by decide, by decide, by decide, by decide, by decide, ?_⟩
  refine ⟨{ ret := 0, log := [Event.call_read_hex "0x1000".toList,
      Event.call_read_hex "0x2000".toList, Event.print_begin_end 0x1000 0x2000,
      Event.print_pgdir 0xF0110000, Event.call_pgdir_walk 0xF0110000 0x1000 0,
      Event.print_run 0 0 1 1, Event.call_pgdir_walk 0xF0110000 0x2000 0,
      Event.print_run 1 2 5 6] }, by decide, by decide, by decide⟩

/-- C4, amended: when every page of the range `begin ≤ end` has a present entry whose
physical base is `P + (i - begin)`, and `P` is not `begin + 4096` (32-bit),
`show_mappings` prints exactly two records: the placeholder `va[0-0]->pa[begin-begin]`
and one run record for the whole range, whose virtual and physical page counts agree. -/
theorem show_mappings_contiguous_block (m : Machine) (argc : Int) (a0 a1 a2 : List Char)
    (rest : List (List Char)) (P : Nat) (hargc : argc ≤ 3)
    (hbe : pageArg a1 ≤ pageArg a2)
    (hmap : ∀ i, pageArg a1 ≤ i → i ≤ pageArg a2 → i % 4096 = 0 →
      ∃ v, m.pgdir_walk m.pgdir i 0 = some v ∧ v % 2 = 1 ∧
        v &&& PGMASK = P + (i - pageArg a1))
    (hP : P ≠ (pageArg a1 + 4096) % 2 ^ 32) :
    ∃ r : Result,
      (∀ fuel, (pageArg a2 - pageArg a1) / 4096 < fuel →
        show_mappings m fuel argc (a0 :: a1 :: a2 :: rest) = some r) ∧
      runRecords r.log =
        [(0, 0, pageArg a1 >>> 12, pageArg a1 >>> 12),
         (pageArg a1 >>> 12, pageArg a2 >>> 12, P >>> 12,
            (P + (pageArg a2 - pageArg a1)) >>> 12)] ∧
      pageArg a1 >>> 12 ≤ pageArg a2 >>> 12 ∧
      P >>> 12 ≤ (P + (pageArg a2 - pageArg a1)) >>> 12 ∧
      pageArg a2 >>> 12 - pageArg a1 >>> 12
        = (P + (pageArg a2 - pageArg a1)) >>> 12 - P >>> 12 := by
  have hb := pageArg_aligned a1
  have he := pageArg_aligned a2
  have hspan := aligned_span _ _ hb he hbe
  obtain ⟨n, hn⟩ : ∃ n, n = (pageArg a2 - pageArg a1) / 4096 := ⟨_, rfl⟩
  have hspan' : pageArg a2 = pageArg a1 + PGSIZE * n := by rw [hn]; exact hspan
  have hblock : ∀ k, k < n + 1 → ∃ v, m.pgdir_walk m.pgdir (pageArg a1 + PGSIZE * k) 0 = some v ∧
      v ≠ 0 ∧ v &&& PGMASK = P + PGSIZE * k := by
    intro k hk
    obtain ⟨v, hw, hv, hbase⟩ := hmap (pageArg a1 + PGSIZE * k) (Nat.le_add_right _ _)
      (by rw [hspan']; simp only [PGSIZE]; omega)
      (by simp only [PGSIZE] at hb ⊢; omega)
    refine ⟨v, hw, by omega, ?_⟩
    rw [hbase, Nat.add_sub_cancel_left]
  have hP' : ((scanInit (pageArg a1) (entryLog m a1 a2)).right + PGSIZE) % WORD ≠ P := by
    intro h; apply hP; rw [← h]; rfl
  have hfold := foldl_block m.pgdir_walk m.pgdir n (pageArg a1) P
    (scanInit (pageArg a1) (entryLog m a1 a2)) hP' hblock
  obtain ⟨v0, _, _, hP0⟩ := hblock 0 (by omega)
  have hPal : P % 4096 = 0 := by
    have := mask_aligned v0
    rw [hP0] at this
    simpa [PGSIZE] using this
  refine ⟨_, fun fuel hf => show_mappings_scan m fuel argc a0 a1 a2 rest hargc hbe hf, ?_, ?_⟩
  · simp only []
    rw [← hn, scanAfter, hfold]
    simp only [runRecords_append, runRecords_walks, Scan.record, scanInit, runRecords_entryLog,
      runRecords_run, runRecords_walk, runRecords_nil,
      List.append_nil, List.nil_append, List.singleton_append, Nat.zero_shiftRight]
    rw [hspan', Nat.add_sub_cancel_left]
  · simp only [Nat.shiftRight_eq_div_pow]
    simp only [PGSIZE] at hb he
    refine ⟨?_, ?_, ?_⟩ <;> omega

theorem show_mappings_contiguous_block_witness :
    (3 : Int) ≤ 3 ∧ pageArg "0x1000".toList ≤ pageArg "0x2fff".toList ∧
    ∃ r : Result,
      (∀ fuel, (pageArg "0x2fff".toList - pageArg "0x1000".toList) / 4096 < fuel →
        show_mappings (tableMachine [(0x1000, 0x5003), (0x2000, 0x6003)]) fuel 3
          ("showmap".toList :: "0x1000".toList :: "0x2fff".toList :: []) = some r) ∧
      runRecords r.log =
        [(0, 0, pageArg "0x1000".toList >>> 12, pageArg "0x1000".toList >>> 12),
         (pageArg "0x1000".toList >>> 12, pageArg "0x2fff".toList >>> 12, 0x5000 >>> 12,
            (0x5000 + (pageArg "0x2fff".toList - pageArg "0x1000".toList)) >>> 12)] ∧
      pageArg "0x1000".toList >>> 12 ≤ pageArg "0x2fff".toList >>> 12 ∧
      0x5000 >>> 12 ≤ (0x5000 + (pageArg "0x2fff".toList - pageArg "0x1000".toList)) >>> 12 ∧
      pageArg "0x2fff".toList >>> 12 - pageArg "0x1000".toList >>> 12
        = (0x5000 + (pageArg "0x2fff".toList - pageArg "0x1000".toList)) >>> 12
            - 0x5000 >>> 12 :=
  ⟨by decide, by decide,
    show_mappings_contiguous_block (tableMachine [(0x1000, 0x5003), (0x2000, 0x6003)]) 3
      "showmap".toList "0x1000".toList "0x2fff".toList [] 0x5000 (by decide) (by decide)
      (by
        have hb : pageArg "0x1000".toList = 0x1000 := by decide
        have he : pageArg "0x2fff".toList = 0x2000 := by decide
        rw [hb, he]
        intro i h1 h2 h3
        have hi : i = 0x1000 ∨ i = 0x2000 := by omega
        rcases hi with rfl | rfl
        · exact ⟨0x5003, by decide, by decide, by decide⟩
        · exact ⟨0x6003, by decide, by decide, by decide⟩)
      (by decide)⟩

/-- C5 fails as stated: on `0x1000 -> 0x5000`, `0x2000` unmapped, `0x3000 -> 0x6000` the
run spanning the three pages is not the single record: the placeholder
`va[0-0]->pa[begin-begin]` is printed before it. -/
theorem sandwiched_gap_two_records :
    ∃ r : Result,
      show_mappings (tableMachine [(0x1000, 0x5003), (0x3000, 0x6003)]) 3 3
        ["showmap".toList, "0x1000".toList, "0x3000".toList] = some r ∧
      runRecords r.log = [(0, 0, 1, 1), (1, 3, 5, 6)] ∧
      runRecords r.log ≠ [(0x1000 >>> 12, (0x1000 + 8192) >>> 12, 0x5000 >>> 12,
        (0x5000 + 4096) >>> 12)] := by
  refine ⟨{ ret := 0, log := [Event.call_read_hex "0x1000".toList,
      Event.call_read_hex "0x3000".toList, Event.print_begin_end 0x1000 0x3000,
      Event.print_pgdir 0xF0110000, Event.call_pgdir_walk 0xF0110000 0x1000 0,
      Event.print_run 0 0 1 1, Event.call_pgdir_walk 0xF0110000 0x2000 0,
      Event.call_pgdir_walk 0xF0110000 0x3000 0,
      Event.print_run 1 3 5 6] }, by decide, by decide, by decide⟩

/-- C5, amended: on three pages `b, b + 4096, b + 8192`, the first mapped to `P`, the
second without an entry or with a zero entry, the third mapped to `P + 4096`, and `P` not
`b + 4096` (32-bit): the unmapped page changes neither the run nor the output (only the
walker is called), and after the placeholder record `va[0-0]->pa[b-b]` a single run record
is printed, with the virtual pages `b>>12 .. (b+8192)>>12` and the physical pages
`P>>12 .. (P+4096)>>12`. -/
theorem show_mappings_sandwiched_gap (m : Machine) (argc : Int) (a0 a1 a2 : List Char)
    (rest : List (List Char)) (P v1 v3 : Nat) (hargc : argc ≤ 3)
    (hend : pageArg a2 = pageArg a1 + 8192)
    (h1 : m.pgdir_walk m.pgdir (pageArg a1) 0 = some v1) (hv1 : v1 ≠ 0)
    (hb1 : v1 &&& PGMASK = P)
    (h2 : m.pgdir_walk m.pgdir (pageArg a1 + 4096) 0 = none ∨
      m.pgdir_walk m.pgdir (pageArg a1 + 4096) 0 = some 0)
    (h3 : m.pgdir_walk m.pgdir (pageArg a1 + 8192) 0 = some v3) (hv3 : v3 ≠ 0)
    (hb3 : v3 &&& PGMASK = P + 4096)
    (hP : P ≠ (pageArg a1 + 4096) % 2 ^ 32) :
    ∃ r : Result,
      (∀ fuel, 2 < fuel → show_mappings m fuel argc (a0 :: a1 :: a2 :: rest) = some r) ∧
      runRecords r.log =
        [(0, 0, pageArg a1 >>> 12, pageArg a1 >>> 12),
         (pageArg a1 >>> 12, (pageArg a1 + 8192) >>> 12, P >>> 12, (P + 4096) >>> 12)] ∧
      (scanLoop m.pgdir_walk m.pgdir (pageArg a2) 2 (pageArg a1)
          (scanInit (pageArg a1) (entryLog m a1 a2))).1 =
        { (scanLoop m.pgdir_walk m.pgdir (pageArg a2) 1 (pageArg a1)
            (scanInit (pageArg a1) (entryLog m a1 a2))).1 with
          log := (scanLoop m.pgdir_walk m.pgdir (pageArg a2) 1 (pageArg a1)
            (scanInit (pageArg a1) (entryLog m a1 a2))).1.log ++
              [Event.call_pgdir_walk m.pgdir (pageArg a1 + 4096) 0] } := by
  have hbe : pageArg a1 ≤ pageArg a2 := by omega
  have hn : (pageArg a2 - pageArg a1) / 4096 = 2 := by omega
  have hun : ¬ mappedAt m.pgdir_walk m.pgdir (pageArg a1 + PGSIZE) := by
    rintro ⟨v, hw, hv⟩
    have hw' : m.pgdir_walk m.pgdir (pageArg a1 + 4096) 0 = some v := hw
    rcases h2 with h | h
    · rw [h] at hw'; exact Option.noConfusion hw'
    · rw [h] at hw'; exact hv (Option.some.inj hw').symm
  have hP' : ((scanInit (pageArg a1) (entryLog m a1 a2)).right + PGSIZE) % WORD ≠
      v1 &&& PGMASK := by
    intro h; apply hP; rw [← hb1, ← h]; rfl
  have hlt : P + 4096 < WORD := by rw [← hb3]; exact mask_lt v3
  have e2 : pageArg a1 + PGSIZE + PGSIZE = pageArg a1 + 8192 := by simp only [PGSIZE]
  have hspan : pageArg a2 = pageArg a1 + PGSIZE * 2 := by rw [hend]; rfl
  have hlt2 : pageArg a1 + PGSIZE * 2 < WORD := by rw [← hspan]; exact pageArg_lt a2
  have hstep1 := scanLoop_interrupted m.pgdir_walk m.pgdir 1 2 (pageArg a1)
    (scanInit (pageArg a1) (entryLog m a1 a2)) (by omega) hlt2
  have hstep2 := scanLoop_interrupted m.pgdir_walk m.pgdir 2 2 (pageArg a1)
    (scanInit (pageArg a1) (entryLog m a1 a2)) (by omega) hlt2
  rw [← hspan] at hstep1 hstep2
  refine ⟨_, fun fuel hf => show_mappings_scan m fuel argc a0 a1 a2 rest hargc hbe
    (by omega), ?_, ?_⟩
  · simp only []
    rw [hn, scanAfter]
    simp only [pageList, List.foldl_cons, List.foldl_nil]
    rw [scanBody_open _ _ _ _ v1 h1 hv1 hP', scanBody_unmapped _ _ _ _ hun, e2,
      scanBody_extend _ _ _ _ v3 h3 hv3 (by
        simp only [hb1, hb3]
        exact Nat.mod_eq_of_lt hlt)]
    simp only [hb1, Nat.mod_eq_of_lt hlt, runRecords_append, Scan.record, scanInit,
      runRecords_entryLog, runRecords_run, runRecords_walk, runRecords_nil,
      List.append_nil, List.nil_append, List.singleton_append, Nat.zero_shiftRight, PGSIZE]
  · rw [hstep1, hstep2]
    simp only [pageList, List.foldl_cons, List.foldl_nil]
    rw [scanBody_unmapped _ _ _ _ hun]
    rfl

theorem show_mappings_sandwiched_gap_witness :
    (3 : Int) ≤ 3 ∧ pageArg "0x3000".toList = pageArg "0x1000".toList + 8192 ∧
    ∃ r : Result,
      (∀ fuel, 2 < fuel →
        show_mappings (tableMachine [(0x1000, 0x5003), (0x3000, 0x6003)]) fuel 3
          ("showmap".toList :: "0x1000".toList :: "0x3000".toList :: []) = some r) ∧
      runRecords r.log =
        [(0, 0, pageArg "0x1000".toList >>> 12, pageArg "0x1000".toList >>> 12),
         (pageArg "0x1000".toList >>> 12, (pageArg "0x1000".toList + 8192) >>> 12,
            0x5000 >>> 12, (0x5000 + 4096) >>> 12)] ∧
      (scanLoop (tableMachine [(0x1000, 0x5003), (0x3000, 0x6003)]).pgdir_walk
          (tableMachine [(0x1000, 0x5003), (0x3000, 0x6003)]).pgdir
          (pageArg "0x3000".toList) 2 (pageArg "0x1000".toList)
          (scanInit (pageArg "0x1000".toList)
            (entryLog (tableMachine [(0x1000, 0x5003), (0x3000, 0x6003)])
              "0x1000".toList "0x3000".toList))).1 =
        { (scanLoop (tableMachine [(0x1000, 0x5003), (0x3000, 0x6003)]).pgdir_walk
            (tableMachine [(0x1000, 0x5003), (0x3000, 0x6003)]).pgdir
            (pageArg "0x3000".toList) 1 (pageArg "0x1000".toList)
            (scanInit (pageArg "0x1000".toList)
              (entryLog (tableMachine [(0x1000, 0x5003), (0x3000, 0x6003)])
                "0x1000".toList "0x3000".toList))).1 with
          log := (scanLoop (tableMachine [(0x1000, 0x5003), (0x3000, 0x6003)]).pgdir_walk
            (tableMachine [(0x1000, 0x5003), (0x3000, 0x6003)]).pgdir
            (pageArg "0x3000".toList) 1 (pageArg "0x1000".toList)
            (scanInit (pageArg "0x1000".toList)
              (entryLog (tableMachine [(0x1000, 0x5003), (0x3000, 0x6003)])
                "0x1000".toList "0x3000".toList))).1.log ++
              [Event.call_pgdir_walk (tableMachine [(0x1000, 0x5003), (0x3000, 0x6003)]).pgdir
                (pageArg "0x1000".toList + 4096) 0] } :=
  ⟨by decide, by decide,
    show_mappings_sandwiched_gap (tableMachine [(0x1000, 0x5003), (0x3000, 0x6003)]) 3
      "showmap".toList "0x1000".toList "0x3000".toList [] 0x5000 0x5003 0x6003
      (by decide) (by decide) (by decide) (by decide) (by decide) (Or.inl (by decide))
      (by decide) (by decide) (by decide) (by decide)⟩

/-- C6 fails as stated: on `0x1000 -> 0x5000`, `0x2000` unmapped, `0x3000 -> 0x9000` three
records are printed, the placeholder `va[0-0]->pa[begin-begin]` and the two runs. -/
theorem two_blocks_three_records :
    ∃ r : Result,
      show_mappings (tableMachine [(0x1000, 0x5003), (0x3000, 0x9003)]) 3 3
        ["showmap".toList, "0x1000".toList, "0x3000".toList] = some r ∧
      runRecords r.log = [(0, 0, 1, 1), (1, 1, 5, 5), (3, 3, 9, 9)] ∧
      (runRecords r.log).length ≠ 2 := by
  refine ⟨{ ret := 0, log := [Event.call_read_hex "0x1000".toList,
      Event.call_read_hex "0x3000".toList, Event.print_begin_end 0x1000 0x3000,
      Event.print_pgdir 0xF0110000, Event.call_pgdir_walk 0xF0110000 0x1000 0,
      Event.print_run 0 0 1 1, Event.call_pgdir_walk 0xF0110000 0x2000 0,
      Event.call_pgdir_walk 0xF0110000 0x3000 0, Event.print_run 1 1 5 5,
      Event.print_run 3 3 9 9] }, by decide, by decide, by decide⟩

/-- C6, amended: the range is a block of `n1 + 1` mapped pages contiguous from `P1`, then
`g + 1` unmapped pages, then a block of `n2 + 1` mapped pages contiguous from `P2`, where
`P2` is not the page after the last physical page of the first block and `P1` is not
`begin + 4096` (both 32-bit). Then exactly three records are printed: the placeholder
`va[0-0]->pa[begin-begin]`, the run of the first block and the run of the second block. -/
theorem show_mappings_two_blocks (m : Machine) (argc : Int) (a0 a1 a2 : List Char)
    (rest : List (List Char)) (n1 g n2 P1 P2 : Nat) (hargc : argc ≤ 3)
    (hend : pageArg a2 = pageArg a1 + 4096 * (n1 + g + n2 + 2))
    (hfirst : ∀ k, k ≤ n1 → ∃ v, m.pgdir_walk m.pgdir (pageArg a1 + 4096 * k) 0 = some v ∧
      v ≠ 0 ∧ v &&& PGMASK = P1 + 4096 * k)
    (hgap : ∀ k, k ≤ g →
      m.pgdir_walk m.pgdir (pageArg a1 + 4096 * (n1 + 1 + k)) 0 = none ∨
      m.pgdir_walk m.pgdir (pageArg a1 + 4096 * (n1 + 1 + k)) 0 = some 0)
    (hsecond : ∀ k, k ≤ n2 →
      ∃ v, m.pgdir_walk m.pgdir (pageArg a1 + 4096 * (n1 + g + 2 + k)) 0 = some v ∧
        v ≠ 0 ∧ v &&& PGMASK = P2 + 4096 * k)
    (hdisc : P2 ≠ (P1 + 4096 * n1 + 4096) % 2 ^ 32)
    (hP : P1 ≠ (pageArg a1 + 4096) % 2 ^ 32) :
    ∃ r : Result,
      (∀ fuel, n1 + g + n2 + 2 < fuel →
        show_mappings m fuel argc (a0 :: a1 :: a2 :: rest) = some r) ∧
      runRecords r.log =
        [(0, 0, pageArg a1 >>> 12, pageArg a1 >>> 12),
         (pageArg a1 >>> 12, (pageArg a1 + 4096 * n1) >>> 12,
            P1 >>> 12, (P1 + 4096 * n1) >>> 12),
         ((pageArg a1 + 4096 * (n1 + g + 2)) >>> 12, pageArg a2 >>> 12,
            P2 >>> 12, (P2 + 4096 * n2) >>> 12)] ∧
      (runRecords r.log).length = 3 := by
  have hbe : pageArg a1 ≤ pageArg a2 := by omega
  have hn : (pageArg a2 - pageArg a1) / 4096 = n1 + g + n2 + 2 := by omega
  obtain ⟨s0, hs0⟩ : ∃ s0 : Scan, s0 = scanInit (pageArg a1) (entryLog m a1 a2) := ⟨_, rfl⟩
  -- the three stretches of the range
  have hsplit : pageList (pageArg a1) (n1 + g + n2 + 2 + 1) =
      pageList (pageArg a1) (n1 + 1) ++
        (pageList (pageArg a1 + PGSIZE * (n1 + 1)) (g + 1) ++
          pageList (pageArg a1 + PGSIZE * (n1 + g + 2)) (n2 + 1)) := by
    have e1 : n1 + g + n2 + 2 + 1 = (n1 + 1) + ((g + 1) + (n2 + 1)) := by omega
    have e2 : pageArg a1 + PGSIZE * (n1 + 1) + PGSIZE * (g + 1)
        = pageArg a1 + PGSIZE * (n1 + g + 2) := by ring
    rw [e1, pageList_add (n1 + 1), pageList_add (g + 1), e2]
  -- first block
  have hA := foldl_block m.pgdir_walk m.pgdir n1 (pageArg a1) P1 s0
    (by intro h; apply hP; rw [← h, hs0]; rfl)
    (fun k hk => hfirst k (by omega))
  obtain ⟨sA, hsA⟩ : ∃ sA : Scan, sA =
      { left := P1, right := P1 + PGSIZE * n1, ibegin := pageArg a1,
        iend := pageArg a1 + PGSIZE * n1,
        log := s0.log ++ [Event.call_pgdir_walk m.pgdir (pageArg a1) 0, s0.record] ++
                List.map (fun i => Event.call_pgdir_walk m.pgdir i 0)
                  (pageList (pageArg a1 + PGSIZE) n1) } := ⟨_, rfl⟩
  rw [← hsA] at hA
  -- the gap
  have hB := foldl_unmapped m.pgdir_walk m.pgdir
    (pageList (pageArg a1 + PGSIZE * (n1 + 1)) (g + 1)) sA (by
      intro i hi
      obtain ⟨k, hk, rfl⟩ := mem_pageList _ _ _ hi
      have e : pageArg a1 + PGSIZE * (n1 + 1) + PGSIZE * k
          = pageArg a1 + 4096 * (n1 + 1 + k) := by simp only [PGSIZE]; ring
      rw [e]
      exact not_mappedAt_of _ _ _ (hgap k (by omega)))
  obtain ⟨sB, hsB⟩ : ∃ sB : Scan, sB =
      { sA with
        log := sA.log ++ List.map (fun i => Event.call_pgdir_walk m.pgdir i 0)
                (pageList (pageArg a1 + PGSIZE * (n1 + 1)) (g + 1)) } := ⟨_, rfl⟩
  rw [← hsB] at hB
  have hrB : sB.right = P1 + PGSIZE * n1 := by rw [hsB, hsA]
  -- second block
  have hC := foldl_block m.pgdir_walk m.pgdir n2 (pageArg a1 + PGSIZE * (n1 + g + 2)) P2 sB
    (by intro h; apply hdisc; rw [← h, hrB]; rfl)
    (by
      intro k hk
      obtain ⟨v, hw, hv, hb⟩ := hsecond k (by omega)
      have e : pageArg a1 + PGSIZE * (n1 + g + 2) + PGSIZE * k
          = pageArg a1 + 4096 * (n1 + g + 2 + k) := by simp only [PGSIZE]; ring
      exact ⟨v, by rw [e]; exact hw, hv, hb⟩)
  have hrec : runRecords ((scanAfter m a1 a2 (n1 + g + n2 + 2 + 1)).log ++
      [(scanAfter m a1 a2 (n1 + g + n2 + 2 + 1)).record]) =
        [(0, 0, pageArg a1 >>> 12, pageArg a1 >>> 12),
         (pageArg a1 >>> 12, (pageArg a1 + 4096 * n1) >>> 12,
            P1 >>> 12, (P1 + 4096 * n1) >>> 12),
         ((pageArg a1 + 4096 * (n1 + g + 2)) >>> 12, pageArg a2 >>> 12,
            P2 >>> 12, (P2 + 4096 * n2) >>> 12)] := by
    rw [scanAfter, ← hs0, hsplit, List.foldl_append, List.foldl_append, hA, hB, hC]
    have e3 : pageArg a1 + 4096 * (n1 + g + 2) + 4096 * n2 = pageArg a2 := by
      rw [hend]; ring
    simp only [hsB, hsA, hs0, runRecords_append, runRecords_walks, Scan.record, scanInit,
      runRecords_entryLog, runRecords_run, runRecords_walk, runRecords_nil,
      List.append_nil, List.nil_append, List.singleton_append, List.cons_append,
      Nat.zero_shiftRight, PGSIZE]
    rw [e3]
  refine ⟨_, fun fuel hf => show_mappings_scan m fuel argc a0 a1 a2 rest hargc hbe
    (by omega), ?_, ?_⟩
  · simp only []
    rw [hn]
    exact hrec
  · simp only []
    rw [hn, hrec]
    rfl

theorem show_mappings_two_blocks_witness :
    (3 : Int) ≤ 3 ∧
    pageArg "0x4000".toList = pageArg "0x1000".toList + 4096 * (1 + 0 + 0 + 2) ∧
    ∃ r : Result,
      (∀ fuel, 1 + 0 + 0 + 2 < fuel →
        show_mappings (tableMachine [(0x1000, 0x5003), (0x2000, 0x6003), (0x4000, 0x9003)])
          fuel 3 ("showmap".toList :: "0x1000".toList :: "0x4000".toList :: []) = some r) ∧
      runRecords r.log =
        [(0, 0, pageArg "0x1000".toList >>> 12, pageArg "0x1000".toList >>> 12),
         (pageArg "0x1000".toList >>> 12, (pageArg "0x1000".toList + 4096 * 1) >>> 12,
            0x5000 >>> 12, (0x5000 + 4096 * 1) >>> 12),
         ((pageArg "0x1000".toList + 4096 * (1 + 0 + 2)) >>> 12, pageArg "0x4000".toList >>> 12,
            0x9000 >>> 12, (0x9000 + 4096 * 0) >>> 12)] ∧
      (runRecords r.log).length = 3 :=
  ⟨by decide, by decide,
    show_mappings_two_blocks (tableMachine [(0x1000, 0x5003), (0x2000, 0x6003), (0x4000, 0x9003)])
      3 "showmap".toList "0x1000".toList "0x4000".toList [] 1 0 0 0x5000 0x9000
      (by decide) (by decide)
      (by
        have hb : pageArg "0x1000".toList = 0x1000 := by decide
        rw [hb]
        intro k hk
        have hk' : k = 0 ∨ k = 1 := by omega
        rcases hk' with rfl | rfl
        · exact ⟨0x5003, by decide, by decide, by decide⟩
        · exact ⟨0x6003, by decide, by decide, by decide⟩)
      (by
        have hb : pageArg "0x1000".toList = 0x1000 := by decide
        rw [hb]
        intro k hk
        have hk' : k = 0 := by omega
        subst hk'
        exact Or.inl (by decide))
      (by
        have hb : pageArg "0x1000".toList = 0x1000 := by decide
        rw [hb]
        intro k hk
        have hk' : k = 0 := by omega
        subst hk'
        exact ⟨0x9003, by decide, by decide, by decide⟩)
      (by decide) (by decide)⟩

/-- C9: the code at the failing input. The range is the one page `0x800000`, mapped to the
physical page `0x801000 = begin + 4096`. The first present entry does not open a run at
`0x800000 -> 0x801000`: it is taken for a continuation of the placeholder
`left = right = begin`, so that after the page `left = begin`, `right = begin + 4096`,
`ibegin = 0`, and the record printed is `va[00000-00800]->pa[00800-00801]`. -/
theorem first_page_joins_placeholder :
    pageArg "0x800000".toList = 0x800000 ∧
    (tableMachine [(0x800000, 0x801007)]).pgdir_walk
      (tableMachine [(0x800000, 0x801007)]).pgdir 0x800000 0 = some 0x801007 ∧
    0x801007 &&& PGMASK = 0x801000 ∧
    (scanLoop (tableMachine [(0x800000, 0x801007)]).pgdir_walk
        (tableMachine [(0x800000, 0x801007)]).pgdir 0x800000 1 0x800000
        (scanInit 0x800000 [])).1 =
      { left := 0x800000, right := 0x801000, ibegin := 0, iend := 0x800000,
        log := [Event.call_pgdir_walk 0xF0110000 0x800000 0] } ∧
    (scanLoop (tableMachine [(0x800000, 0x801007)]).pgdir_walk
        (tableMachine [(0x800000, 0x801007)]).pgdir 0x800000 1 0x800000
        (scanInit 0x800000 [])).1 ≠
      { left := 0x801000, right := 0x801000, ibegin := 0x800000, iend := 0x800000,
        log := [Event.call_pgdir_walk 0xF0110000 0x800000 0, Event.print_run 0 0 0x800 0x800] } ∧
    show_mappings (tableMachine [(0x800000, 0x801007)]) 1 3
        ["showmap".toList, "0x800000".toList, "0x800000".toList] =
      some { ret := 0, log := [Event.call_read_hex "0x800000".toList,
        Event.call_read_hex "0x800000".toList, Event.print_begin_end 0x800000 0x800000,
        Event.print_pgdir 0xF0110000, Event.call_pgdir_walk 0xF0110000 0x800000 0,
        Event.print_run 0 0x800 0x800 0x801] } := by
  refine ⟨by decide, by decide, by decide, by decide, by decide, by decide⟩

/-- C10 fails as stated: an entry whose present bit is clear but which is not zero
(`0x5002`) is treated as a mapping: the run state changes and a record is printed. -/
theorem clear_present_bit_is_mapped :
    tableWalk [(0x1000, 0x5002)] 0 0x1000 0 = some 0x5002 ∧ 0x5002 % 2 = 0 ∧
    scanBody (tableWalk [(0x1000, 0x5002)]) 0 (scanInit 0x1000 []) 0x1000 =
      { left := 0x5000, right := 0x5000, ibegin := 0x1000, iend := 0x1000,
        log := [Event.call_pgdir_walk 0 0x1000 0, Event.print_run 0 0 1 1] } ∧
    scanBody (tableWalk [(0x1000, 0x5002)]) 0 (scanInit 0x1000 []) 0x1000 ≠
      { scanInit 0x1000 [] with log := [Event.call_pgdir_walk 0 0x1000 0] } := by
  refine ⟨by decide, by decide, by decide, by decide⟩

/-- C10, amended: at a page address for which the walker returns no entry, or an entry
that is zero, the loop body takes no action: `left`, `right`, `ibegin`, `iend` are
unchanged and nothing is printed (the only event is the walker call). -/
theorem scanBody_no_mapping (walk : Walker) (pgdir : Nat) (s : Scan) (i : Nat)
    (h : walk pgdir i 0 = none ∨ walk pgdir i 0 = some 0) :
    scanBody walk pgdir s i =
      { s with log := s.log ++ [Event.call_pgdir_walk pgdir i 0] } ∧
    runRecords (scanBody walk pgdir s i).log = runRecords s.log := by
  have hb := scanBody_unmapped walk pgdir s i (not_mappedAt_of walk pgdir i h)
  refine ⟨hb, ?_⟩
  rw [hb]
  simp only [runRecords_append, runRecords_walk, runRecords_nil, List.append_nil]

theorem scanBody_no_mapping_witness :
    (tableWalk [(0x1000, 0x5003), (0x2000, 0)] 0 0x2000 0 = none ∨
      tableWalk [(0x1000, 0x5003), (0x2000, 0)] 0 0x2000 0 = some 0) ∧
    (scanBody (tableWalk [(0x1000, 0x5003), (0x2000, 0)]) 0 (scanInit 0x5000 []) 0x2000 =
      { scanInit 0x5000 [] with
        log := (scanInit 0x5000 []).log ++ [Event.call_pgdir_walk 0 0x2000 0] } ∧
      runRecords
          (scanBody (tableWalk [(0x1000, 0x5003), (0x2000, 0)]) 0 (scanInit 0x5000 []) 0x2000).log
        = runRecords (scanInit 0x5000 []).log) :=
  ⟨Or.inr (by decide),
    scanBody_no_mapping (tableWalk [(0x1000, 0x5003), (0x2000, 0)]) 0 (scanInit 0x5000 []) 0x2000
      (Or.inr (by decide))⟩

/-- C8 fails as stated: on `0x1000 -> 0x5000`, `0x2000` unmapped, `0x3000 -> 0x6000` the
run after the third page covers the virtual addresses `0x1000..0x3000` and the physical
addresses `0x5000..0x6000`: `right - left = 0x1000` and `iend - ibegin = 0x2000`. -/
theorem skipped_page_breaks_affine :
    (scanLoop (tableMachine [(0x1000, 0x5003), (0x3000, 0x6003)]).pgdir_walk
        (tableMachine [(0x1000, 0x5003), (0x3000, 0x6003)]).pgdir
        (pageArg "0x3000".toList) 3 (pageArg "0x1000".toList)
        (scanInit (pageArg "0x1000".toList)
          (entryLog (tableMachine [(0x1000, 0x5003), (0x3000, 0x6003)])
            "0x1000".toList "0x3000".toList))).1 =
      { left := 0x5000, right := 0x6000, ibegin := 0x1000, iend := 0x3000,
        log := [Event.call_read_hex "0x1000".toList, Event.call_read_hex "0x3000".toList,
          Event.print_begin_end 0x1000 0x3000, Event.print_pgdir 0xF0110000,
          Event.call_pgdir_walk 0xF0110000 0x1000 0, Event.print_run 0 0 1 1,
          Event.call_pgdir_walk 0xF0110000 0x2000 0,
          Event.call_pgdir_walk 0xF0110000 0x3000 0] } ∧
    sub32 0x6000 0x5000 = 0x1000 ∧ sub32 0x3000 0x1000 = 0x2000 ∧
    ¬ (scanLoop (tableMachine [(0x1000, 0x5003), (0x3000, 0x6003)]).pgdir_walk
        (tableMachine [(0x1000, 0x5003), (0x3000, 0x6003)]).pgdir
        (pageArg "0x3000".toList) 3 (pageArg "0x1000".toList)
        (scanInit (pageArg "0x1000".toList)
          (entryLog (tableMachine [(0x1000, 0x5003), (0x3000, 0x6003)])
            "0x1000".toList "0x3000".toList))).1.affine := by
  refine ⟨by decide, by decide, by decide, by decide⟩

/-- C8, amended: at every point of the scan of `show_mappings` (initially and after each
trip through the loop) the run satisfies `(right - left) == (iend - ibegin)` in 32-bit
arithmetic, for every walker and range in which no mapped page that starts a block (the
page at `begin`, or a mapped page whose preceding page is not mapped) has the physical
base `right + 4096` (32-bit) of that moment, that is, in which no page is joined to the
run across a skipped page or to the initial state. -/
theorem scan_affine (m : Machine) (a1 a2 : List Char) (n : Nat)
    (hstart : ∀ k v, pageArg a1 + 4096 * k ≤ pageArg a2 →
      m.pgdir_walk m.pgdir (pageArg a1 + 4096 * k) 0 = some v → v ≠ 0 →
      (k = 0 ∨ ¬ mappedAt m.pgdir_walk m.pgdir (pageArg a1 + 4096 * (k - 1))) →
      v &&& PGMASK ≠
        ((scanLoop m.pgdir_walk m.pgdir (pageArg a2) k (pageArg a1)
          (scanInit (pageArg a1) (entryLog m a1 a2))).1.right + 4096) % 4294967296) :
    sub32
        (scanLoop m.pgdir_walk m.pgdir (pageArg a2) n (pageArg a1)
          (scanInit (pageArg a1) (entryLog m a1 a2))).1.right
        (scanLoop m.pgdir_walk m.pgdir (pageArg a2) n (pageArg a1)
          (scanInit (pageArg a1) (entryLog m a1 a2))).1.left
      = sub32
        (scanLoop m.pgdir_walk m.pgdir (pageArg a2) n (pageArg a1)
          (scanInit (pageArg a1) (entryLog m a1 a2))).1.iend
        (scanLoop m.pgdir_walk m.pgdir (pageArg a2) n (pageArg a1)
          (scanInit (pageArg a1) (entryLog m a1 a2))).1.ibegin := by
  obtain ⟨k, hk1, hk2, hk⟩ := scanLoop_eq_scanAfter m a1 a2 n
  rw [hk]
  by_cases hbe : pageArg a1 ≤ pageArg a2
  · refine (scanAfter_affine_blocks m a1 a2 hbe ?_ k (hk1 hbe)).1
    intro j v hle hw hv hprev
    have h := hstart j v hle hw hv hprev
    rw [scanLoop_fst m a1 a2 j hbe (by omega)] at h
    exact h
  · rw [hk2 (by omega)]
    show sub32 (pageArg a1) (pageArg a1) = sub32 0 0
    rw [sub32_self, sub32_self]

theorem scan_affine_witness :
    (tableMachine [(0x1000, 0x5003), (0x3000, 0x9003)]).pgdir_walk
        (tableMachine [(0x1000, 0x5003), (0x3000, 0x9003)]).pgdir 0x2000 0 = none ∧
    (scanLoop (tableMachine [(0x1000, 0x5003), (0x3000, 0x9003)]).pgdir_walk
        (tableMachine [(0x1000, 0x5003), (0x3000, 0x9003)]).pgdir
        (pageArg "0x3000".toList) 3 (pageArg "0x1000".toList)
        (scanInit (pageArg "0x1000".toList)
          (entryLog (tableMachine [(0x1000, 0x5003), (0x3000, 0x9003)])
            "0x1000".toList "0x3000".toList))).1 =
      { left := 0x9000, right := 0x9000, ibegin := 0x3000, iend := 0x3000,
        log := [Event.call_read_hex "0x1000".toList, Event.call_read_hex "0x3000".toList,
          Event.print_begin_end 0x1000 0x3000, Event.print_pgdir 0xF0110000,
          Event.call_pgdir_walk 0xF0110000 0x1000 0, Event.print_run 0 0 1 1,
          Event.call_pgdir_walk 0xF0110000 0x2000 0,
          Event.call_pgdir_walk 0xF0110000 0x3000 0, Event.print_run 1 1 5 5] } ∧
    sub32
        (scanLoop (tableMachine [(0x1000, 0x5003), (0x3000, 0x9003)]).pgdir_walk
          (tableMachine [(0x1000, 0x5003), (0x3000, 0x9003)]).pgdir
          (pageArg "0x3000".toList) 3 (pageArg "0x1000".toList)
          (scanInit (pageArg "0x1000".toList)
            (entryLog (tableMachine [(0x1000, 0x5003), (0x3000, 0x9003)])
              "0x1000".toList "0x3000".toList))).1.right
        (scanLoop (tableMachine [(0x1000, 0x5003), (0x3000, 0x9003)]).pgdir_walk
          (tableMachine [(0x1000, 0x5003), (0x3000, 0x9003)]).pgdir
          (pageArg "0x3000".toList) 3 (pageArg "0x1000".toList)
          (scanInit (pageArg "0x1000".toList)
            (entryLog (tableMachine [(0x1000, 0x5003), (0x3000, 0x9003)])
              "0x1000".toList "0x3000".toList))).1.left
      = sub32
        (scanLoop (tableMachine [(0x1000, 0x5003), (0x3000, 0x9003)]).pgdir_walk
          (tableMachine [(0x1000, 0x5003), (0x3000, 0x9003)]).pgdir
          (pageArg "0x3000".toList) 3 (pageArg "0x1000".toList)
          (scanInit (pageArg "0x1000".toList)
            (entryLog (tableMachine [(0x1000, 0x5003), (0x3000, 0x9003)])
              "0x1000".toList "0x3000".toList))).1.iend
        (scanLoop (tableMachine [(0x1000, 0x5003), (0x3000, 0x9003)]).pgdir_walk
          (tableMachine [(0x1000, 0x5003), (0x3000, 0x9003)]).pgdir
          (pageArg "0x3000".toList) 3 (pageArg "0x1000".toList)
          (scanInit (pageArg "0x1000".toList)
            (entryLog (tableMachine [(0x1000, 0x5003), (0x3000, 0x9003)])
              "0x1000".toList "0x3000".toList))).1.ibegin :=
  ⟨by decide, by decide,
    scan_affine (tableMachine [(0x1000, 0x5003), (0x3000, 0x9003)])
      "0x1000".toList "0x3000".toList 3
      (by
        have hb : pageArg "0x1000".toList = 0x1000 := by decide
        have he : pageArg "0x3000".toList = 0x3000 := by decide
        rw [hb, he]
        intro k v hle hw hv _
        have hk : k = 0 ∨ k = 1 ∨ k = 2 := by omega
        rcases hk with rfl | rfl | rfl
        · have hn : (tableMachine [(0x1000, 0x5003), (0x3000, 0x9003)]).pgdir_walk
              (tableMachine [(0x1000, 0x5003), (0x3000, 0x9003)]).pgdir (0x1000 + 4096 * 0) 0
                = some 0x5003 := by decide
          rw [hn] at hw
          rw [← Option.some.inj hw]
          decide
        · have hn : (tableMachine [(0x1000, 0x5003), (0x3000, 0x9003)]).pgdir_walk
              (tableMachine [(0x1000, 0x5003), (0x3000, 0x9003)]).pgdir (0x1000 + 4096 * 1) 0
                = none := by decide
          rw [hn] at hw
          exact Option.noConfusion hw
        · have hn : (tableMachine [(0x1000, 0x5003), (0x3000, 0x9003)]).pgdir_walk
              (tableMachine [(0x1000, 0x5003), (0x3000, 0x9003)]).pgdir (0x1000 + 4096 * 2) 0
                = some 0x9003 := by decide
          rw [hn] at hw
          rw [← Option.some.inj hw]
          decide)⟩

/-! ## More facts about `read_hex` and the claims on the sentinel -/

theorem read_hex_digits (ds : List Char) (h : ∀ c ∈ ds, isHexDigit c) :
    read_hex ('0' :: 'x' :: ds) = hexSum ds % WORD := by
  simp only [read_hex, ne_eq, not_true_eq_false, if_false]
  rw [read_hex_loop_digits ds h 0 (by decide)]
  simp

theorem isHexToken_cons (ds : List Char) (h : ∀ c ∈ ds, isHexDigit c) :
    isHexToken ('0' :: 'x' :: ds) := ⟨rfl, rfl, h⟩

theorem isHexToken_elim (tok : List Char) (h : isHexToken tok) :
    ∃ ds, tok = '0' :: 'x' :: ds ∧ ∀ c ∈ ds, isHexDigit c := by
  match tok, h with
  | c1 :: c2 :: ds, h =>
    obtain ⟨h1, h2, h3⟩ := h
    exact ⟨ds, by rw [h1, h2], h3⟩

theorem read_hex_of_malformed (tok : List Char) (h : isMalformed tok) :
    read_hex tok = ALLONES := by
  obtain ⟨hnul, hbad⟩ := h
  match tok, hnul, hbad with
  | [], _, _ => rfl
  | [c], _, _ =>
    simp only [read_hex]
    split <;> rfl
  | c :: c2 :: rest, hnul, hbad =>
    simp only [read_hex]
    by_cases h0 : c = '0'
    · by_cases hx : c2 = 'x'
      · rw [if_neg (by simpa using h0), if_neg (by simpa using hx)]
        have hex : ∃ d ∈ rest, ¬ isHexDigit d := by
          by_contra hall
          apply hbad
          refine ⟨h0, hx, fun d hd => ?_⟩
          by_contra hnd
          exact hall ⟨d, hd, hnd⟩
        exact read_hex_loop_bad rest
          (fun d hd => hnul d (List.mem_cons_of_mem _ (List.mem_cons_of_mem _ hd))) hex 0
      · rw [if_neg (by simpa using h0), if_pos hx]
    · rw [if_pos h0]

theorem hexSum_eight_f :
    hexSum ['f', 'f', 'f', 'f', 'f', 'f', 'f', 'f'] = 4294967295 := by decide

/-- C19: the value `0xFFFFFFFF` that `read_hex` returns on failure is also returned on
well-formed tokens: on `0xffffffff`, and on every well-formed token whose last eight
digits are all `f`; and on a well-formed token it is returned only if the value of the
digits is `2^32 - 1` modulo `2^32`. -/
theorem read_hex_sentinel_not_exclusive :
    (isHexToken "0xffffffff".toList ∧ read_hex "0xffffffff".toList = 0xFFFFFFFF) ∧
    (∀ pre : List Char, (∀ c ∈ pre, isHexDigit c) →
      isHexToken ('0' :: 'x' :: (pre ++ ['f', 'f', 'f', 'f', 'f', 'f', 'f', 'f'])) ∧
      read_hex ('0' :: 'x' :: (pre ++ ['f', 'f', 'f', 'f', 'f', 'f', 'f', 'f']))
        = 0xFFFFFFFF) ∧
    (∀ tok ds : List Char, tok = '0' :: 'x' :: ds → isHexToken tok →
      read_hex tok = 0xFFFFFFFF → hexSum ds % 2 ^ 32 = 2 ^ 32 - 1) := by
  refine ⟨⟨by decide, by decide⟩, ?_, ?_⟩
  · intro pre hpre
    have hall : ∀ c ∈ pre ++ ['f', 'f', 'f', 'f', 'f', 'f', 'f', 'f'], isHexDigit c := by
      intro c hc
      rcases List.mem_append.mp hc with h | h
      · exact hpre c h
      · have hf : c = 'f' := by simpa using h
        rw [hf]; decide
    refine ⟨isHexToken_cons _ hall, ?_⟩
    rw [read_hex_digits _ hall, hexSum_append, hexSum_eight_f]
    simp only [List.length_cons, List.length_nil, WORD]
    omega
  · intro tok ds htok hwf hret
    subst htok
    obtain ⟨_, _, hds⟩ := hwf
    rw [read_hex_digits ds hds] at hret
    simpa [WORD] using hret

/-! ## More facts about `show_mappings` and the claims on its output -/

theorem pageArg_le (tok : List Char) : pageArg tok ≤ 0xFFFFF000 := mask_le _

theorem pageArg_of_malformed (tok : List Char) (h : isMalformed tok) :
    pageArg tok = 0xFFFFF000 := by
  unfold pageArg
  rw [read_hex_of_malformed tok h]
  decide

/-- With at most three arguments `show_mappings` returns 0 once the fuel covers the
range; its events are those of the scan of the visited pages, then the last record. -/
theorem show_mappings_returns (m : Machine) (argc : Int) (a0 a1 a2 : List Char)
    (rest : List (List Char)) (hargc : argc ≤ 3) :
    ∃ r : Result,
      (∀ fuel, (pageArg a2 - pageArg a1) / 4096 < fuel →
        show_mappings m fuel argc (a0 :: a1 :: a2 :: rest) = some r) ∧
      r.ret = 0 ∧
      r.log =
        ((visited (pageArg a1) (pageArg a2)).foldl (scanBody m.pgdir_walk m.pgdir)
          (scanInit (pageArg a1) (entryLog m a1 a2))).log ++
        [((visited (pageArg a1) (pageArg a2)).foldl (scanBody m.pgdir_walk m.pgdir)
          (scanInit (pageArg a1) (entryLog m a1 a2))).record] := by
  by_cases hbe : pageArg a1 ≤ pageArg a2
  · refine ⟨_, fun fuel hf => show_mappings_scan m fuel argc a0 a1 a2 rest hargc hbe hf,
      rfl, ?_⟩
    simp only [visited, if_pos hbe, scanAfter]
  · refine ⟨_, fun fuel hf => show_mappings_empty m fuel argc a0 a1 a2 rest hargc
      (by omega) (by omega), rfl, ?_⟩
    simp only [visited, if_neg hbe, List.foldl_nil]
    rfl

theorem visited_eq_map (b e : Nat) (hbe : b ≤ e) :
    visited b e = (List.range ((e - b) / 4096 + 1)).map (fun k => b + 4096 * k) := by
  rw [visited, if_pos hbe, pageList_eq_map]

theorem scanBody_log_mem (walk : Walker) (pgdir : Nat) (s : Scan) (i : Nat) (ev : Event)
    (h : ev ∈ (scanBody walk pgdir s i).log) :
    ev ∈ s.log ∨ ev = Event.call_pgdir_walk pgdir i 0 ∨ ev = s.record := by
  by_cases hm : mappedAt walk pgdir i
  · obtain ⟨v, hw, hv⟩ := hm
    by_cases hc : (s.right + PGSIZE) % WORD = v &&& PGMASK
    · rw [scanBody_extend walk pgdir s i v hw hv hc] at h
      simp only [List.mem_append, List.mem_singleton] at h
      rcases h with h | h
      · exact Or.inl h
      · exact Or.inr (Or.inl h)
    · rw [scanBody_open walk pgdir s i v hw hv hc] at h
      simp only [List.mem_append, List.mem_cons, List.mem_singleton, List.not_mem_nil,
        or_false] at h
      rcases h with h | h | h
      · exact Or.inl h
      · exact Or.inr (Or.inl h)
      · exact Or.inr (Or.inr h)
  · rw [scanBody_unmapped walk pgdir s i hm] at h
    simp only [List.mem_append, List.mem_singleton] at h
    rcases h with h | h
    · exact Or.inl h
    · exact Or.inr (Or.inl h)

theorem foldl_log_mem (walk : Walker) (pgdir : Nat) (pages : List Nat) :
    ∀ (s : Scan) (ev : Event), ev ∈ (pages.foldl (scanBody walk pgdir) s).log →
      ev ∈ s.log ∨ (∃ va, ev = Event.call_pgdir_walk pgdir va 0) ∨
        ∃ a b c d, ev = Event.print_run a b c d := by
  induction pages with
  | nil => intro s ev h; exact Or.inl h
  | cons i l ih =>
    intro s ev h
    rw [List.foldl_cons] at h
    rcases ih _ ev h with h1 | h1 | h1
    · rcases scanBody_log_mem walk pgdir s i ev h1 with h2 | h2 | h2
      · exact Or.inl h2
      · exact Or.inr (Or.inl ⟨i, h2⟩)
      · exact Or.inr (Or.inr ⟨_, _, _, _, h2⟩)
    · exact Or.inr (Or.inl h1)
    · exact Or.inr (Or.inr h1)

theorem final_walkCalls (m : Machine) (a1 a2 : List Char) :
    walkCalls
      (((visited (pageArg a1) (pageArg a2)).foldl (scanBody m.pgdir_walk m.pgdir)
          (scanInit (pageArg a1) (entryLog m a1 a2))).log ++
        [((visited (pageArg a1) (pageArg a2)).foldl (scanBody m.pgdir_walk m.pgdir)
          (scanInit (pageArg a1) (entryLog m a1 a2))).record])
      = (visited (pageArg a1) (pageArg a2)).map (fun a => (a, 0)) := by
  rw [walkCalls_append, foldl_walkCalls]
  simp [walkCalls, scanInit, entryLog, Scan.record]


/-- C16: a malformed address token goes through `show_mappings` (at most three arguments)
without any error message. If `argv[1]` is malformed, `begin = 0xFFFFF000` and the walker
is called at most once: exactly once, at `0xFFFFF000`, when `end` also masks to
`0xFFFFF000`, and not at all otherwise. If `argv[2]` is malformed, `end = 0xFFFFF000` and
the walker is called on every page from `begin` up to and including `0xFFFFF000`. -/
theorem show_mappings_malformed_token (m : Machine) (argc : Int) (a0 a1 a2 : List Char)
    (rest : List (List Char)) (hargc : argc ≤ 3) :
    ∃ r : Result,
      (∀ fuel, (pageArg a2 - pageArg a1) / 4096 < fuel →
        show_mappings m fuel argc (a0 :: a1 :: a2 :: rest) = some r) ∧
      Event.print_too_many_args ∉ r.log ∧
      (∀ ev ∈ r.log, (∃ t, ev = Event.call_read_hex t) ∨
        (∃ b e, ev = Event.print_begin_end b e) ∨ (∃ p, ev = Event.print_pgdir p) ∨
        (∃ va, ev = Event.call_pgdir_walk m.pgdir va 0) ∨
        ∃ a b c d, ev = Event.print_run a b c d) ∧
      (isMalformed a1 →
        pageArg a1 = 0xFFFFF000 ∧ (walkCalls r.log).length ≤ 1 ∧
        (walkCalls r.log = [(0xFFFFF000, 0)] ↔ pageArg a2 = 0xFFFFF000) ∧
        (pageArg a2 ≠ 0xFFFFF000 → walkCalls r.log = [])) ∧
      (isMalformed a2 →
        pageArg a2 = 0xFFFFF000 ∧
        walkCalls r.log = (List.range ((0xFFFFF000 - pageArg a1) / 4096 + 1)).map
          (fun k => (pageArg a1 + 4096 * k, 0)) ∧
        pageArg a1 + 4096 * ((0xFFFFF000 - pageArg a1) / 4096) = 0xFFFFF000) := by
  obtain ⟨r, hret, _, hlog⟩ := show_mappings_returns m argc a0 a1 a2 rest hargc
  have hcalls : walkCalls r.log = (visited (pageArg a1) (pageArg a2)).map (fun a => (a, 0)) := by
    rw [hlog]; exact final_walkCalls m a1 a2
  have hall : ∀ ev ∈ r.log, (∃ t, ev = Event.call_read_hex t) ∨
      (∃ b e, ev = Event.print_begin_end b e) ∨ (∃ p, ev = Event.print_pgdir p) ∨
      (∃ va, ev = Event.call_pgdir_walk m.pgdir va 0) ∨
      ∃ a b c d, ev = Event.print_run a b c d := by
    intro ev hmem
    rw [hlog] at hmem
    rcases List.mem_append.mp hmem with h | h
    · rcases foldl_log_mem _ _ _ _ _ h with h1 | h1 | h1
      · simp only [scanInit, entryLog, List.mem_cons, List.mem_singleton, List.not_mem_nil,
          or_false] at h1
        rcases h1 with h2 | h2 | h2 | h2
        · exact Or.inl ⟨_, h2⟩
        · exact Or.inl ⟨_, h2⟩
        · exact Or.inr (Or.inl ⟨_, _, h2⟩)
        · exact Or.inr (Or.inr (Or.inl ⟨_, h2⟩))
      · exact Or.inr (Or.inr (Or.inr (Or.inl h1)))
      · exact Or.inr (Or.inr (Or.inr (Or.inr h1)))
    · exact Or.inr (Or.inr (Or.inr (Or.inr ⟨_, _, _, _, List.mem_singleton.mp h⟩)))
  refine ⟨r, hret, ?_, hall, ?_, ?_⟩
  · intro hmem
    rcases hall _ hmem with ⟨_, h⟩ | ⟨_, _, h⟩ | ⟨_, h⟩ | ⟨_, h⟩ | ⟨_, _, _, _, h⟩ <;>
      exact Event.noConfusion h
  · intro hbad
    have hb := pageArg_of_malformed a1 hbad
    have he := pageArg_le a2
    refine ⟨hb, ?_, ?_, ?_⟩
    · rw [hcalls, List.length_map, hb]
      by_cases heq : pageArg a2 = 0xFFFFF000
      · rw [heq]; decide
      · rw [visited, if_neg (by omega)]; simp
    · rw [hcalls, hb]
      constructor
      · intro h
        by_contra hne
        rw [visited, if_neg (by omega)] at h
        simp at h
      · intro heq
        rw [heq]; decide
    · intro hne
      rw [hcalls, hb, visited, if_neg (by omega)]
      rfl
  · intro hbad
    have he := pageArg_of_malformed a2 hbad
    have hb := pageArg_le a1
    have hal := pageArg_aligned a1
    simp only [PGSIZE] at hal
    refine ⟨he, ?_, by omega⟩
    rw [hcalls, he, visited_eq_map _ _ hb, List.map_map]
    rfl

theorem show_mappings_malformed_token_witness :
    (3 : Int) ≤ 3 ∧ isMalformed "zz".toList ∧ isMalformed "0xABC".toList ∧
    ∃ r : Result,
      (∀ fuel, (pageArg "0xABC".toList - pageArg "zz".toList) / 4096 < fuel →
        show_mappings (tableMachine []) fuel 3
          ("showmap".toList :: "zz".toList :: "0xABC".toList :: []) = some r) ∧
      Event.print_too_many_args ∉ r.log ∧
      (∀ ev ∈ r.log, (∃ t, ev = Event.call_read_hex t) ∨
        (∃ b e, ev = Event.print_begin_end b e) ∨ (∃ p, ev = Event.print_pgdir p) ∨
        (∃ va, ev = Event.call_pgdir_walk (tableMachine []).pgdir va 0) ∨
        ∃ a b c d, ev = Event.print_run a b c d) ∧
      (isMalformed "zz".toList →
        pageArg "zz".toList = 0xFFFFF000 ∧ (walkCalls r.log).length ≤ 1 ∧
        (walkCalls r.log = [(0xFFFFF000, 0)] ↔ pageArg "0xABC".toList = 0xFFFFF000) ∧
        (pageArg "0xABC".toList ≠ 0xFFFFF000 → walkCalls r.log = [])) ∧
      (isMalformed "0xABC".toList →
        pageArg "0xABC".toList = 0xFFFFF000 ∧
        walkCalls r.log = (List.range ((0xFFFFF000 - pageArg "zz".toList) / 4096 + 1)).map
          (fun k => (pageArg "zz".toList + 4096 * k, 0)) ∧
        pageArg "zz".toList + 4096 * ((0xFFFFF000 - pageArg "zz".toList) / 4096)
          = 0xFFFFF000) :=
  ⟨by decide, by decide, by decide,
    show_mappings_malformed_token (tableMachine []) 3 _ _ _ _ (by decide)⟩


theorem scanBody_records_length (walk : Walker) (pgdir : Nat) (s : Scan) (i : Nat) :
    (runRecords (scanBody walk pgdir s i).log).length =
      (runRecords s.log).length + countOpens walk pgdir s [i] := by
  by_cases hm : mappedAt walk pgdir i
  · obtain ⟨v, hw, hv⟩ := hm
    by_cases hc : (s.right + PGSIZE) % WORD = v &&& PGMASK
    · rw [scanBody_extend walk pgdir s i v hw hv hc]
      have hc' : ¬ (v ≠ 0 ∧ v &&& PGMASK ≠ (s.right + 4096) % 4294967296) := by
        intro h; exact h.2 hc.symm
      simp only [countOpens, hw, if_neg hc', runRecords_append, runRecords_walk,
        runRecords_nil, List.append_nil, Nat.add_zero]
    · rw [scanBody_open walk pgdir s i v hw hv hc]
      have hc' : v ≠ 0 ∧ v &&& PGMASK ≠ (s.right + 4096) % 4294967296 :=
        ⟨hv, fun h => hc h.symm⟩
      simp only [countOpens, hw, if_pos hc', runRecords_append, runRecords_walk,
        runRecords_nil, Scan.record, runRecords_run, List.length_append, List.length_cons,
        List.length_nil, Nat.add_zero]
  · rw [scanBody_unmapped walk pgdir s i hm]
    have h0 : countOpens walk pgdir s [i] = 0 := by
      unfold mappedAt at hm
      simp only [countOpens, Nat.add_zero]
      cases hw : walk pgdir i 0 with
      | none => rfl
      | some v =>
        have hv : v = 0 := by
          by_contra hne
          exact hm ⟨v, hw, hne⟩
        simp [hv]
    rw [h0]
    simp only [runRecords_append, runRecords_walk, runRecords_nil, List.append_nil,
      Nat.add_zero]

theorem countOpens_cons (walk : Walker) (pgdir : Nat) (s : Scan) (i : Nat) (l : List Nat) :
    countOpens walk pgdir s (i :: l) =
      countOpens walk pgdir s [i] + countOpens walk pgdir (scanBody walk pgdir s i) l := by
  simp only [countOpens, Nat.add_zero]

theorem foldl_records_length (walk : Walker) (pgdir : Nat) (pages : List Nat) :
    ∀ s : Scan, (runRecords (pages.foldl (scanBody walk pgdir) s).log).length =
      (runRecords s.log).length + countOpens walk pgdir s pages := by
  induction pages with
  | nil => intro s; rfl
  | cons i l ih =>
    intro s
    rw [List.foldl_cons, ih, scanBody_records_length, countOpens_cons walk pgdir s i l,
      Nat.add_assoc]

theorem foldl_log_extends (walk : Walker) (pgdir : Nat) (pages : List Nat) :
    ∀ s : Scan, ∃ t, (pages.foldl (scanBody walk pgdir) s).log = s.log ++ t := by
  induction pages with
  | nil => intro s; exact ⟨[], by simp⟩
  | cons i l ih =>
    intro s
    obtain ⟨t, ht⟩ := ih (scanBody walk pgdir s i)
    have hb : ∃ u, (scanBody walk pgdir s i).log = s.log ++ u := by
      by_cases hm : mappedAt walk pgdir i
      · obtain ⟨v, hw, hv⟩ := hm
        by_cases hc : (s.right + PGSIZE) % WORD = v &&& PGMASK
        · rw [scanBody_extend walk pgdir s i v hw hv hc]; exact ⟨_, rfl⟩
        · rw [scanBody_open walk pgdir s i v hw hv hc]; exact ⟨_, rfl⟩
      · rw [scanBody_unmapped walk pgdir s i hm]; exact ⟨_, rfl⟩
    obtain ⟨u, hu⟩ := hb
    exact ⟨u ++ t, by rw [List.foldl_cons, ht, hu, List.append_assoc]⟩

/-- The state of the scan after `k` pages none of which is mapped. -/
theorem scanAfter_unmapped (m : Machine) (a1 a2 : List Char) (k : Nat)
    (h : ∀ j, j < k → ¬ mappedAt m.pgdir_walk m.pgdir (pageArg a1 + 4096 * j)) :
    scanAfter m a1 a2 k =
      { left := pageArg a1, right := pageArg a1, ibegin := 0, iend := 0,
        log := entryLog m a1 a2 ++
          (pageList (pageArg a1) k).map (fun i => Event.call_pgdir_walk m.pgdir i 0) } := by
  unfold scanAfter
  rw [foldl_unmapped]
  · rfl
  · intro i hi
    obtain ⟨j, hj, rfl⟩ := mem_pageList _ _ _ hi
    exact h j hj


/-- C18: with at most three arguments, the number of records `show_mappings` prints is
1 plus the number of visited addresses whose entry is not null and not zero and whose
physical base differs from `right + 4096` (32-bit) at that moment. A scan without a
mapped page (also when `begin > end`) prints exactly the record `va[0-0]->pa[b-b]`,
`b = begin >> 12`. When the first mapped page has a physical base other than
`begin + 4096` (32-bit), that record of the initial state is printed first, before the
record of a run; when the base is `begin + 4096`, nothing is printed up to that page
and the page extends the initial state. -/
theorem show_mappings_record_count (m : Machine) (argc : Int) (a0 a1 a2 : List Char)
    (rest : List (List Char)) (hargc : argc ≤ 3) :
    ∃ r : Result,
      (∀ fuel, (pageArg a2 - pageArg a1) / 4096 < fuel →
        show_mappings m fuel argc (a0 :: a1 :: a2 :: rest) = some r) ∧
      (runRecords r.log).length =
        1 + countOpens m.pgdir_walk m.pgdir (scanInit (pageArg a1) (entryLog m a1 a2))
          (visited (pageArg a1) (pageArg a2)) ∧
      ((∀ a ∈ visited (pageArg a1) (pageArg a2), ¬ mappedAt m.pgdir_walk m.pgdir a) →
        runRecords r.log = [(0, 0, pageArg a1 >>> 12, pageArg a1 >>> 12)]) ∧
      (∀ k v, pageArg a1 ≤ pageArg a2 → k ≤ (pageArg a2 - pageArg a1) / 4096 →
        (∀ j, j < k → ¬ mappedAt m.pgdir_walk m.pgdir (pageArg a1 + 4096 * j)) →
        m.pgdir_walk m.pgdir (pageArg a1 + 4096 * k) 0 = some v → v ≠ 0 →
        (v &&& PGMASK ≠ (pageArg a1 + 4096) % 2 ^ 32 →
          ∃ runs, runs ≠ [] ∧
            runRecords r.log = (0, 0, pageArg a1 >>> 12, pageArg a1 >>> 12) :: runs) ∧
        (v &&& PGMASK = (pageArg a1 + 4096) % 2 ^ 32 →
          (scanLoop m.pgdir_walk m.pgdir (pageArg a2) (k + 1) (pageArg a1)
              (scanInit (pageArg a1) (entryLog m a1 a2))).1 =
            { left := pageArg a1, right := (pageArg a1 + 4096) % 2 ^ 32, ibegin := 0,
              iend := pageArg a1 + 4096 * k,
              log := entryLog m a1 a2 ++ (pageList (pageArg a1) (k + 1)).map
                (fun i => Event.call_pgdir_walk m.pgdir i 0) })) := by
  obtain ⟨r, hret, _, hlog⟩ := show_mappings_returns m argc a0 a1 a2 rest hargc
  refine ⟨r, hret, ?_, ?_, ?_⟩
  · rw [hlog, runRecords_append, List.length_append, foldl_records_length]
    simp only [Scan.record, runRecords_run, runRecords_nil, scanInit, runRecords_entryLog,
      List.length_cons, List.length_nil]
    omega
  · intro hnone
    rw [hlog, foldl_unmapped _ _ _ _ hnone]
    simp only [runRecords_append, runRecords_walks, Scan.record, scanInit,
      runRecords_entryLog, runRecords_run, runRecords_nil, List.append_nil, List.nil_append,
      Nat.zero_shiftRight]
  · intro k v hbe hk hnone hw hv
    have hpre := scanAfter_unmapped m a1 a2 k hnone
    have hstep := scanAfter_succ m a1 a2 k
    have hx : pageArg a1 + PGSIZE * k = pageArg a1 + 4096 * k := rfl
    obtain ⟨sK, hsK⟩ : ∃ sK : Scan, sK = scanAfter m a1 a2 k := ⟨_, rfl⟩
    rw [hx, ← hsK] at hstep
    rw [← hsK] at hpre
    have hrK : sK.right = pageArg a1 := by rw [hpre]
    constructor
    · intro hne
      have hc : (sK.right + PGSIZE) % WORD ≠ v &&& PGMASK := by
        rw [hrK]; exact fun h => hne h.symm
      rw [scanBody_open _ _ sK _ v hw hv hc, hpre] at hstep
      -- the pages after the first mapped one only add to the log
      have hsplit : visited (pageArg a1) (pageArg a2) =
          pageList (pageArg a1) (k + 1) ++
            pageList (pageArg a1 + PGSIZE * (k + 1)) ((pageArg a2 - pageArg a1) / 4096 - k) := by
        rw [visited, if_pos hbe, ← pageList_add]
        congr 1
        omega
      obtain ⟨t, ht⟩ := foldl_log_extends m.pgdir_walk m.pgdir
        (pageList (pageArg a1 + PGSIZE * (k + 1)) ((pageArg a2 - pageArg a1) / 4096 - k))
        (scanAfter m a1 a2 (k + 1))
      have hfold : (visited (pageArg a1) (pageArg a2)).foldl (scanBody m.pgdir_walk m.pgdir)
          (scanInit (pageArg a1) (entryLog m a1 a2)) =
          (pageList (pageArg a1 + PGSIZE * (k + 1))
            ((pageArg a2 - pageArg a1) / 4096 - k)).foldl (scanBody m.pgdir_walk m.pgdir)
            (scanAfter m a1 a2 (k + 1)) := by
        rw [hsplit, List.foldl_append]; rfl
      rw [hfold] at hlog
      refine ⟨runRecords t ++ runRecords [((pageList (pageArg a1 + PGSIZE * (k + 1))
        ((pageArg a2 - pageArg a1) / 4096 - k)).foldl (scanBody m.pgdir_walk m.pgdir)
        (scanAfter m a1 a2 (k + 1))).record], ?_, ?_⟩
      · simp [Scan.record, runRecords_run]
      · rw [hlog, runRecords_append, ht, hstep]
        simp only [runRecords_append, runRecords_walks, Scan.record, scanInit,
          runRecords_entryLog, runRecords_run, runRecords_walk, runRecords_nil,
          List.append_nil, List.nil_append, List.singleton_append, List.cons_append,
          Nat.zero_shiftRight]
    · intro heq
      have hc : (sK.right + PGSIZE) % WORD = v &&& PGMASK := by
        rw [hrK]; exact heq.symm
      rw [scanBody_extend _ _ sK _ v hw hv hc, hpre] at hstep
      rw [scanLoop_fst m a1 a2 (k + 1) hbe (by omega), hstep]
      have hlist : pageList (pageArg a1) (k + 1) =
          pageList (pageArg a1) k ++ [pageArg a1 + 4096 * k] := by
        rw [pageList_add k]; rfl
      rw [hlist, List.map_append, ← List.append_assoc]
      rfl


theorem show_mappings_record_count_witness :
    (3 : Int) ≤ 3 ∧
    ∃ r : Result,
      (∀ fuel, (pageArg "0x3000".toList - pageArg "0x1000".toList) / 4096 < fuel →
        show_mappings (tableMachine [(0x2000, 0x5003), (0x3000, 0x6003)]) fuel 3
          ("showmap".toList :: "0x1000".toList :: "0x3000".toList :: []) = some r) ∧
      (runRecords r.log).length =
        1 + countOpens (tableMachine [(0x2000, 0x5003), (0x3000, 0x6003)]).pgdir_walk
          (tableMachine [(0x2000, 0x5003), (0x3000, 0x6003)]).pgdir
          (scanInit (pageArg "0x1000".toList)
            (entryLog (tableMachine [(0x2000, 0x5003), (0x3000, 0x6003)])
              "0x1000".toList "0x3000".toList))
          (visited (pageArg "0x1000".toList) (pageArg "0x3000".toList)) ∧
      ((∀ a ∈ visited (pageArg "0x1000".toList) (pageArg "0x3000".toList),
          ¬ mappedAt (tableMachine [(0x2000, 0x5003), (0x3000, 0x6003)]).pgdir_walk
            (tableMachine [(0x2000, 0x5003), (0x3000, 0x6003)]).pgdir a) →
        runRecords r.log =
          [(0, 0, pageArg "0x1000".toList >>> 12, pageArg "0x1000".toList >>> 12)]) ∧
      (∀ k v, pageArg "0x1000".toList ≤ pageArg "0x3000".toList →
        k ≤ (pageArg "0x3000".toList - pageArg "0x1000".toList) / 4096 →
        (∀ j, j < k →
          ¬ mappedAt (tableMachine [(0x2000, 0x5003), (0x3000, 0x6003)]).pgdir_walk
            (tableMachine [(0x2000, 0x5003), (0x3000, 0x6003)]).pgdir
            (pageArg "0x1000".toList + 4096 * j)) →
        (tableMachine [(0x2000, 0x5003), (0x3000, 0x6003)]).pgdir_walk
          (tableMachine [(0x2000, 0x5003), (0x3000, 0x6003)]).pgdir
          (pageArg "0x1000".toList + 4096 * k) 0 = some v → v ≠ 0 →
        (v &&& PGMASK ≠ (pageArg "0x1000".toList + 4096) % 2 ^ 32 →
          ∃ runs, runs ≠ [] ∧
            runRecords r.log =
              (0, 0, pageArg "0x1000".toList >>> 12, pageArg "0x1000".toList >>> 12) :: runs) ∧
        (v &&& PGMASK = (pageArg "0x1000".toList + 4096) % 2 ^ 32 →
          (scanLoop (tableMachine [(0x2000, 0x5003), (0x3000, 0x6003)]).pgdir_walk
              (tableMachine [(0x2000, 0x5003), (0x3000, 0x6003)]).pgdir
              (pageArg "0x3000".toList) (k + 1) (pageArg "0x1000".toList)
              (scanInit (pageArg "0x1000".toList)
                (entryLog (tableMachine [(0x2000, 0x5003), (0x3000, 0x6003)])
                  "0x1000".toList "0x3000".toList))).1 =
            { left := pageArg "0x1000".toList,
              right := (pageArg "0x1000".toList + 4096) % 2 ^ 32, ibegin := 0,
              iend := pageArg "0x1000".toList + 4096 * k,
              log := entryLog (tableMachine [(0x2000, 0x5003), (0x3000, 0x6003)])
                  "0x1000".toList "0x3000".toList ++
                (pageList (pageArg "0x1000".toList) (k + 1)).map
                  (fun i => Event.call_pgdir_walk
                    (tableMachine [(0x2000, 0x5003), (0x3000, 0x6003)]).pgdir i 0) })) :=
  ⟨by decide,
    show_mappings_record_count (tableMachine [(0x2000, 0x5003), (0x3000, 0x6003)]) 3
      "showmap".toList "0x1000".toList "0x3000".toList [] (by decide)⟩


/-! ## Facts about `mon_backtrace` -/

theorem frameLines_append (l1 l2 : List Event) :
    frameLines (l1 ++ l2) = frameLines l1 ++ frameLines l2 := by
  induction l1 with
  | nil => rfl
  | cons ev l ih => cases ev <;> simp [frameLines, ih]

theorem resolverCalls_append (l1 l2 : List Event) :
    resolverCalls (l1 ++ l2) = resolverCalls l1 ++ resolverCalls l2 := by
  induction l1 with
  | nil => rfl
  | cons ev l ih => cases ev <;> simp [resolverCalls, ih]

theorem continuationLines_append (l1 l2 : List Event) :
    continuationLines (l1 ++ l2) = continuationLines l1 ++ continuationLines l2 := by
  induction l1 with
  | nil => rfl
  | cons ev l ih => cases ev <;> simp [continuationLines, ih]

theorem memReads_append (l1 l2 : List Event) :
    memReads (l1 ++ l2) = memReads l1 ++ memReads l2 := by
  induction l1 with
  | nil => rfl
  | cons ev l ih => cases ev <;> simp [memReads, ih]

theorem backtraceOutput_append (l1 l2 : List Event) :
    backtraceOutput (l1 ++ l2) = backtraceOutput l1 ++ backtraceOutput l2 := by
  unfold backtraceOutput
  exact List.filter_append l1 l2

theorem argEvents_frameLines (mem : Nat → Nat) (ebp : Nat) (narg : Int) :
    frameLines (argEvents mem ebp narg) = [] := by
  unfold argEvents
  induction List.range narg.toNat with
  | nil => rfl
  | cons i l ih => simpa [List.flatMap_cons, frameLines_append, frameLines] using ih

theorem argEvents_resolverCalls (mem : Nat → Nat) (ebp : Nat) (narg : Int) :
    resolverCalls (argEvents mem ebp narg) = [] := by
  unfold argEvents
  induction List.range narg.toNat with
  | nil => rfl
  | cons i l ih => simpa [List.flatMap_cons, resolverCalls_append, resolverCalls] using ih

theorem argEvents_continuationLines (mem : Nat → Nat) (ebp : Nat) (narg : Int) :
    continuationLines (argEvents mem ebp narg) = [] := by
  unfold argEvents
  induction List.range narg.toNat with
  | nil => rfl
  | cons i l ih =>
    simpa [List.flatMap_cons, continuationLines_append, continuationLines] using ih

theorem argEvents_output (mem : Nat → Nat) (ebp : Nat) (narg : Int) :
    backtraceOutput (argEvents mem ebp narg) =
      (List.range narg.toNat).map (fun i => Event.print_arg (deref mem ebp (2 + i))) := by
  unfold argEvents
  induction List.range narg.toNat with
  | nil => rfl
  | cons i l ih =>
    rw [List.flatMap_cons, backtraceOutput_append, ih, List.map_cons]
    rfl

theorem frameBody_frameLines (st : Stack) (prev : Eipdebuginfo) (fp : Nat) :
    frameLines (frameBody st prev fp) = [(fp, deref st.mem fp 1)] := by
  simp [frameBody, frameLines_append, argEvents_frameLines, frameLines]

theorem frameBody_resolverCalls (st : Stack) (prev : Eipdebuginfo) (fp : Nat) :
    resolverCalls (frameBody st prev fp) = [deref st.mem fp 1] := by
  simp [frameBody, resolverCalls_append, argEvents_resolverCalls, resolverCalls]

theorem frameBody_continuationLines (st : Stack) (prev : Eipdebuginfo) (fp : Nat) :
    continuationLines (frameBody st prev fp) =
      [((st.debuginfo_eip (deref st.mem fp 1)).eip_file,
        (st.debuginfo_eip (deref st.mem fp 1)).eip_line)] := by
  simp [frameBody, continuationLines_append, argEvents_continuationLines, continuationLines]

theorem chainEvents_frameLines (st : Stack) (fps : List Nat) :
    ∀ prev, frameLines (chainEvents st prev fps) = fps.map (fun fp => (fp, deref st.mem fp 1)) := by
  induction fps with
  | nil => intro prev; rfl
  | cons fp rest ih =>
    intro prev
    rw [chainEvents, frameLines_append, frameBody_frameLines, ih]
    rfl

theorem chainEvents_resolverCalls (st : Stack) (fps : List Nat) :
    ∀ prev, resolverCalls (chainEvents st prev fps) = fps.map (fun fp => deref st.mem fp 1) := by
  induction fps with
  | nil => intro prev; rfl
  | cons fp rest ih =>
    intro prev
    rw [chainEvents, resolverCalls_append, frameBody_resolverCalls, ih]
    rfl

theorem chainEvents_continuationLines (st : Stack) (fps : List Nat) :
    ∀ prev, (continuationLines (chainEvents st prev fps)).length = fps.length := by
  induction fps with
  | nil => intro prev; rfl
  | cons fp rest ih =>
    intro prev
    rw [chainEvents, continuationLines_append, frameBody_continuationLines, List.length_append,
      ih, List.length_cons, List.length_cons, List.length_nil]
    omega

theorem chainEvents_output (st : Stack) (fps : List Nat) :
    ∀ prev, backtraceOutput (chainEvents st prev fps) = expectedLines st prev fps := by
  induction fps with
  | nil => intro prev; rfl
  | cons fp rest ih =>
    intro prev
    rw [chainEvents, backtraceOutput_append, ih, expectedLines, frameBody]
    simp only [backtraceOutput_append, argEvents_output]
    rfl

/-- Along a chain of frames that ends with a zero saved frame pointer the loop leaves,
having added the events of each frame in turn. -/
theorem backtraceLoop_chain (st : Stack) (fps : List Nat) :
    ∀ (fuel ebp : Nat) (prev : Eipdebuginfo) (log : List Event),
      isChain st.mem ebp fps → fps.length ≤ fuel →
      backtraceLoop st fuel ebp prev log = some (log ++ chainEvents st prev fps) := by
  induction fps with
  | nil =>
    intro fuel ebp prev log h _
    have h0 : ebp = 0 := h
    subst h0
    cases fuel <;> simp [backtraceLoop, chainEvents]
  | cons fp rest ih =>
    intro fuel ebp prev log h hf
    obtain ⟨h1, h2, h3⟩ := h
    subst h1
    obtain ⟨f, rfl⟩ : ∃ f, fuel = f + 1 := ⟨fuel - 1, by simp at hf; omega⟩
    rw [backtraceLoop, if_pos h2, ih f _ _ _ h3 (by simpa using hf), chainEvents,
      List.append_assoc]


/-- C11: when the starting frame pointer is zero, `mon_backtrace` prints the header
`Stack backtrace:` and nothing else, no frame line, reads no memory word (its only call
is the seed call of the resolver) and returns 0. -/
theorem mon_backtrace_zero_frame (st : Stack) (fuel : Nat) (argc : Int)
    (argv : List (List Char)) (h : st.ebp = 0) :
    ∃ r : Result, mon_backtrace st fuel argc argv = some r ∧ r.ret = 0 ∧
      backtraceOutput r.log = [Event.print_backtrace_header] ∧
      frameLines r.log = [] ∧ memReads r.log = [] ∧
      r.log = [Event.print_backtrace_header, Event.call_debuginfo_eip st.mon_backtrace_addr] := by
  refine ⟨{ ret := 0, log := [Event.print_backtrace_header,
    Event.call_debuginfo_eip st.mon_backtrace_addr] }, ?_, rfl, rfl, rfl, rfl, rfl⟩
  unfold mon_backtrace
  rw [h]
  cases fuel <;> simp [backtraceLoop]

theorem mon_backtrace_zero_frame_witness :
    ({ demoStack with ebp := 0 } : Stack).ebp = 0 ∧
    ∃ r : Result, mon_backtrace { demoStack with ebp := 0 } 0 1 ["backtrace".toList] = some r ∧
      r.ret = 0 ∧
      backtraceOutput r.log = [Event.print_backtrace_header] ∧
      frameLines r.log = [] ∧ memReads r.log = [] ∧
      r.log = [Event.print_backtrace_header,
        Event.call_debuginfo_eip ({ demoStack with ebp := 0 } : Stack).mon_backtrace_addr] :=
  ⟨rfl, mon_backtrace_zero_frame { demoStack with ebp := 0 } 0 1 ["backtrace".toList] rfl⟩

/-- With the frames `fps` from the starting frame pointer, `mon_backtrace` returns 0
once the fuel covers the frames; its events are the header, the seed call and the
events of the frames. -/
theorem mon_backtrace_returns (st : Stack) (fps : List Nat) (argc : Int)
    (argv : List (List Char)) (h : isChain st.mem st.ebp fps) (fuel : Nat)
    (hf : fps.length ≤ fuel) :
    mon_backtrace st fuel argc argv =
      some { ret := 0,
             log := [Event.print_backtrace_header,
                Event.call_debuginfo_eip st.mon_backtrace_addr] ++
              chainEvents st (st.debuginfo_eip st.mon_backtrace_addr) fps } := by
  unfold mon_backtrace
  simp only []
  rw [backtraceLoop_chain st fps fuel st.ebp _ _ h hf]

/-- On a memory of 32-bit words `*(p + k)` is the word at the 32-bit address `p + 4 * k`. -/
theorem deref_eq_mem (mem : Nat → Nat) (hword : ∀ a, mem a < 4294967296) (p k : Nat) :
    deref mem p k = mem ((p + 4 * k) % 4294967296) := by
  unfold deref wordAddr WORD
  exact Nat.mod_eq_of_lt (hword _)

/-- A chain of frames on a memory of 32-bit words is a chain for the reads of the loop. -/
theorem isChain_of_isFrameChain (mem : Nat → Nat) (hword : ∀ a, mem a < 4294967296)
    (fps : List Nat) :
    ∀ start, start < 4294967296 → isFrameChain mem start fps → isChain mem start fps := by
  induction fps with
  | nil => intro start _ h; exact h
  | cons fp rest ih =>
    intro start hs h
    obtain ⟨h1, h2, h3⟩ := h
    subst h1
    refine ⟨rfl, h2, ?_⟩
    have hd : deref mem start 0 = mem start := by
      rw [deref_eq_mem mem hword, Nat.mul_zero, Nat.add_zero, Nat.mod_eq_of_lt hs]
    rw [hd]
    exact ih (mem start) (hword _) h3

/-- Every word of a table memory is below a bound its entries are below. -/
theorem tableMem_lt (tbl : List (Nat × Nat)) (B : Nat) (hB : 0 < B)
    (h : ∀ p ∈ tbl, p.2 < B) (a : Nat) : tableMem tbl a < B := by
  unfold tableMem
  cases hf : tbl.find? (fun p => p.1 == a) with
  | none => exact hB
  | some p => exact h p (List.mem_of_find?_eq_some hf)

/-- C12: on a 32-bit machine (memory words and the starting frame pointer below 2^32), for
a chain of `n >= 0` frame pointers `fp_1 .. fp_n` from the starting frame pointer, all
non-zero, with `mem[fp_k] = fp_(k+1)` and `mem[fp_n] = 0`, `mon_backtrace` returns 0 and
prints exactly `n` call lines and `n` continuation lines, the `k`-th call line reporting
`fp_k` and the return address `mem[fp_k + 4]`, in chain order; the resolver is called once
for the seed and once per frame, on the frame's return address `mem[fp_k + 4]`. -/
theorem mon_backtrace_chain (st : Stack) (fps : List Nat) (argc : Int)
    (argv : List (List Char)) (hword : ∀ a, st.mem a < 4294967296)
    (hebp : st.ebp < 4294967296) (h : isFrameChain st.mem st.ebp fps) :
    ∃ r : Result,
      (∀ fuel, fps.length ≤ fuel → mon_backtrace st fuel argc argv = some r) ∧
      r.ret = 0 ∧
      frameLines r.log = fps.map (fun fp => (fp, st.mem ((fp + 4) % 4294967296))) ∧
      (frameLines r.log).length = fps.length ∧
      (continuationLines r.log).length = fps.length ∧
      resolverCalls r.log =
        st.mon_backtrace_addr :: fps.map (fun fp => st.mem ((fp + 4) % 4294967296)) := by
  have hc := isChain_of_isFrameChain st.mem hword fps st.ebp hebp h
  have hret : ∀ fp, deref st.mem fp 1 = st.mem ((fp + 4) % 4294967296) := by
    intro fp
    unfold deref wordAddr WORD
    exact Nat.mod_eq_of_lt (hword _)
  refine ⟨_, fun fuel hf => mon_backtrace_returns st fps argc argv hc fuel hf, rfl, ?_, ?_, ?_, ?_⟩
  · simp only [frameLines_append, chainEvents_frameLines, hret]
    rfl
  · simp only [frameLines_append, chainEvents_frameLines, List.length_append, List.length_map]
    simp [frameLines]
  · simp only [continuationLines_append, chainEvents_continuationLines, List.length_append]
    simp [continuationLines]
  · simp only [resolverCalls_append, chainEvents_resolverCalls, hret]
    rfl

theorem mon_backtrace_chain_witness :
    (∀ a, demoStack.mem a < 4294967296) ∧ demoStack.ebp < 4294967296 ∧
    isFrameChain demoStack.mem demoStack.ebp [0x1000, 0x2000] ∧
    demoStack.mem 0x1000 = 0x2000 ∧ demoStack.mem 0x1004 = 0x123 ∧
    demoStack.mem 0x2000 = 0 ∧ demoStack.mem 0x2004 = 0x245 ∧
    (mon_backtrace demoStack 2 1 ["backtrace".toList]).map (fun r => frameLines r.log) =
      some [(0x1000, 0x123), (0x2000, 0x245)] ∧
    (mon_backtrace demoStack 2 1 ["backtrace".toList]).map (fun r => resolverCalls r.log) =
      some [0x300, 0x123, 0x245] ∧
    ∃ r : Result,
      (∀ fuel, 2 ≤ fuel → mon_backtrace demoStack fuel 1 ["backtrace".toList] = some r) ∧
      r.ret = 0 ∧
      frameLines r.log = [(0x1000, 0x123), (0x2000, 0x245)] ∧
      (frameLines r.log).length = 2 ∧
      (continuationLines r.log).length = 2 ∧
      resolverCalls r.log = [0x300, 0x123, 0x245] :=
  ⟨tableMem_lt _ 4294967296 (by decide) (by decide), by decide, by decide,
    by decide, by decide, by decide, by decide, by decide, by decide,
    mon_backtrace_chain demoStack [0x1000, 0x2000] 1 ["backtrace".toList]
      (tableMem_lt _ 4294967296 (by decide) (by decide)) (by decide) (by decide)⟩

/-- C13: along the chain of frames, with `r_0` the resolution of the address of
`mon_backtrace` and `r_k` the resolution of the return address of the `k`-th frame, the
output is the header and then, for each frame, the call line with the function name of
`r_(k-1)` and exactly `r_(k-1).eip_fn_narg` words `*(fp_k + 2 + i)`, and the continuation
line with the file, line and function name of `r_k` and the 32-bit offset
`*(fp_k + 1) - r_k.eip_fn_addr`. -/
theorem mon_backtrace_lines (st : Stack) (fps : List Nat) (argc : Int)
    (argv : List (List Char)) (h : isChain st.mem st.ebp fps) :
    ∃ r : Result,
      (∀ fuel, fps.length ≤ fuel → mon_backtrace st fuel argc argv = some r) ∧
      backtraceOutput r.log =
        Event.print_backtrace_header ::
          expectedLines st (st.debuginfo_eip st.mon_backtrace_addr) fps := by
  refine ⟨_, fun fuel hf => mon_backtrace_returns st fps argc argv h fuel hf, ?_⟩
  simp only [backtraceOutput_append, chainEvents_output]
  rfl

theorem mon_backtrace_lines_witness :
    isChain demoStack.mem demoStack.ebp [0x1000, 0x2000] ∧
    expectedLines demoStack (demoStack.debuginfo_eip demoStack.mon_backtrace_addr)
        [0x1000, 0x2000] =
      [Event.print_frame 0x1000 0x123, Event.print_fn_open 1 ['f'],
        Event.print_arg 7, Event.print_arg 8, Event.print_arg 0,
        Event.print_file_line ['k', '.', 'c'] 0x23, Event.print_fn_offset 1 ['f'] 0x23,
        Event.print_frame 0x2000 0x245, Event.print_fn_open 1 ['f'],
        Event.print_arg 9,
        Event.print_file_line ['k', '.', 'c'] 0x45, Event.print_fn_offset 1 ['f'] 0x45] ∧
    ∃ r : Result,
      (∀ fuel, [0x1000, 0x2000].length ≤ fuel →
        mon_backtrace demoStack fuel 1 ["backtrace".toList] = some r) ∧
      backtraceOutput r.log =
        Event.print_backtrace_header ::
          expectedLines demoStack (demoStack.debuginfo_eip demoStack.mon_backtrace_addr)
            [0x1000, 0x2000] :=
  ⟨by decide, by decide,
    mon_backtrace_lines demoStack [0x1000, 0x2000] 1 ["backtrace".toList] (by decide)⟩


theorem backtraceLoop_cyclic (fuel : Nat) :
    ∀ (prev : Eipdebuginfo) (log : List Event),
      backtraceLoop cyclicStack fuel 0x1000 prev log = none := by
  induction fuel with
  | zero => intro prev log; rfl
  | succ f ih =>
    intro prev log
    have hnext : deref cyclicStack.mem 0x1000 0 = 0x1000 := by decide
    rw [backtraceLoop, if_pos (by decide), hnext]
    exact ih _ _

theorem backtraceLoop_some_chainAt (st : Stack) (fuel : Nat) :
    ∀ (ebp : Nat) (prev : Eipdebuginfo) (log l : List Event),
      backtraceLoop st fuel ebp prev log = some l → ∃ n, chainAt st.mem ebp n = 0 := by
  induction fuel with
  | zero =>
    intro ebp prev log l h
    by_cases h0 : ebp = 0
    · exact ⟨0, h0⟩
    · simp [backtraceLoop, h0] at h
  | succ f ih =>
    intro ebp prev log l h
    by_cases h0 : ebp = 0
    · exact ⟨0, h0⟩
    · rw [backtraceLoop, if_pos h0] at h
      obtain ⟨n, hn⟩ := ih _ _ _ _ h
      exact ⟨n + 1, hn⟩

theorem backtraceLoop_of_chainAt (st : Stack) (n : Nat) :
    ∀ (ebp : Nat) (prev : Eipdebuginfo) (log : List Event),
      chainAt st.mem ebp n = 0 → ∃ l, backtraceLoop st n ebp prev log = some l := by
  induction n with
  | zero =>
    intro ebp prev log h
    have h0 : ebp = 0 := h
    exact ⟨log, by simp [backtraceLoop, h0]⟩
  | succ n ih =>
    intro ebp prev log h
    by_cases h0 : ebp = 0
    · exact ⟨log, by simp [backtraceLoop, h0]⟩
    · rw [backtraceLoop, if_pos h0]
      exact ih _ _ _ h

theorem chainAt_succ (mem : Nat → Nat) (ebp k : Nat) :
    chainAt mem ebp (k + 1) = chainAt mem (deref mem ebp 0) k := rfl

/-- The first `n` frame pointers of a walk that reaches zero at step `n` and not before
are a chain of frames. -/
theorem isChain_of_chainAt (mem : Nat → Nat) (n : Nat) :
    ∀ ebp, chainAt mem ebp n = 0 → (∀ k, k < n → chainAt mem ebp k ≠ 0) →
      isChain mem ebp ((List.range n).map (chainAt mem ebp)) := by
  induction n with
  | zero => intro ebp h _; exact h
  | succ n ih =>
    intro ebp h hne
    rw [List.range_succ_eq_map, List.map_cons, List.map_map]
    refine ⟨rfl, hne 0 (by omega), ?_⟩
    have hrest := ih (deref mem ebp 0) h (fun k hk => hne (k + 1) (by omega))
    have hfun : (chainAt mem ebp ∘ Nat.succ) = chainAt mem (deref mem ebp 0) := by
      funext k; rfl
    rw [hfun]
    exact hrest

theorem frameBody_memReads (st : Stack) (prev : Eipdebuginfo) (fp : Nat) :
    wordAddr fp 0 ∈ memReads (frameBody st prev fp) := by
  simp [frameBody, memReads_append, memReads]

theorem chainEvents_memReads (st : Stack) (fps : List Nat) :
    ∀ prev fp, fp ∈ fps → wordAddr fp 0 ∈ memReads (chainEvents st prev fps) := by
  induction fps with
  | nil => intro prev fp h; simp at h
  | cons a rest ih =>
    intro prev fp h
    rw [chainEvents, memReads_append, List.mem_append]
    rcases List.mem_cons.mp h with rfl | h
    · exact Or.inl (frameBody_memReads st prev fp)
    · exact Or.inr (ih _ fp h)

/-- C14 fails as stated: the loop tests the frame pointer against zero only. With a frame
that is its own caller the walk never ends, whatever the fuel; and from the frame at
`0xF010FF00` the walk follows the saved frame pointer `0x1000` and reads the words at
`0x1004` and `0x1000`, far from the first frame. -/
theorem backtrace_unbounded_walk :
    (deref cyclicStack.mem cyclicStack.ebp 0 = cyclicStack.ebp ∧
      ∀ fuel, mon_backtrace cyclicStack fuel 1 ["backtrace".toList] = none) ∧
    (∃ r : Result, mon_backtrace wildStack 2 1 ["backtrace".toList] = some r ∧
      frameLines r.log = [(0xF010FF00, 0xF0100123), (0x1000, 0x45)] ∧
      memReads r.log = [0xF010FF04, 0xF010FF04, 0xF010FF04, 0xF010FF00,
        0x1004, 0x1004, 0x1008, 0x1004, 0x1000]) := by
  refine ⟨⟨by decide, fun fuel => ?_⟩, ?_⟩
  · unfold mon_backtrace
    simp only []
    have h := backtraceLoop_cyclic fuel (cyclicStack.debuginfo_eip cyclicStack.mon_backtrace_addr)
      [Event.print_backtrace_header, Event.call_debuginfo_eip cyclicStack.mon_backtrace_addr]
    have he : cyclicStack.ebp = 0x1000 := rfl
    rw [he, h]
  · exact ⟨(mon_backtrace wildStack 2 1 ["backtrace".toList]).get (by decide),
      by decide, by decide, by decide⟩

/-- C14, amended: `mon_backtrace` stops walking as soon as the frame pointer is zero, and
only then; it makes no check against stack bounds. The walk ends exactly when the chain of
saved frame pointers from the starting frame pointer reaches zero; when it does so after
`n` frames, these `n` frames are the ones reported, and the saved frame pointer of each
is read whatever the frame pointer's value. -/
theorem mon_backtrace_ends_iff (st : Stack) (argc : Int) (argv : List (List Char)) :
    ((∃ fuel r, mon_backtrace st fuel argc argv = some r) ↔
      ∃ n, chainAt st.mem st.ebp n = 0) ∧
    (∀ n, chainAt st.mem st.ebp n = 0 → (∀ k, k < n → chainAt st.mem st.ebp k ≠ 0) →
      ∃ r : Result,
        (∀ fuel, n ≤ fuel → mon_backtrace st fuel argc argv = some r) ∧
        r.ret = 0 ∧
        frameLines r.log = (List.range n).map
          (fun k => (chainAt st.mem st.ebp k, deref st.mem (chainAt st.mem st.ebp k) 1)) ∧
        ∀ k, k < n → wordAddr (chainAt st.mem st.ebp k) 0 ∈ memReads r.log) := by
  constructor
  · constructor
    · rintro ⟨fuel, r, h⟩
      unfold mon_backtrace at h
      simp only [] at h
      cases hl : backtraceLoop st fuel st.ebp (st.debuginfo_eip st.mon_backtrace_addr)
          [Event.print_backtrace_header, Event.call_debuginfo_eip st.mon_backtrace_addr] with
      | none => rw [hl] at h; exact Option.noConfusion h
      | some l => exact backtraceLoop_some_chainAt st fuel _ _ _ l hl
    · rintro ⟨n, hn⟩
      obtain ⟨l, hl⟩ := backtraceLoop_of_chainAt st n st.ebp
        (st.debuginfo_eip st.mon_backtrace_addr)
        [Event.print_backtrace_header, Event.call_debuginfo_eip st.mon_backtrace_addr] hn
      refine ⟨n, { ret := 0, log := l }, ?_⟩
      unfold mon_backtrace
      simp only []
      rw [hl]
  · intro n hn hne
    have hchain := isChain_of_chainAt st.mem n st.ebp hn hne
    refine ⟨_, fun fuel hf => mon_backtrace_returns st _ argc argv hchain fuel
      (by simpa using hf), rfl, ?_, ?_⟩
    · simp only [frameLines_append, chainEvents_frameLines, List.map_map]
      rfl
    · intro k hk
      simp only [memReads_append]
      exact List.mem_append_right _
        (chainEvents_memReads st _ _ _ (List.mem_map.mpr ⟨k, List.mem_range.mpr hk, rfl⟩))


/-! ## Facts about the parsing loop of `runcmd` -/

theorem gobble_subset (l : List Char) : ∀ c ∈ gobble l, c ∈ l := by
  induction l with
  | nil => intro c h; exact h
  | cons a l ih =>
    intro c h
    rw [gobble] at h
    split at h
    · exact List.mem_cons_of_mem _ (ih c h)
    · exact h

theorem gobble_head (l : List Char) (c : Char) (cs : List Char) (h : gobble l = c :: cs) :
    ¬ (c.toNat ≠ 0 ∧ isWhitespace c = true) := by
  induction l with
  | nil => simp [gobble] at h
  | cons a l ih =>
    rw [gobble] at h
    split at h
    · exact ih h
    · rename_i hna
      have ha : a = c := (List.cons.inj h).1
      rw [← ha]; exact hna

theorem scanArg_rest_subset (l : List Char) : ∀ c ∈ (scanArg l).2, c ∈ l := by
  induction l with
  | nil => intro c h; exact h
  | cons a l ih =>
    intro c h
    rw [scanArg] at h
    split at h
    · exact List.mem_cons_of_mem _ (ih c h)
    · exact h

theorem scanArg_rest_head (l : List Char) (hnul : ∀ c ∈ l, c.toNat ≠ 0) (w : Char)
    (r : List Char) (h : (scanArg l).2 = w :: r) : isWhitespace w = true := by
  induction l with
  | nil => simp [scanArg] at h
  | cons a l ih =>
    rw [scanArg] at h
    split at h
    · exact ih (fun c hc => hnul c (List.mem_cons_of_mem _ hc)) h
    · rename_i hna
      have ha : a = w := (List.cons.inj h).1
      have hz : a.toNat ≠ 0 := hnul a (List.mem_cons_self _ _)
      rw [← ha]
      by_contra hw
      exact hna ⟨hz, by simpa using hw⟩

/-- The first piece of the split of a line is the argument `scanArg` passes; the other
pieces are those of what follows the separator. -/
theorem splitOnP_scanArg (l : List Char) (hnul : ∀ c ∈ l, c.toNat ≠ 0) :
    l.splitOnP isWhitespace =
      (scanArg l).1 :: (match (scanArg l).2 with
        | [] => []
        | _ :: r => r.splitOnP isWhitespace) := by
  induction l with
  | nil => rfl
  | cons a l ih =>
    have hz : a.toNat ≠ 0 := hnul a (List.mem_cons_self _ _)
    rw [List.splitOnP_cons]
    by_cases hw : isWhitespace a = true
    · rw [if_pos hw, scanArg, if_neg (by rw [hw]; simp)]
    · have hw' : isWhitespace a = false := by simpa using hw
      rw [if_neg hw, scanArg, if_pos ⟨hz, hw'⟩, ih (fun c hc => hnul c (List.mem_cons_of_mem _ hc))]
      rfl

theorem tokensOf_nil : tokensOf [] = [] := rfl

theorem tokensOf_whitespace (w : Char) (l : List Char) (hw : isWhitespace w = true) :
    tokensOf (w :: l) = tokensOf l := by
  unfold tokensOf
  rw [List.splitOnP_cons, if_pos hw]
  rfl

theorem tokensOf_gobble (l : List Char) : tokensOf (gobble l) = tokensOf l := by
  induction l with
  | nil => rfl
  | cons a l ih =>
    rw [gobble]
    split
    · rename_i h
      rw [ih, tokensOf_whitespace a l h.2]
    · rfl

theorem tokensOf_scanArg (c : Char) (cs : List Char) (hnul : ∀ d ∈ c :: cs, d.toNat ≠ 0)
    (hc : isWhitespace c = false) :
    tokensOf (c :: cs) = (scanArg (c :: cs)).1 :: tokensOf (scanArg (c :: cs)).2 := by
  have hsplit := splitOnP_scanArg (c :: cs) hnul
  have hz : c.toNat ≠ 0 := hnul c (List.mem_cons_self _ _)
  have htok : (scanArg (c :: cs)).1 ≠ [] := by
    rw [scanArg, if_pos ⟨hz, hc⟩]; exact List.cons_ne_nil _ _
  unfold tokensOf
  rw [hsplit, List.filter_cons, if_pos (by simpa using htok)]
  congr 1
  cases hr : (scanArg (c :: cs)).2 with
  | nil => rfl
  | cons w r =>
    have hw := scanArg_rest_head (c :: cs) hnul w r hr
    simp only []
    rw [List.splitOnP_cons, if_pos hw]
    rfl

theorem curChar_eq_zero (l : List Char) (hnul : ∀ c ∈ l, c.toNat ≠ 0) (h : curChar l = 0) :
    l = [] := by
  cases l with
  | nil => rfl
  | cons a l => exact absurd h (hnul a (List.mem_cons_self _ _))

/-- What one trip through the parsing loop finds, for a line without NUL: either the
line has no more tokens and what is left after the blanks is empty, or the buffer after
the blanks starts the next token. -/
theorem gobble_cases (buf : List Char) (hnul : ∀ c ∈ buf, c.toNat ≠ 0) :
    (gobble buf = [] ∧ tokensOf buf = []) ∨
    (curChar (gobble buf) ≠ 0 ∧
      tokensOf buf = (scanArg (gobble buf)).1 :: tokensOf (scanArg (gobble buf)).2 ∧
      ∀ c ∈ (scanArg (gobble buf)).2, c.toNat ≠ 0) := by
  have hg : ∀ c ∈ gobble buf, c.toNat ≠ 0 := fun c hc => hnul c (gobble_subset buf c hc)
  cases hgb : gobble buf with
  | nil =>
    left
    refine ⟨rfl, ?_⟩
    rw [← tokensOf_gobble, hgb]
    rfl
  | cons c cs =>
    right
    rw [hgb] at hg
    have hz : c.toNat ≠ 0 := hg c (List.mem_cons_self _ _)
    have hc : isWhitespace c = false := by
      have h := gobble_head buf c cs hgb
      by_contra hne
      exact h ⟨hz, by simpa using hne⟩
    refine ⟨hz, ?_, fun d hd => hg d (scanArg_rest_subset _ d hd)⟩
    rw [← tokensOf_gobble, hgb]
    exact tokensOf_scanArg c cs hg hc


/-- A line with no more tokens than `argv` has room for is split into its tokens. -/
theorem parseLoop_done (fuel : Nat) :
    ∀ (buf : List Char) (argc : Nat) (argv : List (List Char)) (writes : List Nat),
      (∀ c ∈ buf, c.toNat ≠ 0) → (tokensOf buf).length < fuel →
      argc + (tokensOf buf).length ≤ 15 →
      parseLoop fuel buf argc argv writes =
        { status := ParseStatus.done, argc := argc + (tokensOf buf).length,
          argv := argv ++ tokensOf buf,
          writes := writes ++ List.range' argc (tokensOf buf).length } := by
  induction fuel with
  | zero => intro buf argc argv writes _ hf _; exact absurd hf (Nat.not_lt_zero _)
  | succ f ih =>
    intro buf argc argv writes hnul hf hroom
    rw [parseLoop]
    rcases gobble_cases buf hnul with ⟨hg, ht⟩ | ⟨hcur, ht, hrest⟩
    · rw [hg, ht]
      simp [curChar]
    · rw [if_neg hcur]
      rw [ht] at hf hroom ⊢
      simp only [List.length_cons] at hf hroom ⊢
      have hargc : ¬ argc = MAXARGS - 1 := by
        simp only [MAXARGS]; omega
      rw [if_neg hargc, ih _ _ _ _ hrest (by omega) (by omega)]
      simp only [List.range'_succ, List.append_assoc, List.singleton_append, Parse.mk.injEq,
        true_and, and_true]
      omega

/-- A line with more tokens than `argv` has room for makes the loop return at the test
`argc == MAXARGS - 1`. -/
theorem parseLoop_tooMany (fuel : Nat) :
    ∀ (buf : List Char) (argc : Nat) (argv : List (List Char)) (writes : List Nat),
      (∀ c ∈ buf, c.toNat ≠ 0) → argc ≤ 15 → 16 ≤ argc + (tokensOf buf).length →
      15 - argc < fuel →
      (parseLoop fuel buf argc argv writes).status = ParseStatus.tooMany := by
  induction fuel with
  | zero => intro buf argc argv writes _ _ _ hf; exact absurd hf (Nat.not_lt_zero _)
  | succ f ih =>
    intro buf argc argv writes hnul hargc hmany hf
    rw [parseLoop]
    rcases gobble_cases buf hnul with ⟨_, ht⟩ | ⟨hcur, ht, hrest⟩
    · rw [ht] at hmany
      simp only [List.length_nil] at hmany
      omega
    · rw [if_neg hcur]
      by_cases h15 : argc = MAXARGS - 1
      · rw [if_pos h15]
      · rw [if_neg h15]
        rw [ht] at hmany
        simp only [List.length_cons] at hmany
        simp only [MAXARGS] at h15
        exact ih _ _ _ _ hrest (by omega) (by omega) (by omega)

/-- The loop never writes `argv` beyond index 15. -/
theorem parseLoop_writes (fuel : Nat) :
    ∀ (buf : List Char) (argc : Nat) (argv : List (List Char)) (writes : List Nat),
      argc ≤ 15 → (∀ i ∈ writes, i ≤ 15) →
      (parseLoop fuel buf argc argv writes).argc ≤ 15 ∧
      ∀ i ∈ (parseLoop fuel buf argc argv writes).writes, i ≤ 15 := by
  induction fuel with
  | zero => intro buf argc argv writes hargc hw; exact ⟨hargc, hw⟩
  | succ f ih =>
    intro buf argc argv writes hargc hw
    rw [parseLoop]
    by_cases hcur : curChar (gobble buf) = 0
    · rw [if_pos hcur]; exact ⟨hargc, hw⟩
    · rw [if_neg hcur]
      by_cases h15 : argc = MAXARGS - 1
      · rw [if_pos h15]; exact ⟨hargc, hw⟩
      · rw [if_neg h15]
        simp only [MAXARGS] at h15
        refine ih _ _ _ _ (by omega) ?_
        intro i hi
        rcases List.mem_append.mp hi with h | h
        · exact hw i h
        · have : i = argc := by simpa using h
          omega

theorem parseArgs_done (fuel : Nat) (buf : List Char) (hnul : ∀ c ∈ buf, c.toNat ≠ 0)
    (hf : (tokensOf buf).length < fuel) (hroom : (tokensOf buf).length ≤ 15) :
    parseArgs fuel buf =
      { status := ParseStatus.done, argc := (tokensOf buf).length, argv := tokensOf buf,
        writes := [0] ++ List.range' 0 (tokensOf buf).length ++ [(tokensOf buf).length] } := by
  unfold parseArgs
  rw [parseLoop_done fuel buf 0 [] [0] hnul hf (by omega)]
  simp

theorem parseArgs_tooMany (fuel : Nat) (buf : List Char) (hnul : ∀ c ∈ buf, c.toNat ≠ 0)
    (hf : 15 < fuel) (hmany : 16 ≤ (tokensOf buf).length) :
    (parseArgs fuel buf).status = ParseStatus.tooMany := by
  have h := parseLoop_tooMany fuel buf 0 [] [0] hnul (by omega) (by omega) (by omega)
  unfold parseArgs
  simp only []
  rw [h]
  exact h


/-! ## The commands never call a command -/

theorem scanLoop_log_mem (walk : Walker) (pgdir end_ : Nat) (fuel : Nat) :
    ∀ (i : Nat) (s : Scan) (ev : Event), ev ∈ (scanLoop walk pgdir end_ fuel i s).1.log →
      ev ∈ s.log ∨ (∃ va, ev = Event.call_pgdir_walk pgdir va 0) ∨
        ∃ a b c d, ev = Event.print_run a b c d := by
  induction fuel with
  | zero => intro i s ev h; exact Or.inl h
  | succ f ih =>
    intro i s ev h
    have hbody : ∀ ev, ev ∈ (scanBody walk pgdir s i).log →
        ev ∈ s.log ∨ (∃ va, ev = Event.call_pgdir_walk pgdir va 0) ∨
          ∃ a b c d, ev = Event.print_run a b c d := by
      intro ev h1
      rcases scanBody_log_mem walk pgdir s i ev h1 with h2 | h2 | h2
      · exact Or.inl h2
      · exact Or.inr (Or.inl ⟨i, h2⟩)
      · exact Or.inr (Or.inr ⟨_, _, _, _, h2⟩)
    rw [scanLoop] at h
    by_cases hle : i ≤ end_
    · rw [if_pos hle] at h
      by_cases heq : i = end_
      · simp only [heq, if_true] at h
        rw [← heq] at h
        exact hbody ev h
      · simp only [heq, if_false] at h
        rcases ih _ _ ev h with h1 | h1 | h1
        · exact hbody ev h1
        · exact Or.inr (Or.inl h1)
        · exact Or.inr (Or.inr h1)
    · rw [if_neg hle] at h
      exact Or.inl h

theorem show_mappings_no_call (m : Machine) (fuel : Nat) (argc : Int)
    (argv : List (List Char)) (r : Result) (h : show_mappings m fuel argc argv = some r) :
    r.ret = 0 ∧ ∀ ev ∈ r.log, isCommandCall ev = false := by
  unfold show_mappings at h
  by_cases hargc : argc > 3
  · rw [if_pos hargc] at h
    have hr := (Option.some.inj h).symm
    subst hr
    exact ⟨rfl, by intro ev hev; simp at hev; rw [hev]; rfl⟩
  · rw [if_neg hargc] at h
    match argv, h with
    | a0 :: a1 :: a2 :: rest, h =>
      simp only [] at h
      cases hl : scanLoop m.pgdir_walk m.pgdir (read_hex a2 &&& PGMASK) fuel
          (read_hex a1 &&& PGMASK)
          (scanInit (read_hex a1 &&& PGMASK)
            ([Event.call_read_hex a1, Event.call_read_hex a2,
              Event.print_begin_end (read_hex a1 &&& PGMASK) (read_hex a2 &&& PGMASK)] ++
              [Event.print_pgdir m.pgdir])) with
      | mk s b =>
        rw [hl] at h
        cases b with
        | false => exact Option.noConfusion h
        | true =>
          have hr := (Option.some.inj h).symm
          subst hr
          refine ⟨rfl, ?_⟩
          intro ev hev
          rcases List.mem_append.mp hev with h1 | h1
          · have hs : s = (scanLoop m.pgdir_walk m.pgdir (read_hex a2 &&& PGMASK) fuel
                (read_hex a1 &&& PGMASK)
                (scanInit (read_hex a1 &&& PGMASK)
                  ([Event.call_read_hex a1, Event.call_read_hex a2,
                    Event.print_begin_end (read_hex a1 &&& PGMASK) (read_hex a2 &&& PGMASK)] ++
                    [Event.print_pgdir m.pgdir]))).1 := by rw [hl]
            rw [hs] at h1
            rcases scanLoop_log_mem _ _ _ _ _ _ ev h1 with h2 | ⟨va, h2⟩ | ⟨a, b, c, d, h2⟩
            · simp only [scanInit, List.cons_append, List.nil_append, List.mem_cons,
                List.mem_singleton, List.not_mem_nil, or_false] at h2
              rcases h2 with h2 | h2 | h2 | h2 <;> rw [h2] <;> rfl
            · rw [h2]; rfl
            · rw [h2]; rfl
          · have hev' : ev = s.record := by simpa using h1
            rw [hev']; rfl

theorem argEvents_no_call (mem : Nat → Nat) (ebp : Nat) (narg : Int) :
    ∀ ev ∈ argEvents mem ebp narg, isCommandCall ev = false := by
  intro ev hev
  unfold argEvents at hev
  obtain ⟨i, _, hi⟩ := List.mem_flatMap.mp hev
  simp only [List.mem_cons, List.mem_singleton, List.not_mem_nil, or_false] at hi
  rcases hi with h | h <;> rw [h] <;> rfl

theorem frameBody_no_call (st : Stack) (prev : Eipdebuginfo) (fp : Nat) :
    ∀ ev ∈ frameBody st prev fp, isCommandCall ev = false := by
  intro ev hev
  unfold frameBody at hev
  rcases List.mem_append.mp hev with h12 | h3
  · rcases List.mem_append.mp h12 with h1 | h2
    · simp only [List.mem_cons, List.mem_singleton, List.not_mem_nil, or_false] at h1
      rcases h1 with h | h | h | h | h <;> rw [h] <;> rfl
    · exact argEvents_no_call _ _ _ ev h2
  · simp only [List.mem_cons, List.mem_singleton, List.not_mem_nil, or_false] at h3
    rcases h3 with h | h | h | h <;> rw [h] <;> rfl

theorem backtraceLoop_no_call (st : Stack) (fuel : Nat) :
    ∀ (ebp : Nat) (prev : Eipdebuginfo) (log l : List Event),
      (∀ ev ∈ log, isCommandCall ev = false) →
      backtraceLoop st fuel ebp prev log = some l → ∀ ev ∈ l, isCommandCall ev = false := by
  induction fuel with
  | zero =>
    intro ebp prev log l hlog h
    by_cases h0 : ebp = 0
    · simp [backtraceLoop, h0] at h
      rw [← h]; exact hlog
    · simp [backtraceLoop, h0] at h
  | succ f ih =>
    intro ebp prev log l hlog h
    by_cases h0 : ebp = 0
    · simp [backtraceLoop, h0] at h
      rw [← h]; exact hlog
    · rw [backtraceLoop, if_pos h0] at h
      refine ih _ _ _ l ?_ h
      intro ev hev
      rcases List.mem_append.mp hev with h1 | h1
      · exact hlog ev h1
      · exact frameBody_no_call st prev ebp ev h1

theorem mon_backtrace_no_call (st : Stack) (fuel : Nat) (argc : Int)
    (argv : List (List Char)) (r : Result) (h : mon_backtrace st fuel argc argv = some r) :
    r.ret = 0 ∧ ∀ ev ∈ r.log, isCommandCall ev = false := by
  unfold mon_backtrace at h
  simp only [] at h
  cases hl : backtraceLoop st fuel st.ebp (st.debuginfo_eip st.mon_backtrace_addr)
      [Event.print_backtrace_header, Event.call_debuginfo_eip st.mon_backtrace_addr] with
  | none => rw [hl] at h; exact Option.noConfusion h
  | some l =>
    rw [hl] at h
    have hr := (Option.some.inj h).symm
    subst hr
    refine ⟨rfl, backtraceLoop_no_call st fuel _ _ _ l ?_ hl⟩
    intro ev hev
    simp only [List.mem_cons, List.mem_singleton, List.not_mem_nil, or_false] at hev
    rcases hev with h1 | h1 <;> rw [h1] <;> rfl

theorem callCommand_no_call (k : Kernel) (fuel : Nat) (f : CommandFn) (argc : Int)
    (argv : List (List Char)) (r : Result) (h : callCommand k fuel f argc argv = some r) :
    r.ret = 0 ∧ ∀ ev ∈ r.log, isCommandCall ev = false := by
  cases f with
  | mon_help =>
    have hr : r = mon_help argc argv := (Option.some.inj h).symm
    subst hr
    refine ⟨rfl, ?_⟩
    intro ev hev
    obtain ⟨c, _, hc⟩ := List.mem_map.mp hev
    rw [← hc]; rfl
  | mon_kerninfo =>
    have hr : r = mon_kerninfo k argc argv := (Option.some.inj h).symm
    subst hr
    refine ⟨rfl, ?_⟩
    intro ev hev
    simp only [mon_kerninfo, List.mem_cons, List.mem_singleton, List.not_mem_nil,
      or_false] at hev
    rcases hev with h1 | h1 | h1 | h1 | h1 | h1 | h1 <;> rw [h1] <;> rfl
  | mon_backtrace => exact mon_backtrace_no_call k.stack fuel argc argv r h
  | show_mappings => exact show_mappings_no_call k.machine fuel argc argv r h

theorem commandCalls_of_no_call (l : List Event) (h : ∀ ev ∈ l, isCommandCall ev = false) :
    commandCalls l = [] := by
  unfold commandCalls
  rw [List.filter_eq_nil_iff]
  intro ev hev
  rw [h ev hev]
  simp


/-! ## The claims on `runcmd` and `monitor` -/

theorem commands_find (c : Command) (hc : c ∈ commands) :
    commands.find? (fun c' => decide (c.name = c'.name)) = some c := by
  simp only [commands, List.mem_cons, List.mem_singleton, List.not_mem_nil, or_false] at hc
  rcases hc with rfl | rfl | rfl | rfl <;> decide

theorem commands_find_none (t : List Char) (h : ∀ c ∈ commands, c.name ≠ t) :
    commands.find? (fun c => decide (t = c.name)) = none := by
  rw [List.find?_eq_none]
  intro c hc hp
  exact h c hc (of_decide_eq_true hp).symm

/-- The function `runcmd` on a line that `argv` has room for: with no token it returns 0;
otherwise the command named by the first token is called with the tokens, or the first
token is reported as unknown. -/
theorem runcmd_of_tokens (k : Kernel) (fuel : Nat) (buf : List Char)
    (hnul : ∀ c ∈ buf, c.toNat ≠ 0) (hfuel : (tokensOf buf).length < fuel)
    (hroom : (tokensOf buf).length ≤ 15) :
    runcmd k fuel buf =
      match tokensOf buf with
      | [] => some { ret := 0, log := [] }
      | argv0 :: rest =>
        match commands.find? (fun c => decide (argv0 = c.name)) with
        | some c =>
          match callCommand k fuel c.func (Int.ofNat (tokensOf buf).length) (argv0 :: rest) with
          | some r =>
            some { ret := r.ret,
                   log := Event.call_command c.name (Int.ofNat (tokensOf buf).length)
                      (argv0 :: rest) :: r.log }
          | none => none
        | none => some { ret := 0, log := [Event.print_unknown_command argv0] } := by
  unfold runcmd
  rw [parseArgs_done fuel buf hnul hfuel hroom]

/-- The function `runcmd` on a line of at most 15 tokens whose first token is the name of
the command `c`: the result is that of the call of `c`, after the event of the call. -/
theorem runcmd_named (k : Kernel) (fuel : Nat) (buf : List Char)
    (hnul : ∀ c ∈ buf, c.toNat ≠ 0) (hfuel : (tokensOf buf).length < fuel)
    (c : Command) (hc : c ∈ commands) (ts : List (List Char))
    (ht : tokensOf buf = c.name :: ts) (hlen : (c.name :: ts).length ≤ 15) :
    runcmd k fuel buf =
      (callCommand k fuel c.func (Int.ofNat (c.name :: ts).length) (c.name :: ts)).map
        (fun r => { ret := r.ret,
                    log := Event.call_command c.name (Int.ofNat (c.name :: ts).length)
                      (c.name :: ts) :: r.log }) := by
  have hrun := runcmd_of_tokens k fuel buf hnul hfuel (by rw [ht]; exact hlen)
  rw [ht] at hrun
  simp only [] at hrun
  rw [commands_find c hc] at hrun
  simp only [] at hrun
  rw [hrun]
  cases callCommand k fuel c.func (Int.ofNat (c.name :: ts).length) (c.name :: ts) <;> rfl

/-- The calls of commands in the log of a line that names the command `c`: the one call
of `c`. -/
theorem runcmd_named_calls (k : Kernel) (fuel : Nat) (buf : List Char)
    (hnul : ∀ c ∈ buf, c.toNat ≠ 0) (hfuel : (tokensOf buf).length < fuel)
    (c : Command) (hc : c ∈ commands) (ts : List (List Char))
    (ht : tokensOf buf = c.name :: ts) (hlen : (c.name :: ts).length ≤ 15)
    (r : Result) (hr : runcmd k fuel buf = some r) :
    commandCalls r.log =
      [Event.call_command c.name (Int.ofNat (c.name :: ts).length) (c.name :: ts)] := by
  rw [runcmd_named k fuel buf hnul hfuel c hc ts ht hlen] at hr
  cases hcall : callCommand k fuel c.func (Int.ofNat (c.name :: ts).length)
      (c.name :: ts) with
  | none => rw [hcall] at hr; exact Option.noConfusion hr
  | some r' =>
    rw [hcall] at hr
    have hr' := (Option.some.inj hr).symm
    subst hr'
    have hno := (callCommand_no_call k fuel c.func _ _ r' hcall).2
    show commandCalls (Event.call_command c.name _ (c.name :: ts) :: r'.log) = _
    have hsplit : Event.call_command c.name (Int.ofNat (c.name :: ts).length)
        (c.name :: ts) :: r'.log =
        [Event.call_command c.name (Int.ofNat (c.name :: ts).length) (c.name :: ts)]
          ++ r'.log := rfl
    rw [hsplit]
    unfold commandCalls
    rw [List.filter_append]
    have h0 := commandCalls_of_no_call r'.log hno
    unfold commandCalls at h0
    rw [h0]
    rfl

/-- C17: for a command line (a C string) of 1 to 15 tokens, the maximal runs of characters
other than tab, CR, LF and space: when the first token is the name of a registered command,
`runcmd` calls that command (`help` is `mon_help`, `kerninfo` is `mon_kerninfo`,
`backtrace` is `mon_backtrace`, `showmap` is `show_mappings`), once and no other, with
`argc` the number of tokens and `argv` the tokens in order, its events are the call
followed by the events of that function, and it returns what that function returns (it
does not return when that function does not); when no name matches it prints the
unknown-command message, calls no command and returns 0. For a line without a token it
does nothing and returns 0. -/
theorem runcmd_dispatch (k : Kernel) (fuel : Nat) (buf : List Char)
    (hnul : ∀ c ∈ buf, c.toNat ≠ 0) (hfuel : (tokensOf buf).length < fuel) :
    commands.map (fun c => c.name) =
      ["help".toList, "kerninfo".toList, "backtrace".toList, "showmap".toList] ∧
    (tokensOf buf = [] → runcmd k fuel buf = some { ret := 0, log := [] }) ∧
    (∀ t ts, tokensOf buf = t :: ts → (t :: ts).length ≤ 15 →
      (t = "help".toList →
        runcmd k fuel buf =
          some { ret := (mon_help (Int.ofNat (t :: ts).length) (t :: ts)).ret,
                 log := Event.call_command "help".toList (Int.ofNat (t :: ts).length)
                    (t :: ts) :: (mon_help (Int.ofNat (t :: ts).length) (t :: ts)).log }) ∧
      (t = "kerninfo".toList →
        runcmd k fuel buf =
          some { ret := (mon_kerninfo k (Int.ofNat (t :: ts).length) (t :: ts)).ret,
                 log := Event.call_command "kerninfo".toList (Int.ofNat (t :: ts).length)
                    (t :: ts) ::
                    (mon_kerninfo k (Int.ofNat (t :: ts).length) (t :: ts)).log }) ∧
      (t = "backtrace".toList →
        runcmd k fuel buf =
          (mon_backtrace k.stack fuel (Int.ofNat (t :: ts).length) (t :: ts)).map
            (fun r => { ret := r.ret,
                        log := Event.call_command "backtrace".toList
                          (Int.ofNat (t :: ts).length) (t :: ts) :: r.log })) ∧
      (t = "showmap".toList →
        runcmd k fuel buf =
          (show_mappings k.machine fuel (Int.ofNat (t :: ts).length) (t :: ts)).map
            (fun r => { ret := r.ret,
                        log := Event.call_command "showmap".toList
                          (Int.ofNat (t :: ts).length) (t :: ts) :: r.log })) ∧
      (∀ c ∈ commands, c.name = t → ∀ r, runcmd k fuel buf = some r →
        commandCalls r.log =
          [Event.call_command c.name (Int.ofNat (t :: ts).length) (t :: ts)]) ∧
      ((∀ c ∈ commands, c.name ≠ t) →
        runcmd k fuel buf = some { ret := 0, log := [Event.print_unknown_command t] } ∧
        commandCalls [Event.print_unknown_command t] = [])) := by
  refine ⟨by decide, ?_, ?_⟩
  · intro ht
    rw [runcmd_of_tokens k fuel buf hnul hfuel (by rw [ht]; decide), ht]
  · intro t ts ht hlen
    refine ⟨?_, ?_, ?_, ?_, ?_, ?_⟩
    · intro hname
      subst hname
      exact runcmd_named k fuel buf hnul hfuel
        { name := "help".toList, desc := "Display this list of commands".toList,
          func := CommandFn.mon_help } (by decide) ts ht hlen
    · intro hname
      subst hname
      exact runcmd_named k fuel buf hnul hfuel
        { name := "kerninfo".toList, desc := "Display information about the kernel".toList,
          func := CommandFn.mon_kerninfo } (by decide) ts ht hlen
    · intro hname
      subst hname
      exact runcmd_named k fuel buf hnul hfuel
        { name := "backtrace".toList,
          desc := "Show back trace infomation on stack(kern only)".toList,
          func := CommandFn.mon_backtrace } (by decide) ts ht hlen
    · intro hname
      subst hname
      exact runcmd_named k fuel buf hnul hfuel
        { name := "showmap".toList,
          desc := "Show mappings of virtural memory to physical memory".toList,
          func := CommandFn.show_mappings } (by decide) ts ht hlen
    · intro c hc hname r hr
      subst hname
      exact runcmd_named_calls k fuel buf hnul hfuel c hc ts ht hlen r hr
    · intro hnone
      have hrun := runcmd_of_tokens k fuel buf hnul hfuel (by rw [ht]; exact hlen)
      rw [ht] at hrun
      simp only [] at hrun
      rw [commands_find_none t hnone] at hrun
      exact ⟨hrun, rfl⟩

theorem runcmd_dispatch_witness :
    (∀ c ∈ "showmap  0x1000\t0x2000".toList, c.toNat ≠ 0) ∧
    tokensOf "showmap  0x1000\t0x2000".toList =
      ["showmap".toList, "0x1000".toList, "0x2000".toList] ∧
    runcmd demoKernel 4 "showmap  0x1000\t0x2000".toList =
      some { ret := 0,
             log := [Event.call_command "showmap".toList 3
                  ["showmap".toList, "0x1000".toList, "0x2000".toList],
                Event.call_read_hex "0x1000".toList, Event.call_read_hex "0x2000".toList,
                Event.print_begin_end 0x1000 0x2000, Event.print_pgdir 0xF0110000,
                Event.call_pgdir_walk 0xF0110000 0x1000 0, Event.print_run 0 0 1 1,
                Event.call_pgdir_walk 0xF0110000 0x2000 0, Event.print_run 1 2 5 6] } ∧
    (runcmd demoKernel 4 "showmap  0x1000\t0x2000".toList).map (fun r => commandCalls r.log) =
      some [Event.call_command "showmap".toList 3
        ["showmap".toList, "0x1000".toList, "0x2000".toList]] ∧
    runcmd demoKernel 2 "help".toList =
      some { ret := 0,
             log := [Event.call_command "help".toList 1 ["help".toList],
                Event.print_help_line "help".toList "Display this list of commands".toList,
                Event.print_help_line "kerninfo".toList
                  "Display information about the kernel".toList,
                Event.print_help_line "backtrace".toList
                  "Show back trace infomation on stack(kern only)".toList,
                Event.print_help_line "showmap".toList
                  "Show mappings of virtural memory to physical memory".toList] } ∧
    (runcmd demoKernel 3 "backtrace".toList).map (fun r => frameLines r.log) =
      some [(0x1000, 0x123), (0x2000, 0x245)] ∧
    runcmd demoKernel 2 "quit".toList =
      some { ret := 0, log := [Event.print_unknown_command "quit".toList] } :=
  ⟨by decide, by decide,
    ((runcmd_dispatch demoKernel 4 "showmap  0x1000\t0x2000".toList (by decide)
      (by decide)).2.2 "showmap".toList ["0x1000".toList, "0x2000".toList] (by decide)
      (by decide)).2.2.2.1 rfl,
    by decide, by decide, by decide, by decide⟩


/-- C20: `runcmd` takes at most 15 tokens although its message says 16. A command line (a
C string) of 16 or more tokens prints `Too many arguments (max 16)`, calls no command,
even when the first token names one, and returns 0; a line of at most 15 tokens is split
into its tokens and not rejected; and `argv` is never written beyond index 15. -/
theorem runcmd_too_many_arguments (k : Kernel) (buf : List Char)
    (hnul : ∀ c ∈ buf, c.toNat ≠ 0) :
    MAXARGS = 16 ∧
    (16 ≤ (tokensOf buf).length → ∀ fuel, 15 < fuel →
      runcmd k fuel buf = some { ret := 0, log := [Event.print_too_many_arguments 16] } ∧
      commandCalls [Event.print_too_many_arguments 16] = []) ∧
    ((tokensOf buf).length ≤ 15 → ∀ fuel, (tokensOf buf).length < fuel →
      (parseArgs fuel buf).status = ParseStatus.done ∧
      (parseArgs fuel buf).argc = (tokensOf buf).length ∧
      (parseArgs fuel buf).argv = tokensOf buf) ∧
    (∀ fuel, ∀ i ∈ (parseArgs fuel buf).writes, i ≤ 15) := by
  refine ⟨rfl, ?_, ?_, ?_⟩
  · intro hmany fuel hf
    have hs := parseArgs_tooMany fuel buf hnul hf hmany
    refine ⟨?_, rfl⟩
    unfold runcmd
    simp only []
    rw [hs]
    rfl
  · intro hroom fuel hf
    rw [parseArgs_done fuel buf hnul hf hroom]
    exact ⟨rfl, rfl, rfl⟩
  · intro fuel i hi
    have hw := parseLoop_writes fuel buf 0 [] [0] (by omega)
      (by intro j hj; have : j = 0 := by simpa using hj
          omega)
    unfold parseArgs at hi
    simp only [] at hi
    cases hst : (parseLoop fuel buf 0 [] [0]).status with
    | done =>
      rw [hst] at hi
      simp only [List.mem_append, List.mem_singleton] at hi
      rcases hi with h | h
      · exact hw.2 i h
      · rw [h]; exact hw.1
    | tooMany => rw [hst] at hi; exact hw.2 i hi
    | timeout => rw [hst] at hi; exact hw.2 i hi

theorem runcmd_too_many_arguments_witness :
    (∀ c ∈ "help 1 2 3 4 5 6 7 8 9 a b c d e f".toList, c.toNat ≠ 0) ∧
    (tokensOf "help 1 2 3 4 5 6 7 8 9 a b c d e f".toList).length = 16 ∧
    runcmd demoKernel 16 "help 1 2 3 4 5 6 7 8 9 a b c d e f".toList =
      some { ret := 0, log := [Event.print_too_many_arguments 16] } ∧
    (∀ fuel, ∀ i ∈ (parseArgs fuel "help 1 2 3 4 5 6 7 8 9 a b c d e f".toList).writes,
      i ≤ 15) :=
  ⟨by decide, by decide,
    ((runcmd_too_many_arguments demoKernel "help 1 2 3 4 5 6 7 8 9 a b c d e f".toList
      (by decide)).2.1 (by decide) 16 (by decide)).1,
    (runcmd_too_many_arguments demoKernel "help 1 2 3 4 5 6 7 8 9 a b c d e f".toList
      (by decide)).2.2.2⟩

theorem runcmd_ret (k : Kernel) (fuel : Nat) (buf : List Char) (r : Result)
    (h : runcmd k fuel buf = some r) : r.ret = 0 := by
  unfold runcmd at h
  simp only [] at h
  cases hst : (parseArgs fuel buf).status with
  | timeout => rw [hst] at h; exact Option.noConfusion h
  | tooMany =>
    rw [hst] at h
    rw [← Option.some.inj h]
  | done =>
    rw [hst] at h
    simp only [] at h
    cases hargv : (parseArgs fuel buf).argv with
    | nil =>
      rw [hargv] at h
      rw [← Option.some.inj h]
    | cons argv0 rest =>
      rw [hargv] at h
      simp only [] at h
      cases hfind : commands.find? (fun c => decide (argv0 = c.name)) with
      | none =>
        rw [hfind] at h
        rw [← Option.some.inj h]
      | some c =>
        rw [hfind] at h
        simp only [] at h
        cases hcall : callCommand k fuel c.func (Int.ofNat (parseArgs fuel buf).argc)
            (argv0 :: rest) with
        | none => rw [hcall] at h; exact Option.noConfusion h
        | some r' =>
          rw [hcall] at h
          rw [← Option.some.inj h]
          exact (callCommand_no_call k fuel c.func _ _ r' hcall).1

theorem monitorLoop_no_break (k : Kernel) (fuel : Nat) (lines : List (Option (List Char))) :
    ∀ (log : List Event) (b : Bool) (out : List Event),
      monitorLoop k fuel lines log = some (b, out) → b = false := by
  induction lines with
  | nil =>
    intro log b out h
    have := Option.some.inj h
    exact (Prod.mk.inj this).1.symm
  | cons line rest ih =>
    intro log b out h
    cases line with
    | none => exact ih _ b out h
    | some buf =>
      rw [monitorLoop] at h
      cases hr : runcmd k fuel buf with
      | none => rw [hr] at h; exact Option.noConfusion h
      | some r =>
        rw [hr] at h
        simp only [] at h
        have h0 := runcmd_ret k fuel buf r hr
        rw [if_neg (by rw [h0]; decide)] at h
        exact ih _ b out h

/-- A line of at most 15 tokens is not split within as many trips as it has tokens. -/
theorem parseLoop_timeout (fuel : Nat) :
    ∀ (buf : List Char) (argc : Nat) (argv : List (List Char)) (writes : List Nat),
      (∀ c ∈ buf, c.toNat ≠ 0) → fuel ≤ (tokensOf buf).length → argc + fuel ≤ 15 →
      (parseLoop fuel buf argc argv writes).status = ParseStatus.timeout := by
  induction fuel with
  | zero => intro buf argc argv writes _ _ _; rfl
  | succ f ih =>
    intro buf argc argv writes hnul hf hroom
    rw [parseLoop]
    rcases gobble_cases buf hnul with ⟨_, ht⟩ | ⟨hcur, ht, hrest⟩
    · rw [ht] at hf
      simp only [List.length_nil] at hf
      omega
    · rw [if_neg hcur]
      have hargc : ¬ argc = MAXARGS - 1 := by
        simp only [MAXARGS]; omega
      rw [if_neg hargc]
      rw [ht] at hf
      simp only [List.length_cons] at hf
      exact ih _ _ _ _ hrest (by omega) (by omega)

/-- With no more fuel than the line has tokens `runcmd` yields no result. -/
theorem runcmd_timeout (k : Kernel) (fuel : Nat) (buf : List Char)
    (hnul : ∀ c ∈ buf, c.toNat ≠ 0) (hf : fuel ≤ (tokensOf buf).length)
    (hroom : (tokensOf buf).length ≤ 15) : runcmd k fuel buf = none := by
  have h := parseLoop_timeout fuel buf 0 [] [0] hnul hf (by omega)
  have hp : (parseArgs fuel buf).status = ParseStatus.timeout := by
    unfold parseArgs
    simp only []
    rw [h]
    exact h
  unfold runcmd
  simp only []
  rw [hp]

/-- The walk ends within any fuel that covers the step at which it reaches zero. -/
theorem backtraceLoop_of_chainAt_le (st : Stack) (fuel : Nat) :
    ∀ (n ebp : Nat) (prev : Eipdebuginfo) (log : List Event),
      n ≤ fuel → chainAt st.mem ebp n = 0 →
      ∃ l, backtraceLoop st fuel ebp prev log = some l := by
  induction fuel with
  | zero =>
    intro n ebp prev log hn h
    have hn0 : n = 0 := by omega
    subst hn0
    have h0 : ebp = 0 := h
    exact ⟨log, by simp [backtraceLoop, h0]⟩
  | succ f ih =>
    intro n ebp prev log hn h
    by_cases h0 : ebp = 0
    · exact ⟨log, by simp [backtraceLoop, h0]⟩
    · rw [backtraceLoop, if_pos h0]
      cases n with
      | zero => exact absurd h h0
      | succ m => exact ih m _ _ _ (by omega) h

/-- The function `mon_backtrace` returns within any fuel that covers the step at which
the walk reaches zero. -/
theorem mon_backtrace_of_chainAt (st : Stack) (n fuel : Nat) (argc : Int)
    (argv : List (List Char)) (hn : n ≤ fuel) (h : chainAt st.mem st.ebp n = 0) :
    ∃ r, mon_backtrace st fuel argc argv = some r := by
  obtain ⟨l, hl⟩ := backtraceLoop_of_chainAt_le st fuel n st.ebp
    (st.debuginfo_eip st.mon_backtrace_addr)
    [Event.print_backtrace_header, Event.call_debuginfo_eip st.mon_backtrace_addr] hn h
  refine ⟨{ ret := 0, log := l }, ?_⟩
  unfold mon_backtrace
  simp only []
  rw [hl]

/-- When `mon_backtrace` returns the walk has reached zero. -/
theorem mon_backtrace_some_chainAt (st : Stack) (fuel : Nat) (argc : Int)
    (argv : List (List Char)) (r : Result) (h : mon_backtrace st fuel argc argv = some r) :
    ∃ n, chainAt st.mem st.ebp n = 0 := by
  unfold mon_backtrace at h
  simp only [] at h
  cases hl : backtraceLoop st fuel st.ebp (st.debuginfo_eip st.mon_backtrace_addr)
      [Event.print_backtrace_header, Event.call_debuginfo_eip st.mon_backtrace_addr] with
  | none => rw [hl] at h; exact Option.noConfusion h
  | some l => exact backtraceLoop_some_chainAt st fuel _ _ _ l hl

/-- Without both address arguments `show_mappings` reads an argument that is not there. -/
theorem show_mappings_short (m : Machine) (fuel : Nat) (argc : Int)
    (argv : List (List Char)) (hargc : argc ≤ 3) (hlen : argv.length < 3) :
    show_mappings m fuel argc argv = none := by
  unfold show_mappings
  rw [if_neg (by omega)]
  match argv, hlen with
  | [], _ => rfl
  | [_], _ => rfl
  | [_, _], _ => rfl
  | _ :: _ :: _ :: _, h => simp only [List.length_cons] at h; omega

/-- On a line `showmap` with fewer than two arguments `runcmd` yields no result. -/
theorem runcmd_showmap_short (k : Kernel) (buf : List Char)
    (hnul : ∀ c ∈ buf, c.toNat ≠ 0) (ts : List (List Char))
    (ht : tokensOf buf = "showmap".toList :: ts) (hlen : ts.length < 2) (fuel : Nat) :
    runcmd k fuel buf = none := by
  have hl : (tokensOf buf).length = ts.length + 1 := by rw [ht]; rfl
  by_cases hf : fuel ≤ (tokensOf buf).length
  · exact runcmd_timeout k fuel buf hnul hf (by omega)
  · rw [runcmd_named k fuel buf hnul (by omega)
      { name := "showmap".toList,
        desc := "Show mappings of virtural memory to physical memory".toList,
        func := CommandFn.show_mappings } (by decide) ts ht
      (by simp only [List.length_cons]; omega)]
    have hcall : callCommand k fuel CommandFn.show_mappings
        (Int.ofNat ("showmap".toList :: ts).length) ("showmap".toList :: ts) = none :=
      show_mappings_short k.machine fuel _ _
        (by
          show Int.ofNat _ ≤ Int.ofNat 3
          exact Int.ofNat_le.mpr (by simp only [List.length_cons]; omega))
        (by simp only [List.length_cons]; omega)
    rw [hcall]
    rfl

/-- On a line `backtrace` over the cyclic stack `runcmd` yields no result. -/
theorem runcmd_backtrace_cyclic (fuel : Nat) :
    runcmd cyclicKernel fuel "backtrace".toList = none := by
  have ht : tokensOf "backtrace".toList = "backtrace".toList :: [] := by decide
  have hnul : ∀ c ∈ "backtrace".toList, c.toNat ≠ 0 := by decide
  by_cases hf : fuel ≤ (tokensOf "backtrace".toList).length
  · exact runcmd_timeout _ fuel _ hnul hf (by rw [ht]; decide)
  · rw [runcmd_named cyclicKernel fuel _ hnul (by omega)
      { name := "backtrace".toList,
        desc := "Show back trace infomation on stack(kern only)".toList,
        func := CommandFn.mon_backtrace } (by decide) [] ht (by decide)]
    have hb : mon_backtrace cyclicStack fuel (Int.ofNat ["backtrace".toList].length)
        ["backtrace".toList] = none := by
      unfold mon_backtrace
      simp only []
      have hebp : cyclicStack.ebp = 0x1000 := rfl
      rw [hebp, backtraceLoop_cyclic fuel]
    have hcall : callCommand cyclicKernel fuel CommandFn.mon_backtrace
        (Int.ofNat ["backtrace".toList].length) ["backtrace".toList] = none := hb
    rw [hcall]
    rfl


/-- The function `runcmd` on a line of at most 15 tokens that names a command, when the
call of the command returns `r`. -/
theorem runcmd_named_returns (k : Kernel) (fuel : Nat) (buf : List Char)
    (hnul : ∀ c ∈ buf, c.toNat ≠ 0) (hfuel : (tokensOf buf).length < fuel)
    (c : Command) (hc : c ∈ commands) (ts : List (List Char))
    (ht : tokensOf buf = c.name :: ts) (hlen : (c.name :: ts).length ≤ 15) (r : Result)
    (hr : callCommand k fuel c.func (Int.ofNat (c.name :: ts).length) (c.name :: ts) = some r) :
    ∃ r', runcmd k fuel buf = some r' ∧ r'.ret = 0 := by
  rw [runcmd_named k fuel buf hnul hfuel c hc ts ht hlen, hr]
  exact ⟨_, rfl, (callCommand_no_call k fuel c.func _ _ r hr).1⟩

/-- C15 (the claim fails): `runcmd` does not return a value for every command line. On
the line `showmap 0x1000`, two tokens, `show_mappings` reads the argument `argv[2]` that
is not there, and on the line `backtrace` over a stack whose frame has itself as saved
frame pointer `mon_backtrace` walks for ever: `runcmd` has no result, whatever the fuel. -/
theorem runcmd_does_not_always_return :
    (∀ c ∈ "showmap 0x1000".toList, c.toNat ≠ 0) ∧
    tokensOf "showmap 0x1000".toList = ["showmap".toList, "0x1000".toList] ∧
    (∀ fuel, runcmd demoKernel fuel "showmap 0x1000".toList = none) ∧
    cyclicKernel.stack.mem 0x1000 = 0x1000 ∧ cyclicKernel.stack.ebp = 0x1000 ∧
    (∀ fuel, runcmd cyclicKernel fuel "backtrace".toList = none) :=
  ⟨by decide, by decide,
    fun fuel => runcmd_showmap_short demoKernel _ (by decide) ["0x1000".toList] (by decide)
      (by decide) fuel,
    by decide, rfl, runcmd_backtrace_cyclic⟩

/-- C15 (amended): no command signals exit, and `runcmd` returns exactly when the command
it calls does. `mon_help` and `mon_kerninfo` return 0; `mon_backtrace` and `show_mappings`
return 0 whenever they return; whatever the command line, the value `runcmd` returns is 0,
so not negative. It does return on a line without a token, with an unknown first token or
with more than 15 tokens. On a line of 1 to 15 tokens that names a command it returns for
`help` and `kerninfo`; for `showmap` it returns with three or more arguments (the message)
and with exactly two (the scan), and has no result with fewer than two; for `backtrace` it
returns exactly when the walk from the starting frame pointer reaches zero. The loop of
`monitor` never takes its `break`, whatever the lines read. -/
theorem commands_never_exit (k : Kernel) :
    (∀ argc argv, (mon_help argc argv).ret = 0) ∧
    (∀ argc argv, (mon_kerninfo k argc argv).ret = 0) ∧
    (∀ fuel argc argv r, mon_backtrace k.stack fuel argc argv = some r → r.ret = 0) ∧
    (∀ fuel argc argv r, show_mappings k.machine fuel argc argv = some r → r.ret = 0) ∧
    (∀ fuel buf r, runcmd k fuel buf = some r → r.ret = 0 ∧ 0 ≤ r.ret) ∧
    (∀ buf, (∀ c ∈ buf, c.toNat ≠ 0) → ∀ fuel, 15 < fuel →
      (tokensOf buf = [] ∨ 16 ≤ (tokensOf buf).length ∨
        ∃ t ts, tokensOf buf = t :: ts ∧ ∀ c ∈ commands, c.name ≠ t) →
      ∃ r, runcmd k fuel buf = some r ∧ r.ret = 0) ∧
    (∀ buf, (∀ c ∈ buf, c.toNat ≠ 0) → ∀ t ts, tokensOf buf = t :: ts →
      (t :: ts).length ≤ 15 →
      (t = "help".toList ∨ t = "kerninfo".toList →
        ∀ fuel, (t :: ts).length < fuel → ∃ r, runcmd k fuel buf = some r ∧ r.ret = 0) ∧
      (t = "showmap".toList →
        (3 ≤ ts.length → ∀ fuel, (t :: ts).length < fuel →
          ∃ r, runcmd k fuel buf = some r ∧ r.ret = 0) ∧
        (∀ a1 a2, ts = [a1, a2] → ∀ fuel, 3 < fuel →
          (pageArg a2 - pageArg a1) / 4096 < fuel →
          ∃ r, runcmd k fuel buf = some r ∧ r.ret = 0) ∧
        (ts.length < 2 → ∀ fuel, runcmd k fuel buf = none)) ∧
      (t = "backtrace".toList →
        ((∃ fuel r, runcmd k fuel buf = some r) ↔
          ∃ n, chainAt k.stack.mem k.stack.ebp n = 0) ∧
        (∀ n, chainAt k.stack.mem k.stack.ebp n = 0 →
          ∀ fuel, (t :: ts).length < fuel → n ≤ fuel →
          ∃ r, runcmd k fuel buf = some r ∧ r.ret = 0))) ∧
    (∀ fuel tf lines b log, monitor k fuel tf lines = some (b, log) → b = false) := by
  refine ⟨fun _ _ => rfl, fun _ _ => rfl, ?_, ?_, ?_, ?_, ?_, ?_⟩
  · intro fuel argc argv r h
    exact (mon_backtrace_no_call k.stack fuel argc argv r h).1
  · intro fuel argc argv r h
    exact (show_mappings_no_call k.machine fuel argc argv r h).1
  · intro fuel buf r h
    have h0 := runcmd_ret k fuel buf r h
    exact ⟨h0, by rw [h0]⟩
  · intro buf hnul fuel hf hcase
    by_cases hmany : 16 ≤ (tokensOf buf).length
    · have hs := parseArgs_tooMany fuel buf hnul hf hmany
      refine ⟨{ ret := 0, log := [Event.print_too_many_arguments 16] }, ?_, rfl⟩
      unfold runcmd
      simp only []
      rw [hs]
      rfl
    · have hrun := runcmd_of_tokens k fuel buf hnul (by omega) (by omega)
      rcases hcase with ht | hm | ⟨t, ts, ht, hnone⟩
      · rw [ht] at hrun
        exact ⟨_, hrun, rfl⟩
      · exact absurd hm hmany
      · rw [ht] at hrun
        simp only [] at hrun
        rw [commands_find_none t hnone] at hrun
        exact ⟨_, hrun, rfl⟩
  · intro buf hnul t ts ht hlen
    have hl : (tokensOf buf).length = (t :: ts).length := by rw [ht]
    refine ⟨?_, ?_, ?_⟩
    · intro hname fuel hf
      rcases hname with hname | hname
      · subst hname
        exact runcmd_named_returns k fuel buf hnul (by omega)
          { name := "help".toList, desc := "Display this list of commands".toList,
            func := CommandFn.mon_help } (by decide) ts ht hlen _ rfl
      · subst hname
        exact runcmd_named_returns k fuel buf hnul (by omega)
          { name := "kerninfo".toList,
            desc := "Display information about the kernel".toList,
            func := CommandFn.mon_kerninfo } (by decide) ts ht hlen _ rfl
    · intro hname
      subst hname
      refine ⟨?_, ?_, ?_⟩
      · intro h3 fuel hf
        refine runcmd_named_returns k fuel buf hnul (by omega)
          { name := "showmap".toList,
            desc := "Show mappings of virtural memory to physical memory".toList,
            func := CommandFn.show_mappings } (by decide) ts ht hlen
          { ret := 0, log := [Event.print_too_many_args] } ?_
        show show_mappings k.machine fuel (Int.ofNat ("showmap".toList :: ts).length)
          ("showmap".toList :: ts) = _
        unfold show_mappings
        rw [if_pos (by
          show Int.ofNat 3 < Int.ofNat _
          exact Int.ofNat_lt.mpr (by simp only [List.length_cons]; omega))]
      · intro a1 a2 hts fuel hf3 hpages
        subst hts
        obtain ⟨r, hr, _, _⟩ := show_mappings_returns k.machine
          (Int.ofNat ["showmap".toList, a1, a2].length) "showmap".toList a1 a2 []
          (Int.le_refl 3)
        exact runcmd_named_returns k fuel buf hnul (by rw [hl]; exact hf3)
          { name := "showmap".toList,
            desc := "Show mappings of virtural memory to physical memory".toList,
            func := CommandFn.show_mappings } (by decide) [a1, a2] ht hlen r
          (hr fuel hpages)
      · intro hshort fuel
        exact runcmd_showmap_short k buf hnul ts ht hshort fuel
    · intro hname
      subst hname
      have hret : ∀ n, chainAt k.stack.mem k.stack.ebp n = 0 →
          ∀ fuel, ("backtrace".toList :: ts).length < fuel → n ≤ fuel →
          ∃ r, runcmd k fuel buf = some r ∧ r.ret = 0 := by
        intro n hn fuel hf hnf
        obtain ⟨r, hr⟩ := mon_backtrace_of_chainAt k.stack n fuel
          (Int.ofNat ("backtrace".toList :: ts).length) ("backtrace".toList :: ts) hnf hn
        exact runcmd_named_returns k fuel buf hnul (by omega)
          { name := "backtrace".toList,
            desc := "Show back trace infomation on stack(kern only)".toList,
            func := CommandFn.mon_backtrace } (by decide) ts ht hlen r hr
      refine ⟨⟨?_, ?_⟩, hret⟩
      · rintro ⟨fuel, r, hr⟩
        by_cases hf : fuel ≤ (tokensOf buf).length
        · rw [runcmd_timeout k fuel buf hnul hf (by omega)] at hr
          exact Option.noConfusion hr
        · rw [runcmd_named k fuel buf hnul (by omega)
            { name := "backtrace".toList,
              desc := "Show back trace infomation on stack(kern only)".toList,
              func := CommandFn.mon_backtrace } (by decide) ts ht hlen] at hr
          cases hb : mon_backtrace k.stack fuel
              (Int.ofNat ("backtrace".toList :: ts).length) ("backtrace".toList :: ts) with
          | none =>
            have hcall : callCommand k fuel CommandFn.mon_backtrace
                (Int.ofNat ("backtrace".toList :: ts).length) ("backtrace".toList :: ts)
                = none := hb
            rw [hcall] at hr
            exact Option.noConfusion hr
          | some r' => exact mon_backtrace_some_chainAt k.stack fuel _ _ r' hb
      · rintro ⟨n, hn⟩
        obtain ⟨r, hr, _⟩ := hret n hn (max n (("backtrace".toList :: ts).length + 1))
          (by omega) (by omega)
        exact ⟨_, r, hr⟩
  · intro fuel tf lines b log h
    exact monitorLoop_no_break k fuel lines _ b log h

theorem commands_never_exit_witness :
    (∀ c ∈ "showmap 0x1000 0x2000".toList, c.toNat ≠ 0) ∧
    tokensOf "showmap 0x1000 0x2000".toList =
      ["showmap".toList, "0x1000".toList, "0x2000".toList] ∧
    (∃ r, runcmd demoKernel 4 "showmap 0x1000 0x2000".toList = some r ∧ r.ret = 0) ∧
    (∀ fuel, runcmd demoKernel fuel "showmap 0x1000".toList = none) ∧
    (∃ r, runcmd demoKernel 2 "help".toList = some r ∧ r.ret = 0) ∧
    chainAt demoKernel.stack.mem demoKernel.stack.ebp 2 = 0 ∧
    (∃ r, runcmd demoKernel 2 "backtrace".toList = some r ∧ r.ret = 0) :=
  ⟨by decide, by decide,
    ((commands_never_exit demoKernel).2.2.2.2.2.2.1 "showmap 0x1000 0x2000".toList
      (by decide) "showmap".toList ["0x1000".toList, "0x2000".toList] (by decide)
      (by decide)).2.1 rfl |>.2.1 "0x1000".toList "0x2000".toList rfl 4 (by decide)
      (by decide),
    ((commands_never_exit demoKernel).2.2.2.2.2.2.1 "showmap 0x1000".toList
      (by decide) "showmap".toList ["0x1000".toList] (by decide)
      (by decide)).2.1 rfl |>.2.2 (by decide),
    ((commands_never_exit demoKernel).2.2.2.2.2.2.1 "help".toList
      (by decide) "help".toList [] (by decide) (by decide)).1 (Or.inl rfl) 2 (by decide),
    by decide,
    ((commands_never_exit demoKernel).2.2.2.2.2.2.1 "backtrace".toList
      (by decide) "backtrace".toList [] (by decide) (by decide)).2.2 rfl |>.2 2 (by decide)
      2 (by decide) (by decide)⟩


end Monitor
